import Mathlib

/-!
SimpleBinOpParser: the lexer and the precedence-climbing parser of `main.cpp`.

A shallow embedding of the program's globals, its lexer (`getNextChar`,
`gettok`, `getNextToken`), its precedence table (`BinopPrecedence`,
`getTokPrecedence`), its parser (`ParsePrimary`, `ParseParenExpr`,
`ParseBinOpRHS`, `parseExpression`), the `print` methods of its tree nodes
and the loop of `main`, followed by theorems about them.

Conventions.
* A C `char` and a C `int` are both written as `Int`; a text is a `List Int`
  of character codes (`'('` is 40, `' '` is 32, ...).  The conversions between
  `char` and `int` are the identity on the values that occur: the codes of
  the characters of the line, `EOF` and the three negative token codes.
* The character classes of `<cctype>` are those of the "C" locale, which the
  program never changes; they are false outside the ASCII range.
* `double` is an arbitrary type `D`; the C library's `strtod` is a parameter
  `strtod : List Int → D` of the lexer.
* `char` is a signed type, as with the usual compilers on x86-64, so a byte
  of the line above 127 is a negative character; the byte 0xFF is -1.
* `int` has 32 bits: `INT_MAX` is 2147483647.
* `std::cout` of `print` is the list of the lines it writes, each one the
  characters in front of an `endl`; the output format of a `double` is a
  parameter `fmt : D → List Int`.
* The globals of the program are the fields of `State`; a function that
  touches them takes a `State` and returns the new one.
* `std::cerr` is the field `cerr`, the list of lines written so far.
* The recursive parsing functions take a fuel argument that bounds the depth
  of the call stack; `none` means that the fuel ran out.  `parseFuel` is a
  fuel that always suffices (`parseExpression_terminates`).
-/

namespace SimpleBinOpParser

/-! ## Tokens and character classes -/

/-- The value of `EOF` in `<cstdio>`. -/
def EOF : Int := -1

/-- Token code `tok_eof = -1`. -/
def tok_eof : Int := -1
/-- Token code `tok_number = -2`. -/
def tok_number : Int := -2
/-- Token code `tok_identifier = -3`. -/
def tok_identifier : Int := -3

/-- The `isspace` of `<cctype>` in the "C" locale: space, `\t`, `\n`, `\v`, `\f`, `\r`. -/
def isspace (c : Int) : Bool := c == 32 || (decide (9 ≤ c) && decide (c ≤ 13))

/-- The `isalpha` of `<cctype>` in the "C" locale: `A`..`Z` and `a`..`z`. -/
def isalpha (c : Int) : Bool :=
  (decide (65 ≤ c) && decide (c ≤ 90)) || (decide (97 ≤ c) && decide (c ≤ 122))

/-- The `isdigit` of `<cctype>`: `0`..`9`. -/
def isdigit (c : Int) : Bool := decide (48 ≤ c) && decide (c ≤ 57)

/-- The `isalnum` of `<cctype>` in the "C" locale. -/
def isalnum (c : Int) : Bool := isalpha c || isdigit c

/-- The `isascii` of `<cctype>`: no bit outside the low seven is set. -/
def isascii (c : Int) : Bool := decide (0 ≤ c) && decide (c ≤ 127)

/-! ## Data model -/

/-- The class hierarchy `ExprAST` / `NumberExprAST` / `VariableExprAST` /
`BinaryExprAST` as one inductive type. -/
inductive ExprAST (D : Type) where
  | NumberExprAST (Val : D) : ExprAST D
  | VariableExprAST (Name : List Int) : ExprAST D
  | BinaryExprAST (Op : Int) (LHS RHS : ExprAST D) : ExprAST D
  deriving DecidableEq, Repr

/-- The initial contents of the global `BinopPrecedence`, in key order as a
`std::map<char, int>` keeps them: `*`, `+`, `-`, `/`, `<`. -/
def BinopPrecedence : List (Int × Int) :=
  [(42, 40), (43, 20), (45, 20), (47, 50), (60, 10)]

/-- The globals of the program, the function-local static `LastChar` of
`gettok`, and the lines written to `std::cerr`. -/
structure State (D : Type) where
  IdentifierStr : List Int
  NumVal : D
  CurTok : Int
  InputBuffer : List Int
  InputPos : Nat
  LastChar : Int
  BinopPrecedence : List (Int × Int)
  cerr : List String
  deriving DecidableEq, Repr

/-- The state of the program when `main` starts: zero-initialised globals,
`LastChar = ' '`, the precedence table with its five entries. -/
def initial {D : Type} (zero : D) : State D :=
  { IdentifierStr := []
    NumVal := zero
    CurTok := 0
    InputBuffer := []
    InputPos := 0
    LastChar := 32
    BinopPrecedence := BinopPrecedence
    cerr := [] }

/-! ## Lexer -/

section Lexer

variable {D : Type}

/-- Source `getNextChar`: `EOF` once `InputPos` has reached the end of the
buffer, otherwise the character at `InputPos`, which is then advanced. -/
def getNextChar (s : State D) : Int × State D :=
  if h : s.InputBuffer.length ≤ s.InputPos then (EOF, s)
  else (s.InputBuffer.get ⟨s.InputPos, by omega⟩, { s with InputPos := s.InputPos + 1 })

/-- Number of characters of the buffer that `getNextChar` has not delivered yet. -/
def remaining (s : State D) : Nat := s.InputBuffer.length - s.InputPos

/-- The loop `while (isspace(LastChar)) LastChar = getNextChar();`, at most
`n` iterations. -/
def skipWhitespace : Nat → State D → State D
  | 0, s => s
  | n + 1, s =>
    if isspace s.LastChar then
      let r := getNextChar s
      skipWhitespace n { r.2 with LastChar := r.1 }
    else s

/-- The loop `while (isalnum(LastChar = getNextChar())) IdentifierStr += LastChar;`,
at most `n` evaluations of its condition. -/
def readIdentifier : Nat → State D → State D
  | 0, s => s
  | n + 1, s =>
    let r := getNextChar s
    let s1 := { r.2 with LastChar := r.1 }
    if isalnum s1.LastChar then
      readIdentifier n { s1 with IdentifierStr := s1.IdentifierStr ++ [s1.LastChar] }
    else s1

/-- The loop `do { NumStr += LastChar; LastChar = getNextChar(); }
while (isdigit(LastChar) || LastChar == '.');`, at most `n` iterations. -/
def readNumber : Nat → List Int → State D → List Int × State D
  | 0, NumStr, s => (NumStr, s)
  | n + 1, NumStr, s =>
    let NumStr1 := NumStr ++ [s.LastChar]
    let r := getNextChar s
    let s1 := { r.2 with LastChar := r.1 }
    if isdigit s1.LastChar || s1.LastChar == 46 then readNumber n NumStr1 s1
    else (NumStr1, s1)

/-- Source `gettok`.  Each loop runs on `remaining s + 1` iterations, one more
than the number of characters left, which it never exceeds. -/
def gettok (strtod : List Int → D) (s : State D) : Int × State D :=
  let s1 := skipWhitespace (remaining s + 1) s
  if isalpha s1.LastChar then
    let s2 := { s1 with IdentifierStr := [s1.LastChar] }
    (tok_identifier, readIdentifier (remaining s2 + 1) s2)
  else if isdigit s1.LastChar || s1.LastChar == 46 then
    let r := readNumber (remaining s1 + 1) [] s1
    (tok_number, { r.2 with NumVal := strtod r.1 })
  else if s1.LastChar = EOF then (tok_eof, s1)
  else
    let ThisChar := s1.LastChar
    let r := getNextChar s1
    (ThisChar, { r.2 with LastChar := r.1 })

/-- Source `getNextToken`: `return CurTok = gettok();`. -/
def getNextToken (strtod : List Int → D) (s : State D) : Int × State D :=
  let r := gettok strtod s
  (r.1, { r.2 with CurTok := r.1 })

end Lexer

/-! ## Precedence table -/

/-- The `operator[]` of `std::map<char, int>`: the value stored under `k`; a
key that is absent is first inserted, in key order, with the value `0`. -/
def mapIndex : List (Int × Int) → Int → Int × List (Int × Int)
  | [], k => (0, [(k, 0)])
  | (k1, v) :: m, k =>
    if k = k1 then (v, (k1, v) :: m)
    else if k < k1 then (0, (k, 0) :: (k1, v) :: m)
    else ((mapIndex m k).1, (k1, v) :: (mapIndex m k).2)

section Parser

variable {D : Type}

/-- Source `getTokPrecedence`. -/
def getTokPrecedence (s : State D) : Int × State D :=
  if !isascii s.CurTok then (-1, s)
  else
    let r := mapIndex s.BinopPrecedence s.CurTok
    let TokPrec := r.1
    let s1 := { s with BinopPrecedence := r.2 }
    if TokPrec ≤ 0 then (-1, s1)
    else (TokPrec, s1)

/-! ## Parser -/

/-- Source `LogError`: writes `Error: <Str>` to `std::cerr`, returns `nullptr`. -/
def LogError (Str : String) (s : State D) : Option (ExprAST D) × State D :=
  (none, { s with cerr := s.cerr ++ ["Error: " ++ Str] })

/-- Source `ParseNumberExpr`. -/
def ParseNumberExpr (strtod : List Int → D) (s : State D) : Option (ExprAST D) × State D :=
  let Result := ExprAST.NumberExprAST s.NumVal
  (some Result, (getNextToken strtod s).2)

/-- Source `ParseIdentifierExpr`. -/
def ParseIdentifierExpr (strtod : List Int → D) (s : State D) : Option (ExprAST D) × State D :=
  let Result := ExprAST.VariableExprAST s.IdentifierStr
  (some Result, (getNextToken strtod s).2)

mutual

/-- Source `ParsePrimary`. -/
def ParsePrimary (strtod : List Int → D) : Nat → State D → Option (Option (ExprAST D) × State D)
  | 0, _ => none
  | fuel + 1, s =>
    if s.CurTok = tok_identifier then some (ParseIdentifierExpr strtod s)
    else if s.CurTok = tok_number then some (ParseNumberExpr strtod s)
    else if s.CurTok = 40 then ParseParenExpr strtod fuel s
    else some (LogError "Unknown token when expecting an expression" s)

/-- Source `ParseParenExpr`. -/
def ParseParenExpr (strtod : List Int → D) : Nat → State D → Option (Option (ExprAST D) × State D)
  | 0, _ => none
  | fuel + 1, s =>
    let s1 := (getNextToken strtod s).2
    match parseExpression strtod fuel s1 with
    | none => none
    | some (none, s2) => some (none, s2)
    | some (some V, s2) =>
      if s2.CurTok ≠ 41 then some (LogError "Expected ')'" s2)
      else some (some V, (getNextToken strtod s2).2)

/-- Source `ParseBinOpRHS`.  One iteration of `while (true)` is one call. -/
def ParseBinOpRHS (strtod : List Int → D) :
    Nat → Int → ExprAST D → State D → Option (Option (ExprAST D) × State D)
  | 0, _, _, _ => none
  | fuel + 1, ExprPrec, LHS, s =>
    let p := getTokPrecedence s
    let TokPrec := p.1
    if TokPrec < ExprPrec then some (some LHS, p.2)
    else
      let BinOp := p.2.CurTok
      let s1 := (getNextToken strtod p.2).2
      match ParsePrimary strtod fuel s1 with
      | none => none
      | some (none, s2) => some (none, s2)
      | some (some RHS, s2) =>
        let q := getTokPrecedence s2
        let NextPrec := q.1
        if TokPrec < NextPrec then
          match ParseBinOpRHS strtod fuel (TokPrec + 1) RHS q.2 with
          | none => none
          | some (none, s3) => some (none, s3)
          | some (some RHS1, s3) =>
            ParseBinOpRHS strtod fuel ExprPrec (ExprAST.BinaryExprAST BinOp LHS RHS1) s3
        else ParseBinOpRHS strtod fuel ExprPrec (ExprAST.BinaryExprAST BinOp LHS RHS) q.2

/-- Source `parseExpression`. -/
def parseExpression (strtod : List Int → D) : Nat → State D → Option (Option (ExprAST D) × State D)
  | 0, _ => none
  | fuel + 1, s =>
    match ParsePrimary strtod fuel s with
    | none => none
    | some (none, s1) => some (none, s1)
    | some (some LHS, s1) => ParseBinOpRHS strtod fuel 0 LHS s1

end

end Parser

/-! ## Printing the tree -/

section Printing

variable {D : Type}

/-- The largest `int`. -/
def INT_MAX : Int := 2147483647

/-- The character codes of a string literal. -/
def chars (s : String) : List Int := s.toList.map (fun c => (c.toNat : Int))

/-- Source `string(indent, ' ')`, for a count that is not negative. -/
def indentation (indent : Int) : List Int := List.replicate indent.toNat 32

/-- Source `print(int indent)` of the three node classes: the lines written
to `std::cout`. The result is `none` when the run has no defined output:
`std::string` throws for a negative count, and an `indent` above `INT_MAX`
stands for the signed overflow of `indent + 2` in the caller. -/
def print (fmt : D → List Int) : ExprAST D → Int → Option (List (List Int))
  | ExprAST.NumberExprAST Val, indent =>
    if indent < 0 ∨ INT_MAX < indent then none
    else some [indentation indent ++ chars "Number: " ++ fmt Val]
  | ExprAST.VariableExprAST Name, indent =>
    if indent < 0 ∨ INT_MAX < indent then none
    else some [indentation indent ++ chars "Variable: " ++ Name]
  | ExprAST.BinaryExprAST Op LHS RHS, indent =>
    if indent < 0 ∨ INT_MAX < indent then none
    else
      match print fmt LHS (indent + 2) with
      | none => none
      | some a =>
        match print fmt RHS (indent + 2) with
        | none => none
        | some b => some ((indentation indent ++ chars "Binary Op: " ++ [Op]) :: (a ++ b))

end Printing

/-! ## Driver -/

section Driver

variable {D : Type}

/-- A fuel that is enough for `parseExpression` in state `s`. -/
def parseFuel (s : State D) : Nat := 3 * (remaining s + 2) + 3


/-- `parseExpression` with the fuel `parseFuel`, which always suffices. -/
def parse (strtod : List Int → D) (s : State D) : Option (Option (ExprAST D) × State D) :=
  parseExpression strtod (parseFuel s) s

/-- The steps `main` performs for one line (source lines 206 to 211): the
line becomes `InputBuffer`, `InputPos` is reset, `getNextToken()` reads the
first token, `parseExpression()` runs. -/
def parseLine (strtod : List Int → D) (s : State D) (line : List Int) :
    Option (Option (ExprAST D) × State D) :=
  parse strtod (getNextToken strtod { s with InputBuffer := line, InputPos := 0 }).2

/-- The state after the loop of `main` (source lines 203 to 221) has handled
the lines `lines` one after the other, each with the steps of `parseLine`;
the loop ends at the end of the input or at the first empty line, which
`getline` still stores in `InputBuffer`. -/
def afterLines (strtod : List Int → D) (s : State D) : List (List Int) → State D
  | [] => s
  | line :: lines =>
    if line.isEmpty then { s with InputBuffer := [] }
    else
      match parseLine strtod s line with
      | some r => afterLines strtod r.2 lines
      | none => afterLines strtod s lines

end Driver

/-! ## Vocabulary of the statements

Nothing below is program code: these definitions describe texts, tokens and
runs of the functions above. -/

section Vocabulary

variable {D : Type}

/-- The characters of the buffer from `InputPos` on. -/
def rem (s : State D) : List Int := s.InputBuffer.drop s.InputPos

/-- The part of a text in front of its first character of value `EOF`: a
character of that value makes the lexer stop for good. -/
def visible (l : List Int) : List Int := l.takeWhile (fun c => c != EOF)

/-- The text in front of the lexer: the lookahead and what follows it. -/
def vtext (s : State D) : List Int := visible (s.LastChar :: rem s)

/-- The text in front of the lexer, leading whitespace dropped. -/
def vis (s : State D) : List Int := (vtext s).dropWhile isspace

/-- The character test of the number loop: a digit or `.`. -/
def isnumch (c : Int) : Bool := isdigit c || c == 46


/-- What one call of `gettok` does, as a function of the text in front of it. -/
structure LexOut (D : Type) where
  tok : Int
  ident : Option (List Int)
  num : Option D
  rest : List Int

/-- The token that starts a visible text without leading whitespace, the new
value of `IdentifierStr` or `NumVal` when the token sets one, and the text
that is left. -/
def lexVis (strtod : List Int → D) : List Int → LexOut D
  | [] => ⟨tok_eof, none, none, []⟩
  | c :: v =>
    if isalpha c then
      ⟨tok_identifier, some (c :: v.takeWhile isalnum), none, v.dropWhile isalnum⟩
    else if isnumch c then
      ⟨tok_number, none, some (strtod (c :: v.takeWhile isnumch)), v.dropWhile isnumch⟩
    else ⟨c, none, none, v⟩


/-- The precedence of a token code under the initial table: what
`getTokPrecedence` answers. -/
def precOf (c : Int) : Int :=
  if c = 60 then 10
  else if c = 43 then 20
  else if c = 45 then 20
  else if c = 42 then 40
  else if c = 47 then 50
  else -1

/-- A table that answers every lookup as the initial table does: the initial
entries, and possibly keys that `operator[]` has inserted with value `0`. -/
def TableOK (m : List (Int × Int)) : Prop :=
  ∀ k, (mapIndex m k).1 = (mapIndex BinopPrecedence k).1


/-- An upper bound on the number of tokens the parser can still consume: the
length of the visible text, plus one for a current token other than `tok_eof`. -/
def tokensLeft (s : State D) : Nat := (vis s).length + (if s.CurTok = tok_eof then 0 else 1)

/-- `ParsePrimary`, called in state `s`, returns `r` and leaves state `s1`. -/
def PrimaryTo (strtod : List Int → D) (s : State D) (r : Option (ExprAST D)) (s1 : State D) :
    Prop :=
  ∃ fuel, ParsePrimary strtod fuel s = some (r, s1)

/-- `ParseBinOpRHS(ExprPrec, LHS)`, called in state `s`, returns `r` and leaves state `s1`. -/
def BinOpTo (strtod : List Int → D) (ExprPrec : Int) (LHS : ExprAST D) (s : State D)
    (r : Option (ExprAST D)) (s1 : State D) : Prop :=
  ∃ fuel, ParseBinOpRHS strtod fuel ExprPrec LHS s = some (r, s1)

/-- `parseExpression`, called in state `s`, returns `r` and leaves state `s1`. -/
def ExprTo (strtod : List Int → D) (s : State D) (r : Option (ExprAST D)) (s1 : State D) :
    Prop :=
  ∃ fuel, parseExpression strtod fuel s = some (r, s1)

/-- A text made of whitespace characters only. -/
def Blank (w : List Int) : Prop := ∀ c ∈ w, isspace c = true

instance (w : List Int) : Decidable (Blank w) :=
  inferInstanceAs (Decidable (∀ c ∈ w, isspace c = true))

/-- The precedence table after `operator[]` has been applied to it with the
keys `ks`, one after the other: the tables that can occur at run time. -/
def tableAfter (ks : List Int) : List (Int × Int) :=
  ks.foldl (fun m k => (mapIndex m k).2) BinopPrecedence

/-- A leaf operand as it is written in a line: the text of a number token or
the name of an identifier token. -/
inductive Leaf where
  | num (text : List Int) : Leaf
  | ident (name : List Int) : Leaf
  deriving DecidableEq, Repr

/-- The characters of a leaf operand. -/
def Leaf.text : Leaf → List Int
  | Leaf.num t => t
  | Leaf.ident n => n

/-- A number text is a non-empty run of digits and `.`; an identifier is a
letter followed by letters and digits. -/
def Leaf.valid : Leaf → Bool
  | Leaf.num t => !t.isEmpty && t.all isnumch
  | Leaf.ident [] => false
  | Leaf.ident (c :: cs) => isalpha c && cs.all isalnum

/-- The tree of a leaf operand: `NumberExprAST(strtod(text))` or
`VariableExprAST(name)`. -/
def Leaf.ast (strtod : List Int → D) : Leaf → ExprAST D
  | Leaf.num t => ExprAST.NumberExprAST (strtod t)
  | Leaf.ident n => ExprAST.VariableExprAST n

/-- The text `rest` does not continue a number or an identifier that ends
right in front of it: it is empty or starts with a character that is neither
alphanumeric nor `.`. -/
def Delim (rest : List Int) : Prop :=
  ∀ x, rest.head? = some x → isalnum x = false ∧ isnumch x = false

/-- A character that `gettok` returns as a token of its own. -/
def isSym (c : Int) : Bool := !isspace c && !isalpha c && !isnumch c

/-- The parser state in which the first token of `text` has just been read
into `CurTok` (with `IdentifierStr` or `NumVal` when the token sets it), the
lexer stands in front of the remainder of `text`, and the precedence table
answers like the initial one. -/
def At (strtod : List Int → D) (s : State D) (text : List Int) : Prop :=
  s.CurTok = (lexVis strtod (text.dropWhile isspace)).tok ∧
  (∀ i, (lexVis strtod (text.dropWhile isspace)).ident = some i → s.IdentifierStr = i) ∧
  (∀ x, (lexVis strtod (text.dropWhile isspace)).num = some x → s.NumVal = x) ∧
  vis s = (lexVis strtod (text.dropWhile isspace)).rest.dropWhile isspace ∧
  TableOK s.BinopPrecedence

/-- One more operand of a chain as it is written in a line: optional
whitespace, the operator character, optional whitespace, the operand. -/
structure Link where
  pre : List Int
  op : Int
  mid : List Int
  operand : Leaf
  deriving DecidableEq, Repr

/-- A well-written link whose operator has precedence `p` in the table. -/
def Link.ok (p : Int) (k : Link) : Prop :=
  Blank k.pre ∧ Blank k.mid ∧ (k.op, p) ∈ BinopPrecedence ∧ k.operand.valid = true

instance (p : Int) (k : Link) : Decidable (Link.ok p k) :=
  inferInstanceAs (Decidable (Blank k.pre ∧ Blank k.mid ∧ (k.op, p) ∈ BinopPrecedence ∧
    k.operand.valid = true))

/-- The text of a chain of links, followed by `rest`. -/
def chainText : List Link → List Int → List Int
  | [], rest => rest
  | k :: ks, rest => k.pre ++ k.op :: (k.mid ++ (k.operand.text ++ chainText ks rest))

/-- The left-nested tree `Binary(on, ... Binary(o1, t, p1) ..., pn)`. -/
def leftNested (strtod : List Int → D) : ExprAST D → List Link → ExprAST D
  | t, [] => t
  | t, k :: ks =>
    leftNested strtod (ExprAST.BinaryExprAST k.op t (k.operand.ast strtod)) ks

/-- Two parser states with the same current token and the same visible text
ahead, both with a table that answers like the initial one; when `d` holds
they also agree on `IdentifierStr`, `NumVal` and `cerr`. -/
def Sim (d : Prop) (s1 s2 : State D) : Prop :=
  (s1.CurTok = s2.CurTok ∧ vis s1 = vis s2 ∧
    TableOK s1.BinopPrecedence ∧ TableOK s2.BinopPrecedence) ∧
  (d → s1.IdentifierStr = s2.IdentifierStr ∧ s1.NumVal = s2.NumVal ∧ s1.cerr = s2.cerr)

/-- Two results that are both `nullptr` or both a tree, the same tree when
`d` holds. -/
def Rel (d : Prop) (r1 r2 : Option (ExprAST D)) : Prop :=
  (r1 = none ↔ r2 = none) ∧ (d → r1 = r2)

/-- The states `s1` and `s2` of two runs, the second on a line that continues
the first one's line with a space, a `)` and the text `R`.  Either the runs
are at the same point (same current token, `IdentifierStr` and `NumVal`, and
the second lexer has the extra text ahead, or both lexers have stopped at a
character of value `EOF`), or the first run has reached the end of its input
while the second one has a token without precedence. -/
def Ext (R : List Int) (s1 s2 : State D) : Prop :=
  TableOK s1.BinopPrecedence ∧ TableOK s2.BinopPrecedence ∧
  ((s1.CurTok = s2.CurTok ∧ s1.IdentifierStr = s2.IdentifierStr ∧ s1.NumVal = s2.NumVal ∧
      (vtext s2 = vtext s1 ++ 32 :: 41 :: R ∨ vtext s2 = vtext s1)) ∨
    (s1.CurTok = tok_eof ∧ precOf s2.CurTok = -1))

/-- Every `BinaryExprAST` node of the tree carries an operator that is a key
of the initial precedence table with a precedence above 0. -/
def opsInTable : ExprAST D → Prop
  | ExprAST.NumberExprAST _ => True
  | ExprAST.VariableExprAST _ => True
  | ExprAST.BinaryExprAST op l r =>
    (∃ p, (op, p) ∈ BinopPrecedence ∧ 0 < p) ∧ opsInTable l ∧ opsInTable r

/-- The keys of a `std::map` stand in strictly increasing order. -/
def KeysSorted (m : List (Int × Int)) : Prop := m.Pairwise (fun a b => a.1 < b.1)

/-- A table that still holds the five initial entries and in which every
other entry has the value 0. -/
def TableKept (m : List (Int × Int)) : Prop :=
  (∀ e ∈ BinopPrecedence, e ∈ m) ∧ (∀ e ∈ m, e ∈ BinopPrecedence ∨ e.2 = 0)

/-- The nodes of a tree in pre-order (node, left subtree, right subtree),
each with its depth below the root counted from `d` and the text of its
line: `Number: <value>`, `Variable: <name>` or `Binary Op: <operator>`. -/
def listing (fmt : D → List Int) : ExprAST D → Nat → List (Nat × List Int)
  | ExprAST.NumberExprAST Val, d => [(d, chars "Number: " ++ fmt Val)]
  | ExprAST.VariableExprAST Name, d => [(d, chars "Variable: " ++ Name)]
  | ExprAST.BinaryExprAST Op LHS RHS, d =>
    (d, chars "Binary Op: " ++ [Op]) :: (listing fmt LHS (d + 1) ++ listing fmt RHS (d + 1))

/-- The number of nodes of a tree. -/
def size : ExprAST D → Nat
  | ExprAST.NumberExprAST _ => 1
  | ExprAST.VariableExprAST _ => 1
  | ExprAST.BinaryExprAST _ LHS RHS => 1 + size LHS + size RHS

/-- The depth of the deepest node of a tree, the root having depth 0. -/
def height : ExprAST D → Nat
  | ExprAST.NumberExprAST _ => 0
  | ExprAST.VariableExprAST _ => 0
  | ExprAST.BinaryExprAST _ LHS RHS => 1 + max (height LHS) (height RHS)

/-- A tree as it is written down: the leaves are operand texts. -/
inductive Shape where
  | leaf (p : Leaf) : Shape
  | binary (op : Int) (l r : Shape) : Shape
  deriving DecidableEq, Repr

/-- The tree the parser is to return for a written tree. -/
def Shape.ast (strtod : List Int → D) : Shape → ExprAST D
  | Shape.leaf p => p.ast strtod
  | Shape.binary op l r => ExprAST.BinaryExprAST op (Shape.ast strtod l) (Shape.ast strtod r)

/-- All leaves are identifier or number tokens and all operators are keys of
the initial precedence table. -/
def Shape.ok : Shape → Prop
  | Shape.leaf p => p.valid = true
  | Shape.binary op l r => (∃ p, (op, p) ∈ BinopPrecedence) ∧ Shape.ok l ∧ Shape.ok r

/-- The fully parenthesised text of a tree: a leaf is its token, a binary
node is `(`, the left subtree, the operator, the right subtree, `)`; `sep`
stands between two tokens. -/
def render (sep : List Int) : Shape → List Int
  | Shape.leaf p => p.text
  | Shape.binary op l r =>
    40 :: (sep ++ (render sep l ++ (sep ++ op :: (sep ++ (render sep r ++ (sep ++ [41]))))))

/-- A well-written link: whitespace, an operator of the table, whitespace,
an identifier or number token. -/
def Link.wf (k : Link) : Prop := ∃ p, Link.ok p k

/-- A non-empty list cut at its LAST element of minimal key: the elements in
front of it, the element, the elements behind it. -/
def splitLastMin {α : Type} (key : α → Int) : List α → Option (List α × α × List α)
  | [] => none
  | x :: xs =>
    match splitLastMin key xs with
    | none => some ([], x, [])
    | some (a, y, b) => if key x < key y then some ([], x, xs) else some (x :: a, y, b)

/-- The reference tree of the chain `t o1 p1 ... on pn` whose first operand
`t` is a tree already: `t` when there is no operator, otherwise the chain is
cut at the last operator `ok` of minimal precedence and the result is
`Binary(ok, reference of the part in front, reference of pk ... pn)`. The
first argument bounds the number of cuts. -/
def refTree (strtod : List Int → D) : Nat → ExprAST D → List Link → ExprAST D
  | 0, t, _ => t
  | n + 1, t, links =>
    match splitLastMin (fun k => precOf k.op) links with
    | none => t
    | some (a, k, b) =>
      ExprAST.BinaryExprAST k.op (refTree strtod n t a)
        (refTree strtod n (k.operand.ast strtod) b)

/-- The reference tree of the chain `p0 o1 p1 ... on pn`. -/
def ref (strtod : List Int → D) (p0 : Leaf) (links : List Link) : ExprAST D :=
  refTree strtod links.length (p0.ast strtod) links

/-- The in-order traversal of a tree: leaves and operators as they stand
from left to right. -/
def inorder : ExprAST D → List (ExprAST D ⊕ Int)
  | ExprAST.NumberExprAST Val => [Sum.inl (ExprAST.NumberExprAST Val)]
  | ExprAST.VariableExprAST Name => [Sum.inl (ExprAST.VariableExprAST Name)]
  | ExprAST.BinaryExprAST Op LHS RHS => inorder LHS ++ Sum.inr Op :: inorder RHS

/-- The operators and operands of a list of links, as they are written. -/
def linkItems (strtod : List Int → D) : List Link → List (ExprAST D ⊕ Int)
  | [] => []
  | k :: ks => Sum.inr k.op :: Sum.inl (k.operand.ast strtod) :: linkItems strtod ks

/-- Two parser states on a line `l` (`s1`) and on the line `l`, a space and
the operator `o` (`s2`), the second with `cerr = c`. Either `s1` has not
reached the end of the line: both have the same current token and token
data, and `s2` has the space and `o` more ahead. Or `s1` is at the end of
the line, and `o` is the current token of `s2` with nothing behind it. -/
def ExtOp (o : Int) (c : List String) (s1 s2 : State D) : Prop :=
  TableOK s1.BinopPrecedence ∧ TableOK s2.BinopPrecedence ∧ s2.cerr = c ∧
  ((s1.CurTok ≠ tok_eof ∧ s1.CurTok = s2.CurTok ∧ s1.IdentifierStr = s2.IdentifierStr ∧
      s1.NumVal = s2.NumVal ∧ vtext s2 = vtext s1 ++ [32, o]) ∨
    (s1.CurTok = tok_eof ∧ s2.CurTok = o ∧ vis s2 = []))

/-- The outcome on the longer line, given that the shorter line gave the
tree `t` and the state `u1`: the same tree in a related state, or a failure
with the unknown-token error as the one new line of `cerr`. -/
def OpOut (o : Int) (c : List String) (t : ExprAST D) (u1 : State D)
    (r2 : Option (ExprAST D)) (u2 : State D) : Prop :=
  (r2 = some t ∧ ExtOp o c u1 u2) ∨
  (r2 = none ∧ u2.cerr = c ++ ["Error: Unknown token when expecting an expression"])

/-- State `s1` is state `s` after exactly one more token has been read from
the text in front of the lexer (`vis s`, leading whitespace skipped): the
current token is the token that starts that text (`tok_eof` when the text is
empty), `IdentifierStr` or `NumVal` holds its data when it sets one, the lexer
stands in front of what follows that token, which is shorter than the text
was, and the buffer, the table and `cerr` are as before. -/
def OneTokenRead (strtod : List Int → D) (s s1 : State D) : Prop :=
  s1.CurTok = (lexVis strtod (vis s)).tok ∧
  s1.IdentifierStr = (lexVis strtod (vis s)).ident.getD s.IdentifierStr ∧
  s1.NumVal = (lexVis strtod (vis s)).num.getD s.NumVal ∧
  vtext s1 = (lexVis strtod (vis s)).rest ∧
  (vis s ≠ [] → (vtext s1).length < (vis s).length) ∧
  s1.InputBuffer = s.InputBuffer ∧ s1.BinopPrecedence = s.BinopPrecedence ∧
  s1.cerr = s.cerr

end Vocabulary

section LexerFacts

variable {D : Type}

theorem remaining_eq (s : State D) : remaining s = (rem s).length := by
  simp [remaining, rem]

theorem getNextChar_nil (s : State D) (h : rem s = []) : getNextChar s = (EOF, s) := by
  have : s.InputBuffer.length ≤ s.InputPos := by
    simpa [rem] using h
  simp [getNextChar, this]

theorem getNextChar_cons (s : State D) (c : Int) (r : List Int) (h : rem s = c :: r) :
    getNextChar s = (c, { s with InputPos := s.InputPos + 1 }) ∧
      s.InputBuffer.drop (s.InputPos + 1) = r := by
  have hlt : s.InputPos < s.InputBuffer.length := by
    by_contra hc
    have : rem s = [] := by simp [rem]; omega
    simp [this] at h
  have h1 := List.drop_eq_getElem_cons hlt
  simp only [rem] at h
  rw [h1] at h
  simp only [List.cons.injEq] at h
  refine ⟨?_, h.2⟩
  simp [getNextChar, hlt, h.1]

end LexerFacts

section LexerLoops

variable {D : Type}

theorem isspace_EOF : isspace EOF = false := by decide
theorem isalnum_EOF : isalnum EOF = false := by decide
theorem isnumch_EOF : isnumch EOF = false := by decide

theorem visible_cons_EOF (r : List Int) : visible (EOF :: r) = [] := by
  simp [visible]

theorem visible_cons_ne (c : Int) (r : List Int) (h : c ≠ EOF) :
    visible (c :: r) = c :: visible r := by
  simp [visible, List.takeWhile_cons, h]

theorem visible_nil : visible [] = [] := rfl

theorem visible_headD (c : Int) (r : List Int) : (visible (c :: r)).headD EOF = c := by
  by_cases h : c = EOF
  · subst h; simp [visible_cons_EOF]
  · simp [visible_cons_ne c r h]

theorem skipWhitespace_of_not_space (n : Nat) (s : State D) (h : isspace s.LastChar = false) :
    skipWhitespace n s = s := by
  cases n <;> simp [skipWhitespace, h]

theorem skipWhitespace_spec : ∀ (n : Nat) (s : State D), (rem s).length < n →
    ∃ c p, skipWhitespace n s = { s with LastChar := c, InputPos := p } ∧
      visible (c :: s.InputBuffer.drop p) = vis s := by
  intro n
  induction n with
  | zero => intro s h; omega
  | succ n ih =>
    intro s h
    by_cases hsp : isspace s.LastChar = true
    · have hne : s.LastChar ≠ EOF := by
        intro he; rw [he, isspace_EOF] at hsp; exact Bool.noConfusion hsp
      have hvis : vis s = (visible (rem s)).dropWhile isspace := by
        simp [vis, vtext, visible_cons_ne _ _ hne, List.dropWhile_cons, hsp]
      rcases hr : rem s with _ | ⟨c, r⟩
      · refine ⟨EOF, s.InputPos, ?_, ?_⟩
        · simp only [skipWhitespace, hsp, if_true, getNextChar_nil s hr]
          exact skipWhitespace_of_not_space _ _ isspace_EOF
        · rw [hvis, hr]; simp [visible_cons_EOF, visible_nil]
      · obtain ⟨hg, hd⟩ := getNextChar_cons s c r hr
        have hlen : (rem ({ s with InputPos := s.InputPos + 1, LastChar := c } : State D)).length < n := by
          simp only [rem, hd]
          rw [hr] at h; simp at h; omega
        obtain ⟨c1, p1, h1, h2⟩ := ih _ hlen
        refine ⟨c1, p1, ?_, ?_⟩
        · simp only [skipWhitespace, hsp, if_true, hg]
          exact h1
        · rw [hvis, hr]
          simp only [vis, vtext, rem, hd] at h2
          exact h2
    · have hsp1 : isspace s.LastChar = false := by simpa using hsp
      refine ⟨s.LastChar, s.InputPos, ?_, ?_⟩
      · rw [skipWhitespace_of_not_space _ _ hsp1]
      · by_cases he : s.LastChar = EOF
        · simp [vis, vtext, rem, he, visible_cons_EOF]
        · simp [vis, vtext, rem, visible_cons_ne _ _ he, List.dropWhile_cons, hsp1]

end LexerLoops

section LexerLoopSpecs

variable {D : Type}

theorem ne_EOF_of_isalnum {c : Int} (h : isalnum c = true) : c ≠ EOF := by
  intro he; rw [he, isalnum_EOF] at h; exact Bool.noConfusion h

theorem ne_EOF_of_isnumch {c : Int} (h : isnumch c = true) : c ≠ EOF := by
  intro he; rw [he, isnumch_EOF] at h; exact Bool.noConfusion h

theorem readIdentifier_spec : ∀ (n : Nat) (s : State D), (rem s).length < n →
    ∃ c p, readIdentifier n s =
        { s with LastChar := c, InputPos := p,
                 IdentifierStr := s.IdentifierStr ++ (visible (rem s)).takeWhile isalnum } ∧
      visible (c :: s.InputBuffer.drop p) = (visible (rem s)).dropWhile isalnum := by
  intro n
  induction n with
  | zero => intro s h; omega
  | succ n ih =>
    intro s h
    rcases hr : rem s with _ | ⟨x, r⟩
    · refine ⟨EOF, s.InputPos, ?_, ?_⟩
      · simp [readIdentifier, getNextChar_nil s hr, isalnum_EOF, visible_nil]
      · simp [visible_cons_EOF, visible_nil]
    · obtain ⟨hg, hd⟩ := getNextChar_cons s x r hr
      by_cases hx : isalnum x = true
      · have hne := ne_EOF_of_isalnum hx
        have hlen : r.length < n := by
          rw [hr] at h; simp at h; omega
        obtain ⟨c1, p1, h1, h2⟩ := ih
          { s with InputPos := s.InputPos + 1, LastChar := x, IdentifierStr := s.IdentifierStr ++ [x] }
          (by simpa only [rem, hd] using hlen)
        refine ⟨c1, p1, ?_, ?_⟩
        · simp only [readIdentifier, hg, hx, if_true]
          rw [h1]
          simp [rem, hd, visible_cons_ne _ _ hne, List.takeWhile_cons, hx]
        · simp only [rem, hd] at h2
          rw [h2]
          simp [visible_cons_ne _ _ hne, List.dropWhile_cons, hx]
      · have hx1 : isalnum x = false := by simpa using hx
        refine ⟨x, s.InputPos + 1, ?_, ?_⟩
        · by_cases he : x = EOF
          · subst he
            simp [readIdentifier, hg, isalnum_EOF, visible_cons_EOF]
          · simp [readIdentifier, hg, hx1, visible_cons_ne _ _ he, List.takeWhile_cons]
        · rw [hd]
          by_cases he : x = EOF
          · simp [he, visible_cons_EOF]
          · simp [visible_cons_ne _ _ he, List.dropWhile_cons, hx1]

theorem readNumber_spec : ∀ (n : Nat) (NumStr : List Int) (s : State D), (rem s).length < n →
    ∃ c p, readNumber n NumStr s =
        (NumStr ++ s.LastChar :: (visible (rem s)).takeWhile isnumch,
          { s with LastChar := c, InputPos := p }) ∧
      visible (c :: s.InputBuffer.drop p) = (visible (rem s)).dropWhile isnumch := by
  intro n
  induction n with
  | zero => intro _ s h; omega
  | succ n ih =>
    intro NumStr s h
    rcases hr : rem s with _ | ⟨x, r⟩
    · refine ⟨EOF, s.InputPos, ?_, ?_⟩
      · have h0 : (isdigit EOF || EOF == 46) = false := by decide
        simp [readNumber, getNextChar_nil s hr, h0, visible_nil]
      · simp [visible_cons_EOF, visible_nil]
    · obtain ⟨hg, hd⟩ := getNextChar_cons s x r hr
      by_cases hx : isnumch x = true
      · have hne := ne_EOF_of_isnumch hx
        have hx2 : (isdigit x || x == 46) = true := hx
        have hlen : r.length < n := by
          rw [hr] at h; simp at h; omega
        obtain ⟨c1, p1, h1, h2⟩ := ih (NumStr ++ [s.LastChar])
          { s with InputPos := s.InputPos + 1, LastChar := x }
          (by simpa only [rem, hd] using hlen)
        refine ⟨c1, p1, ?_, ?_⟩
        · simp only [readNumber, hg, hx2, if_true]
          rw [h1]
          simp [rem, hd, visible_cons_ne _ _ hne, List.takeWhile_cons, hx]
        · simp only [rem, hd] at h2
          rw [h2]
          simp [visible_cons_ne _ _ hne, List.dropWhile_cons, hx]
      · have hx1 : isnumch x = false := by simpa using hx
        have hx2 : (isdigit x || x == 46) = false := hx1
        refine ⟨x, s.InputPos + 1, ?_, ?_⟩
        · by_cases he : x = EOF
          · simp only [readNumber, hg, hx2]
            simp [he, visible_cons_EOF]
          · simp only [readNumber, hg, hx2]
            simp [visible_cons_ne _ _ he, List.takeWhile_cons, hx1]
        · rw [hd]
          by_cases he : x = EOF
          · simp [he, visible_cons_EOF]
          · simp [visible_cons_ne _ _ he, List.dropWhile_cons, hx1]

end LexerLoopSpecs

section LexerSpec

variable {D : Type}

theorem visible_eq_nil {c : Int} {r : List Int} (h : visible (c :: r) = []) : c = EOF := by
  have := visible_headD c r
  rw [h] at this
  simpa using this.symm

theorem visible_eq_cons {c x : Int} {r v : List Int} (h : visible (c :: r) = x :: v) :
    c = x ∧ c ≠ EOF ∧ visible r = v := by
  by_cases he : c = EOF
  · rw [he, visible_cons_EOF] at h; exact absurd h (by simp)
  · rw [visible_cons_ne _ _ he] at h
    simp only [List.cons.injEq] at h
    exact ⟨h.1, he, h.2⟩

theorem gettok_spec (strtod : List Int → D) (s : State D) :
    ∃ c p, gettok strtod s =
        ((lexVis strtod (vis s)).tok,
          { s with LastChar := c, InputPos := p,
                   IdentifierStr := (lexVis strtod (vis s)).ident.getD s.IdentifierStr,
                   NumVal := (lexVis strtod (vis s)).num.getD s.NumVal }) ∧
      visible (c :: s.InputBuffer.drop p) = (lexVis strtod (vis s)).rest := by
  obtain ⟨c1, p1, h1, h2⟩ := skipWhitespace_spec (remaining s + 1) s
    (by rw [remaining_eq]; omega)
  rcases hv : vis s with _ | ⟨x, v⟩
  · rw [hv] at h2
    have hc := visible_eq_nil h2
    subst hc
    refine ⟨EOF, p1, ?_, ?_⟩
    · have ha : isalpha EOF = false := by decide
      have hn : (isdigit EOF || EOF == 46) = false := by decide
      simp [gettok, h1, lexVis, ha, hn]
    · simp [lexVis, visible_cons_EOF]
  · rw [hv] at h2
    obtain ⟨hc, hne, hvr⟩ := visible_eq_cons h2
    subst hc
    by_cases ha : isalpha c1 = true
    · obtain ⟨c2, p2, h3, h4⟩ := readIdentifier_spec
        (remaining ({ s with LastChar := c1, InputPos := p1, IdentifierStr := [c1] } : State D) + 1)
        { s with LastChar := c1, InputPos := p1, IdentifierStr := [c1] }
        (by rw [remaining_eq]; omega)
      refine ⟨c2, p2, ?_, ?_⟩
      · simp only [gettok, h1, ha, if_true]
        rw [h3]
        simp [lexVis, ha, rem, hvr]
      · simp only [rem, hvr] at h4
        simp [lexVis, ha, h4]
    · have ha1 : isalpha c1 = false := by simpa using ha
      by_cases hn : isnumch c1 = true
      · have hn2 : (isdigit c1 || c1 == 46) = true := hn
        obtain ⟨c2, p2, h3, h4⟩ := readNumber_spec
          (remaining ({ s with LastChar := c1, InputPos := p1 } : State D) + 1) []
          { s with LastChar := c1, InputPos := p1 }
          (by rw [remaining_eq]; omega)
        refine ⟨c2, p2, ?_, ?_⟩
        · simp only [gettok, h1, ha1, hn2, if_true]
          rw [h3]
          simp [lexVis, ha1, hn, rem, hvr]
        · simp only [rem, hvr] at h4
          simp [lexVis, ha1, hn, h4]
      · have hn1 : isnumch c1 = false := by simpa using hn
        have hn2 : (isdigit c1 || c1 == 46) = false := hn1
        rcases hr : rem ({ s with LastChar := c1, InputPos := p1 } : State D) with _ | ⟨y, r⟩
        · refine ⟨EOF, p1, ?_, ?_⟩
          · simp only [gettok, h1, ha1, hn2, getNextChar_nil _ hr]
            simp [lexVis, ha1, hn1, hne]
          · simp only [rem] at hr
            rw [hr, visible_nil] at hvr
            simp [lexVis, ha1, hn1, visible_cons_EOF, hvr]
        · obtain ⟨hg, hd⟩ := getNextChar_cons _ y r hr
          refine ⟨y, p1 + 1, ?_, ?_⟩
          · simp only [gettok, h1, ha1, hn2, hg]
            simp [lexVis, ha1, hn1, hne]
          · simp only [rem] at hr
            simp only at hd
            rw [hr] at hvr
            simp [lexVis, ha1, hn1, hd, hvr]

end LexerSpec

section TokenStep

variable {D : Type}

theorem getNextToken_spec (strtod : List Int → D) (s : State D) :
    ∃ c p, getNextToken strtod s =
        ((lexVis strtod (vis s)).tok,
          { s with LastChar := c, InputPos := p,
                   IdentifierStr := (lexVis strtod (vis s)).ident.getD s.IdentifierStr,
                   NumVal := (lexVis strtod (vis s)).num.getD s.NumVal,
                   CurTok := (lexVis strtod (vis s)).tok }) ∧
      visible (c :: s.InputBuffer.drop p) = (lexVis strtod (vis s)).rest := by
  obtain ⟨c, p, h1, h2⟩ := gettok_spec strtod s
  exact ⟨c, p, by simp [getNextToken, h1], h2⟩

theorem getNextToken_CurTok (strtod : List Int → D) (s : State D) :
    (getNextToken strtod s).2.CurTok = (lexVis strtod (vis s)).tok := by
  obtain ⟨c, p, h1, _⟩ := getNextToken_spec strtod s
  rw [h1]

theorem getNextToken_IdentifierStr (strtod : List Int → D) (s : State D) :
    (getNextToken strtod s).2.IdentifierStr =
      (lexVis strtod (vis s)).ident.getD s.IdentifierStr := by
  obtain ⟨c, p, h1, _⟩ := getNextToken_spec strtod s
  rw [h1]

theorem getNextToken_NumVal (strtod : List Int → D) (s : State D) :
    (getNextToken strtod s).2.NumVal = (lexVis strtod (vis s)).num.getD s.NumVal := by
  obtain ⟨c, p, h1, _⟩ := getNextToken_spec strtod s
  rw [h1]

theorem getNextToken_BinopPrecedence (strtod : List Int → D) (s : State D) :
    (getNextToken strtod s).2.BinopPrecedence = s.BinopPrecedence := by
  obtain ⟨c, p, h1, _⟩ := getNextToken_spec strtod s
  rw [h1]

theorem getNextToken_cerr (strtod : List Int → D) (s : State D) :
    (getNextToken strtod s).2.cerr = s.cerr := by
  obtain ⟨c, p, h1, _⟩ := getNextToken_spec strtod s
  rw [h1]

theorem getNextToken_InputBuffer (strtod : List Int → D) (s : State D) :
    (getNextToken strtod s).2.InputBuffer = s.InputBuffer := by
  obtain ⟨c, p, h1, _⟩ := getNextToken_spec strtod s
  rw [h1]

theorem getNextToken_vtext (strtod : List Int → D) (s : State D) :
    vtext (getNextToken strtod s).2 = (lexVis strtod (vis s)).rest := by
  obtain ⟨c, p, h1, h2⟩ := getNextToken_spec strtod s
  rw [h1]
  simpa [vtext, rem] using h2

theorem getNextToken_vis (strtod : List Int → D) (s : State D) :
    vis (getNextToken strtod s).2 = (lexVis strtod (vis s)).rest.dropWhile isspace := by
  rw [vis, getNextToken_vtext]

end TokenStep

section Table

variable {D : Type}

theorem mapIndex_mapIndex (m : List (Int × Int)) (k j : Int) :
    (mapIndex (mapIndex m k).2 j).1 = (mapIndex m j).1 := by
  induction m with
  | nil =>
    simp only [mapIndex]
    split_ifs <;> rfl
  | cons e m ih =>
    obtain ⟨k1, v⟩ := e
    simp only [mapIndex]
    by_cases h1 : k = k1
    · simp [h1, mapIndex]
    · simp only [h1, if_false]
      by_cases h2 : k < k1
      · simp only [h2, if_true, mapIndex]
        by_cases h3 : j = k
        · subst h3; simp [h1, h2]
        · simp only [h3, if_false]
          by_cases h4 : j < k
          · have h5 : j ≠ k1 := by omega
            have h6 : j < k1 := by omega
            simp [h4, h5, h6]
          · simp [h4]
      · simp only [h2, if_false, mapIndex]
        by_cases h3 : j = k1
        · simp [h3]
        · simp only [h3, if_false]
          by_cases h4 : j < k1
          · simp [h4]
          · simp [h4, ih]

theorem mapIndex_nil_fst (k : Int) : (mapIndex [] k).1 = 0 := rfl

theorem mapIndex_cons_fst (k1 v : Int) (m : List (Int × Int)) (k : Int) :
    (mapIndex ((k1, v) :: m) k).1 =
      if k = k1 then v else if k < k1 then 0 else (mapIndex m k).1 := by
  simp only [mapIndex]
  split_ifs <;> rfl

theorem TableOK_initial : TableOK BinopPrecedence := fun _ => rfl

theorem TableOK_mapIndex {m : List (Int × Int)} (h : TableOK m) (k : Int) :
    TableOK (mapIndex m k).2 := by
  intro j
  rw [mapIndex_mapIndex, h j]

theorem mapIndex_initial (k : Int) :
    (mapIndex BinopPrecedence k).1 =
      if k = 42 then 40 else if k = 43 then 20 else if k = 45 then 20
      else if k = 47 then 50 else if k = 60 then 10 else 0 := by
  by_cases h1 : k = 42
  · subst h1; rfl
  by_cases h2 : k = 43
  · subst h2; rfl
  by_cases h3 : k = 45
  · subst h3; rfl
  by_cases h4 : k = 47
  · subst h4; rfl
  by_cases h5 : k = 60
  · subst h5; rfl
  simp only [BinopPrecedence, mapIndex_cons_fst, mapIndex_nil_fst, if_neg h1, if_neg h2,
    if_neg h3, if_neg h4, if_neg h5, ite_self]

theorem getTokPrecedence_fst (s : State D) (h : TableOK s.BinopPrecedence) :
    (getTokPrecedence s).1 = precOf s.CurTok := by
  unfold getTokPrecedence precOf
  by_cases ha : isascii s.CurTok = true
  · simp only [ha, Bool.not_true, Bool.false_eq_true, if_false]
    rw [h s.CurTok, mapIndex_initial]
    by_cases h1 : s.CurTok = 42
    · rw [h1]; rfl
    by_cases h2 : s.CurTok = 43
    · rw [h2]; rfl
    by_cases h3 : s.CurTok = 45
    · rw [h3]; rfl
    by_cases h4 : s.CurTok = 47
    · rw [h4]; rfl
    by_cases h5 : s.CurTok = 60
    · rw [h5]; rfl
    simp [if_neg h1, if_neg h2, if_neg h3, if_neg h4, if_neg h5]
  · have ha1 : isascii s.CurTok = false := by simpa using ha
    simp only [ha1, Bool.not_false, if_true]
    simp only [isascii, Bool.and_eq_false_imp, decide_eq_true_eq, decide_eq_false_iff_not] at ha1
    have h1 : s.CurTok ≠ 60 := by omega
    have h2 : s.CurTok ≠ 43 := by omega
    have h3 : s.CurTok ≠ 45 := by omega
    have h4 : s.CurTok ≠ 42 := by omega
    have h5 : s.CurTok ≠ 47 := by omega
    simp [if_neg h1, if_neg h2, if_neg h3, if_neg h4, if_neg h5]

theorem getTokPrecedence_snd (s : State D) :
    ∃ m, (getTokPrecedence s).2 = { s with BinopPrecedence := m } ∧
      (TableOK s.BinopPrecedence → TableOK m) := by
  unfold getTokPrecedence
  by_cases ha : isascii s.CurTok = true
  · refine ⟨(mapIndex s.BinopPrecedence s.CurTok).2, ?_, fun h => TableOK_mapIndex h _⟩
    simp only [ha, Bool.not_true, Bool.false_eq_true, if_false]
    split_ifs <;> rfl
  · have ha1 : isascii s.CurTok = false := by simpa using ha
    exact ⟨s.BinopPrecedence, by simp [ha1], id⟩

theorem getTokPrecedence_CurTok (s : State D) : (getTokPrecedence s).2.CurTok = s.CurTok := by
  obtain ⟨m, h, _⟩ := getTokPrecedence_snd s
  rw [h]

theorem getTokPrecedence_IdentifierStr (s : State D) :
    (getTokPrecedence s).2.IdentifierStr = s.IdentifierStr := by
  obtain ⟨m, h, _⟩ := getTokPrecedence_snd s
  rw [h]

theorem getTokPrecedence_NumVal (s : State D) : (getTokPrecedence s).2.NumVal = s.NumVal := by
  obtain ⟨m, h, _⟩ := getTokPrecedence_snd s
  rw [h]

theorem getTokPrecedence_cerr (s : State D) : (getTokPrecedence s).2.cerr = s.cerr := by
  obtain ⟨m, h, _⟩ := getTokPrecedence_snd s
  rw [h]

theorem getTokPrecedence_vis (s : State D) : vis (getTokPrecedence s).2 = vis s := by
  obtain ⟨m, h, _⟩ := getTokPrecedence_snd s
  rw [h]
  rfl

theorem getTokPrecedence_TableOK (s : State D) (h : TableOK s.BinopPrecedence) :
    TableOK (getTokPrecedence s).2.BinopPrecedence := by
  obtain ⟨m, h1, h2⟩ := getTokPrecedence_snd s
  rw [h1]
  exact h2 h

theorem precOf_ge (c : Int) : -1 ≤ precOf c := by
  unfold precOf; split_ifs <;> omega

theorem precOf_pos_iff (c : Int) :
    0 ≤ precOf c ↔ (c = 60 ∨ c = 43 ∨ c = 45 ∨ c = 42 ∨ c = 47) := by
  unfold precOf; split_ifs <;> omega

end Table

section Fuel

variable {D : Type}

theorem ParsePrimary_succ (strtod : List Int → D) (fuel : Nat) (s : State D) :
    ParsePrimary strtod (fuel + 1) s =
      if s.CurTok = tok_identifier then some (ParseIdentifierExpr strtod s)
      else if s.CurTok = tok_number then some (ParseNumberExpr strtod s)
      else if s.CurTok = 40 then ParseParenExpr strtod fuel s
      else some (LogError "Unknown token when expecting an expression" s) := by
  rw [ParsePrimary]

theorem ParseParenExpr_succ (strtod : List Int → D) (fuel : Nat) (s : State D) :
    ParseParenExpr strtod (fuel + 1) s =
      match parseExpression strtod fuel (getNextToken strtod s).2 with
      | none => none
      | some (none, s2) => some (none, s2)
      | some (some V, s2) =>
        if s2.CurTok ≠ 41 then some (LogError "Expected ')'" s2)
        else some (some V, (getNextToken strtod s2).2) := by
  rw [ParseParenExpr]

theorem parseExpression_succ (strtod : List Int → D) (fuel : Nat) (s : State D) :
    parseExpression strtod (fuel + 1) s =
      match ParsePrimary strtod fuel s with
      | none => none
      | some (none, s1) => some (none, s1)
      | some (some LHS, s1) => ParseBinOpRHS strtod fuel 0 LHS s1 := by
  rw [parseExpression]

theorem ParseBinOpRHS_succ (strtod : List Int → D) (fuel : Nat) (ExprPrec : Int)
    (LHS : ExprAST D) (s : State D) :
    ParseBinOpRHS strtod (fuel + 1) ExprPrec LHS s =
      if (getTokPrecedence s).1 < ExprPrec then some (some LHS, (getTokPrecedence s).2)
      else
        match ParsePrimary strtod fuel (getNextToken strtod (getTokPrecedence s).2).2 with
        | none => none
        | some (none, s2) => some (none, s2)
        | some (some RHS, s2) =>
          if (getTokPrecedence s).1 < (getTokPrecedence s2).1 then
            match ParseBinOpRHS strtod fuel ((getTokPrecedence s).1 + 1) RHS
                (getTokPrecedence s2).2 with
            | none => none
            | some (none, s3) => some (none, s3)
            | some (some RHS1, s3) =>
              ParseBinOpRHS strtod fuel ExprPrec
                (ExprAST.BinaryExprAST (getTokPrecedence s).2.CurTok LHS RHS1) s3
          else
            ParseBinOpRHS strtod fuel ExprPrec
              (ExprAST.BinaryExprAST (getTokPrecedence s).2.CurTok LHS RHS) (getTokPrecedence s2).2 := by
  rw [ParseBinOpRHS]

theorem fuel_mono_step (strtod : List Int → D) : ∀ fuel : Nat,
    (∀ s r, ParsePrimary strtod fuel s = some r → ParsePrimary strtod (fuel + 1) s = some r) ∧
    (∀ s r, ParseParenExpr strtod fuel s = some r →
      ParseParenExpr strtod (fuel + 1) s = some r) ∧
    (∀ e lhs s r, ParseBinOpRHS strtod fuel e lhs s = some r →
      ParseBinOpRHS strtod (fuel + 1) e lhs s = some r) ∧
    (∀ s r, parseExpression strtod fuel s = some r →
      parseExpression strtod (fuel + 1) s = some r) := by
  intro fuel
  induction fuel with
  | zero =>
    refine ⟨?_, ?_, ?_, ?_⟩
    · intro s r h; simp [ParsePrimary] at h
    · intro s r h; simp [ParseParenExpr] at h
    · intro e lhs s r h; simp [ParseBinOpRHS] at h
    · intro s r h; simp [parseExpression] at h
  | succ n ih =>
    obtain ⟨ihP, ihPar, ihB, ihE⟩ := ih
    refine ⟨?_, ?_, ?_, ?_⟩
    · intro s r h
      rw [ParsePrimary_succ] at h ⊢
      split_ifs at h ⊢
      · exact h
      · exact h
      · exact ihPar _ _ h
      · exact h
    · intro s r h
      rw [ParseParenExpr_succ] at h ⊢
      rcases hE : parseExpression strtod n (getNextToken strtod s).2 with _ | ⟨_ | V, s2⟩
      · rw [hE] at h; simp at h
      · rw [ihE _ _ hE]; rw [hE] at h; exact h
      · rw [ihE _ _ hE]; rw [hE] at h; exact h
    · intro e lhs s r h
      rw [ParseBinOpRHS_succ] at h ⊢
      by_cases h1 : (getTokPrecedence s).1 < e
      · rw [if_pos h1] at h ⊢; exact h
      · rw [if_neg h1] at h ⊢
        rcases hP : ParsePrimary strtod n (getNextToken strtod (getTokPrecedence s).2).2
          with _ | ⟨_ | RHS, s2⟩
        · rw [hP] at h; simp at h
        · rw [ihP _ _ hP]; rw [hP] at h; exact h
        · rw [ihP _ _ hP]; rw [hP] at h
          simp only at h ⊢
          by_cases h2 : (getTokPrecedence s).1 < (getTokPrecedence s2).1
          · rw [if_pos h2] at h ⊢
            rcases hB : ParseBinOpRHS strtod n ((getTokPrecedence s).1 + 1) RHS
              (getTokPrecedence s2).2 with _ | ⟨_ | RHS1, s3⟩
            · rw [hB] at h; simp at h
            · rw [ihB _ _ _ _ hB]; rw [hB] at h; exact h
            · rw [ihB _ _ _ _ hB]; rw [hB] at h
              exact ihB _ _ _ _ h
          · rw [if_neg h2] at h ⊢
            exact ihB _ _ _ _ h
    · intro s r h
      rw [parseExpression_succ] at h ⊢
      rcases hP : ParsePrimary strtod n s with _ | ⟨_ | LHS, s1⟩
      · rw [hP] at h; simp at h
      · rw [ihP _ _ hP]; rw [hP] at h; exact h
      · rw [ihP _ _ hP]; rw [hP] at h
        exact ihB _ _ _ _ h

end Fuel

section Potential

variable {D : Type}

theorem fuel_mono (strtod : List Int → D) (fuel k : Nat) :
    (∀ s r, ParsePrimary strtod fuel s = some r → ParsePrimary strtod (fuel + k) s = some r) ∧
    (∀ s r, ParseParenExpr strtod fuel s = some r →
      ParseParenExpr strtod (fuel + k) s = some r) ∧
    (∀ e lhs s r, ParseBinOpRHS strtod fuel e lhs s = some r →
      ParseBinOpRHS strtod (fuel + k) e lhs s = some r) ∧
    (∀ s r, parseExpression strtod fuel s = some r →
      parseExpression strtod (fuel + k) s = some r) := by
  induction k with
  | zero => exact ⟨fun _ _ h => h, fun _ _ h => h, fun _ _ _ _ h => h, fun _ _ h => h⟩
  | succ k ih =>
    obtain ⟨h1, h2, h3, h4⟩ := ih
    obtain ⟨g1, g2, g3, g4⟩ := fuel_mono_step strtod (fuel + k)
    exact ⟨fun s r h => g1 s r (h1 s r h), fun s r h => g2 s r (h2 s r h),
      fun e l s r h => g3 e l s r (h3 e l s r h), fun s r h => g4 s r (h4 s r h)⟩

theorem parseExpression_mono (strtod : List Int → D) {fuel fuel1 : Nat} {s : State D}
    {r : Option (ExprAST D) × State D} (h : parseExpression strtod fuel s = some r)
    (hle : fuel ≤ fuel1) : parseExpression strtod fuel1 s = some r := by
  obtain ⟨k, rfl⟩ := Nat.exists_eq_add_of_le hle
  exact (fuel_mono strtod fuel k).2.2.2 s r h

theorem length_dropWhile_le (p : Int → Bool) (l : List Int) :
    (l.dropWhile p).length ≤ l.length :=
  (List.dropWhile_sublist p).length_le

theorem lexVis_rest_length (strtod : List Int → D) (v : List Int) :
    (lexVis strtod v).rest.length ≤ v.length - 1 := by
  cases v with
  | nil => simp [lexVis]
  | cons c v =>
    simp only [lexVis]
    split_ifs
    · simpa using length_dropWhile_le isalnum v
    · simpa using length_dropWhile_le isnumch v
    · simp

theorem lexVis_nil_tok (strtod : List Int → D) : (lexVis strtod []).tok = tok_eof := rfl

theorem tokensLeft_getNextToken (strtod : List Int → D) (s : State D) :
    tokensLeft (getNextToken strtod s).2 ≤ (vis s).length := by
  unfold tokensLeft
  rw [getNextToken_vis, getNextToken_CurTok]
  have h1 := lexVis_rest_length strtod (vis s)
  have h2 := length_dropWhile_le isspace (lexVis strtod (vis s)).rest
  rcases hv : vis s with _ | ⟨c, v⟩
  · simp [lexVis]
  · rw [hv] at h1 h2
    simp only [List.length_cons] at h1 ⊢
    split_ifs <;> omega

theorem vis_length_le (s : State D) : (vis s).length ≤ tokensLeft s := by
  unfold tokensLeft; omega

theorem tokensLeft_getTokPrecedence (s : State D) :
    tokensLeft (getTokPrecedence s).2 = tokensLeft s := by
  unfold tokensLeft
  rw [getTokPrecedence_vis, getTokPrecedence_CurTok]

theorem tokensLeft_LogError (Str : String) (s : State D) :
    tokensLeft (LogError Str s).2 = tokensLeft s := rfl

theorem getTokPrecedence_nonneg (s : State D) (h : 0 ≤ (getTokPrecedence s).1) :
    s.CurTok ≠ tok_eof := by
  unfold getTokPrecedence at h
  by_cases ha : isascii s.CurTok = true
  · simp only [isascii, Bool.and_eq_true, decide_eq_true_eq] at ha
    unfold tok_eof; omega
  · have ha1 : isascii s.CurTok = false := by simpa using ha
    simp [ha1] at h

theorem vis_lt_of_not_eof (s : State D) (h : s.CurTok ≠ tok_eof) :
    (vis s).length < tokensLeft s := by
  unfold tokensLeft; simp [h]

end Potential

section TerminationProof

variable {D : Type}

theorem ParseBinOpRHS_terminates_step (strtod : List Int → D) (n : Nat)
    (hP : ∀ s : State D, tokensLeft s < n → ∀ fuel, 3 * n ≤ fuel →
      ∃ r s1, ParsePrimary strtod fuel s = some (r, s1) ∧ tokensLeft s1 ≤ tokensLeft s)
    (hB : ∀ s : State D, tokensLeft s < n → ∀ e lhs fuel, 0 ≤ e → 3 * n ≤ fuel →
      ∃ r s1, ParseBinOpRHS strtod fuel e lhs s = some (r, s1) ∧ tokensLeft s1 ≤ tokensLeft s)
    (s : State D) (hs : tokensLeft s ≤ n) (e : Int) (lhs : ExprAST D) (fuel : Nat)
    (he : 0 ≤ e) (hf : 3 * n + 1 ≤ fuel) :
    ∃ r s1, ParseBinOpRHS strtod fuel e lhs s = some (r, s1) ∧ tokensLeft s1 ≤ tokensLeft s := by
  obtain ⟨f, rfl⟩ : ∃ f, fuel = f + 1 := ⟨fuel - 1, by omega⟩
  rw [ParseBinOpRHS_succ]
  by_cases h1 : (getTokPrecedence s).1 < e
  · rw [if_pos h1]
    exact ⟨_, _, rfl, le_of_eq (tokensLeft_getTokPrecedence s)⟩
  · rw [if_neg h1]
    have hne : s.CurTok ≠ tok_eof := getTokPrecedence_nonneg s (by omega)
    have hlt := vis_lt_of_not_eof s hne
    have h2 := tokensLeft_getNextToken strtod (getTokPrecedence s).2
    rw [getTokPrecedence_vis] at h2
    obtain ⟨r, s2, hp, hs2⟩ := hP (getNextToken strtod (getTokPrecedence s).2).2 (by omega) f
      (by omega)
    rw [hp]
    cases r with
    | none => exact ⟨_, _, rfl, by omega⟩
    | some RHS =>
      simp only
      have h3 := tokensLeft_getTokPrecedence s2
      by_cases h4 : (getTokPrecedence s).1 < (getTokPrecedence s2).1
      · rw [if_pos h4]
        obtain ⟨r3, s3, hb, hs3⟩ := hB (getTokPrecedence s2).2 (by omega)
          ((getTokPrecedence s).1 + 1) RHS f (by omega) (by omega)
        rw [hb]
        cases r3 with
        | none => exact ⟨_, _, rfl, by omega⟩
        | some RHS1 =>
          simp only
          obtain ⟨r4, s4, hb4, hs4⟩ := hB s3 (by omega) e
            (ExprAST.BinaryExprAST (getTokPrecedence s).2.CurTok lhs RHS1) f he (by omega)
          exact ⟨r4, s4, hb4, by omega⟩
      · rw [if_neg h4]
        obtain ⟨r4, s4, hb4, hs4⟩ := hB (getTokPrecedence s2).2 (by omega) e
          (ExprAST.BinaryExprAST (getTokPrecedence s).2.CurTok lhs RHS) f he (by omega)
        exact ⟨r4, s4, hb4, by omega⟩

theorem parser_terminates (strtod : List Int → D) : ∀ n : Nat,
    (∀ s : State D, tokensLeft s ≤ n → ∀ e lhs fuel, 0 ≤ e → 3 * n + 1 ≤ fuel →
      ∃ r s1, ParseBinOpRHS strtod fuel e lhs s = some (r, s1) ∧
        tokensLeft s1 ≤ tokensLeft s) ∧
    (∀ s : State D, tokensLeft s ≤ n → s.CurTok ≠ tok_eof → ∀ fuel, 3 * n + 1 ≤ fuel →
      ∃ r s1, ParseParenExpr strtod fuel s = some (r, s1) ∧ tokensLeft s1 ≤ tokensLeft s) ∧
    (∀ s : State D, tokensLeft s ≤ n → ∀ fuel, 3 * n + 2 ≤ fuel →
      ∃ r s1, ParsePrimary strtod fuel s = some (r, s1) ∧ tokensLeft s1 ≤ tokensLeft s) ∧
    (∀ s : State D, tokensLeft s ≤ n → ∀ fuel, 3 * n + 3 ≤ fuel →
      ∃ r s1, parseExpression strtod fuel s = some (r, s1) ∧ tokensLeft s1 ≤ tokensLeft s) := by
  intro n
  induction n using Nat.strong_induction_on with
  | _ n ih =>
    have hB : ∀ s : State D, tokensLeft s ≤ n → ∀ e lhs fuel, 0 ≤ e → 3 * n + 1 ≤ fuel →
        ∃ r s1, ParseBinOpRHS strtod fuel e lhs s = some (r, s1) ∧
          tokensLeft s1 ≤ tokensLeft s := by
      intro s hs e lhs fuel he hf
      refine ParseBinOpRHS_terminates_step strtod n ?_ ?_ s hs e lhs fuel he hf
      · intro t ht fuel1 hf1
        exact (ih (tokensLeft t) ht).2.2.1 t le_rfl fuel1 (by omega)
      · intro t ht e1 lhs1 fuel1 he1 hf1
        exact (ih (tokensLeft t) ht).1 t le_rfl e1 lhs1 fuel1 he1 (by omega)
    have hPar : ∀ s : State D, tokensLeft s ≤ n → s.CurTok ≠ tok_eof → ∀ fuel,
        3 * n + 1 ≤ fuel →
        ∃ r s1, ParseParenExpr strtod fuel s = some (r, s1) ∧ tokensLeft s1 ≤ tokensLeft s := by
      intro s hs hne fuel hf
      obtain ⟨f, rfl⟩ : ∃ f, fuel = f + 1 := ⟨fuel - 1, by omega⟩
      rw [ParseParenExpr_succ]
      have hlt := vis_lt_of_not_eof s hne
      have h2 := tokensLeft_getNextToken strtod s
      obtain ⟨r, s2, hp, hs2⟩ := (ih (tokensLeft (getNextToken strtod s).2) (by omega)).2.2.2
        (getNextToken strtod s).2 le_rfl f (by omega)
      rw [hp]
      cases r with
      | none => exact ⟨_, _, rfl, by omega⟩
      | some V =>
        simp only
        split_ifs
        · exact ⟨_, _, rfl, le_trans (le_of_eq (tokensLeft_LogError _ s2)) (by omega)⟩
        · have h3 := tokensLeft_getNextToken strtod s2
          have h4 := vis_length_le s2
          exact ⟨_, _, rfl, by omega⟩
    have hP : ∀ s : State D, tokensLeft s ≤ n → ∀ fuel, 3 * n + 2 ≤ fuel →
        ∃ r s1, ParsePrimary strtod fuel s = some (r, s1) ∧ tokensLeft s1 ≤ tokensLeft s := by
      intro s hs fuel hf
      obtain ⟨f, rfl⟩ : ∃ f, fuel = f + 1 := ⟨fuel - 1, by omega⟩
      rw [ParsePrimary_succ]
      have h3 := tokensLeft_getNextToken strtod s
      have h4 := vis_length_le s
      split_ifs with c1 c2 c3
      · exact ⟨_, _, rfl, le_trans h3 h4⟩
      · exact ⟨_, _, rfl, le_trans h3 h4⟩
      · exact hPar s hs (by rw [c3]; decide) f (by omega)
      · exact ⟨_, _, rfl, le_of_eq (tokensLeft_LogError _ s)⟩
    refine ⟨hB, hPar, hP, ?_⟩
    intro s hs fuel hf
    obtain ⟨f, rfl⟩ : ∃ f, fuel = f + 1 := ⟨fuel - 1, by omega⟩
    rw [parseExpression_succ]
    obtain ⟨r, s1, hp, hs1⟩ := hP s hs f (by omega)
    rw [hp]
    cases r with
    | none => exact ⟨_, _, rfl, hs1⟩
    | some LHS =>
      simp only
      obtain ⟨r2, s2, hb, hs2⟩ := hB s1 (by omega) 0 LHS f le_rfl (by omega)
      exact ⟨r2, s2, hb, by omega⟩

theorem vis_length_le_remaining (s : State D) : (vis s).length ≤ remaining s + 1 := by
  have h1 : (vis s).length ≤ (vtext s).length := length_dropWhile_le _ _
  have h2 : (vtext s).length ≤ (s.LastChar :: rem s).length :=
    (List.takeWhile_sublist _).length_le
  rw [remaining_eq]
  simp only [List.length_cons] at h2
  omega

theorem tokensLeft_le (s : State D) : tokensLeft s ≤ remaining s + 2 := by
  have := vis_length_le_remaining s
  unfold tokensLeft
  split_ifs <;> omega

/-- Termination: with `parseFuel s` or more fuel, `parseExpression` returns. -/
theorem parseExpression_terminates (strtod : List Int → D) (s : State D) (fuel : Nat)
    (h : parseFuel s ≤ fuel) : ∃ r, parseExpression strtod fuel s = some r := by
  have h1 := tokensLeft_le s
  obtain ⟨r, s1, h2, _⟩ := (parser_terminates strtod (tokensLeft s)).2.2.2 s le_rfl fuel
    (by unfold parseFuel at h; omega)
  exact ⟨_, h2⟩

/-- A result obtained with any fuel is the result with any fuel that suffices. -/
theorem parseExpression_of_fuel (strtod : List Int → D) {s : State D} {fuel fuel1 : Nat}
    {r : Option (ExprAST D) × State D} (h : parseExpression strtod fuel s = some r)
    (h1 : parseFuel s ≤ fuel1) : parseExpression strtod fuel1 s = some r := by
  obtain ⟨r1, hr1⟩ := parseExpression_terminates strtod s fuel1 h1
  have a := parseExpression_mono strtod h (Nat.le_max_left fuel fuel1)
  have b := parseExpression_mono strtod hr1 (Nat.le_max_right fuel fuel1)
  rw [a] at b
  rw [hr1, Option.some.inj b]

end TerminationProof

section BigStep

variable {D : Type}

theorem ParsePrimary_mono (strtod : List Int → D) {fuel fuel1 : Nat} {s : State D}
    {r : Option (ExprAST D) × State D} (h : ParsePrimary strtod fuel s = some r)
    (hle : fuel ≤ fuel1) : ParsePrimary strtod fuel1 s = some r := by
  obtain ⟨k, rfl⟩ := Nat.exists_eq_add_of_le hle
  exact (fuel_mono strtod fuel k).1 s r h

theorem ParseBinOpRHS_mono (strtod : List Int → D) {fuel fuel1 : Nat} {e : Int}
    {lhs : ExprAST D} {s : State D}
    {r : Option (ExprAST D) × State D} (h : ParseBinOpRHS strtod fuel e lhs s = some r)
    (hle : fuel ≤ fuel1) : ParseBinOpRHS strtod fuel1 e lhs s = some r := by
  obtain ⟨k, rfl⟩ := Nat.exists_eq_add_of_le hle
  exact (fuel_mono strtod fuel k).2.2.1 e lhs s r h

theorem ExprTo.parse_eq {strtod : List Int → D} {s s1 : State D} {r : Option (ExprAST D)}
    (h : ExprTo strtod s r s1) : parse strtod s = some (r, s1) := by
  obtain ⟨fuel, hf⟩ := h
  exact parseExpression_of_fuel strtod hf le_rfl

theorem ExprTo.of_primary {strtod : List Int → D} {s s1 s2 : State D} {lhs : ExprAST D}
    {r : Option (ExprAST D)} (h1 : PrimaryTo strtod s (some lhs) s1)
    (h2 : BinOpTo strtod 0 lhs s1 r s2) : ExprTo strtod s r s2 := by
  obtain ⟨f1, hf1⟩ := h1
  obtain ⟨f2, hf2⟩ := h2
  refine ⟨max f1 f2 + 1, ?_⟩
  rw [parseExpression_succ, ParsePrimary_mono strtod hf1 (Nat.le_max_left f1 f2)]
  exact ParseBinOpRHS_mono strtod hf2 (Nat.le_max_right f1 f2)

theorem ExprTo.of_primary_fail {strtod : List Int → D} {s s1 : State D}
    (h1 : PrimaryTo strtod s none s1) : ExprTo strtod s none s1 := by
  obtain ⟨f1, hf1⟩ := h1
  refine ⟨f1 + 1, ?_⟩
  rw [parseExpression_succ, hf1]

theorem PrimaryTo.identifier (strtod : List Int → D) (s : State D)
    (h : s.CurTok = tok_identifier) :
    PrimaryTo strtod s (some (ExprAST.VariableExprAST s.IdentifierStr))
      (getNextToken strtod s).2 := by
  refine ⟨1, ?_⟩
  rw [ParsePrimary_succ, if_pos h]; rfl

theorem PrimaryTo.number (strtod : List Int → D) (s : State D) (h : s.CurTok = tok_number) :
    PrimaryTo strtod s (some (ExprAST.NumberExprAST s.NumVal)) (getNextToken strtod s).2 := by
  refine ⟨1, ?_⟩
  have h1 : s.CurTok ≠ tok_identifier := by rw [h]; decide
  rw [ParsePrimary_succ, if_neg h1, if_pos h]; rfl

theorem PrimaryTo.unknown (strtod : List Int → D) (s : State D)
    (h1 : s.CurTok ≠ tok_identifier) (h2 : s.CurTok ≠ tok_number) (h3 : s.CurTok ≠ 40) :
    PrimaryTo strtod s none (LogError "Unknown token when expecting an expression" s).2 := by
  refine ⟨1, ?_⟩
  rw [ParsePrimary_succ, if_neg h1, if_neg h2, if_neg h3]; rfl

theorem PrimaryTo.paren {strtod : List Int → D} {s s2 : State D} {V : ExprAST D}
    (h : s.CurTok = 40) (h1 : ExprTo strtod (getNextToken strtod s).2 (some V) s2)
    (h2 : s2.CurTok = 41) : PrimaryTo strtod s (some V) (getNextToken strtod s2).2 := by
  obtain ⟨f, hf⟩ := h1
  refine ⟨f + 2, ?_⟩
  have c1 : s.CurTok ≠ tok_identifier := by rw [h]; decide
  have c2 : s.CurTok ≠ tok_number := by rw [h]; decide
  rw [ParsePrimary_succ, if_neg c1, if_neg c2, if_pos h, ParseParenExpr_succ, hf]
  simp [h2]

theorem PrimaryTo.paren_fail {strtod : List Int → D} {s s2 : State D}
    (h : s.CurTok = 40) (h1 : ExprTo strtod (getNextToken strtod s).2 none s2) :
    PrimaryTo strtod s none s2 := by
  obtain ⟨f, hf⟩ := h1
  refine ⟨f + 2, ?_⟩
  have c1 : s.CurTok ≠ tok_identifier := by rw [h]; decide
  have c2 : s.CurTok ≠ tok_number := by rw [h]; decide
  rw [ParsePrimary_succ, if_neg c1, if_neg c2, if_pos h, ParseParenExpr_succ, hf]

theorem PrimaryTo.paren_unclosed {strtod : List Int → D} {s s2 : State D} {V : ExprAST D}
    (h : s.CurTok = 40) (h1 : ExprTo strtod (getNextToken strtod s).2 (some V) s2)
    (h2 : s2.CurTok ≠ 41) : PrimaryTo strtod s none (LogError "Expected ')'" s2).2 := by
  obtain ⟨f, hf⟩ := h1
  refine ⟨f + 2, ?_⟩
  have c1 : s.CurTok ≠ tok_identifier := by rw [h]; decide
  have c2 : s.CurTok ≠ tok_number := by rw [h]; decide
  rw [ParsePrimary_succ, if_neg c1, if_neg c2, if_pos h, ParseParenExpr_succ, hf]
  simp [h2]; rfl

theorem BinOpTo.ret {strtod : List Int → D} {s : State D} {e : Int} (lhs : ExprAST D)
    (h : (getTokPrecedence s).1 < e) :
    BinOpTo strtod e lhs s (some lhs) (getTokPrecedence s).2 := by
  refine ⟨1, ?_⟩
  rw [ParseBinOpRHS_succ, if_pos h]

theorem BinOpTo.fail_primary {strtod : List Int → D} {s s2 : State D} {e : Int}
    (lhs : ExprAST D) (h : ¬ (getTokPrecedence s).1 < e)
    (h1 : PrimaryTo strtod (getNextToken strtod (getTokPrecedence s).2).2 none s2) :
    BinOpTo strtod e lhs s none s2 := by
  obtain ⟨f, hf⟩ := h1
  refine ⟨f + 1, ?_⟩
  rw [ParseBinOpRHS_succ, if_neg h, hf]

theorem BinOpTo.step {strtod : List Int → D} {s s2 s3 : State D} {e op : Int}
    {lhs rhs : ExprAST D} {r : Option (ExprAST D)} (hop : s.CurTok = op)
    (h : ¬ (getTokPrecedence s).1 < e)
    (h1 : PrimaryTo strtod (getNextToken strtod (getTokPrecedence s).2).2 (some rhs) s2)
    (h2 : ¬ (getTokPrecedence s).1 < (getTokPrecedence s2).1)
    (h3 : BinOpTo strtod e (ExprAST.BinaryExprAST op lhs rhs) (getTokPrecedence s2).2 r s3) :
    BinOpTo strtod e lhs s r s3 := by
  obtain ⟨f1, hf1⟩ := h1
  obtain ⟨f3, hf3⟩ := h3
  refine ⟨max f1 f3 + 1, ?_⟩
  rw [ParseBinOpRHS_succ, if_neg h, ParsePrimary_mono strtod hf1 (Nat.le_max_left f1 f3)]
  simp only [if_neg h2, getTokPrecedence_CurTok, hop]
  exact ParseBinOpRHS_mono strtod hf3 (Nat.le_max_right f1 f3)

theorem BinOpTo.nest {strtod : List Int → D} {s s2 s3 s4 : State D} {e op p : Int}
    {lhs rhs rhs1 : ExprAST D} {r : Option (ExprAST D)} (hop : s.CurTok = op)
    (hp : (getTokPrecedence s).1 = p) (h : ¬ p < e)
    (h1 : PrimaryTo strtod (getNextToken strtod (getTokPrecedence s).2).2 (some rhs) s2)
    (h2 : p < (getTokPrecedence s2).1)
    (h3 : BinOpTo strtod (p + 1) rhs (getTokPrecedence s2).2 (some rhs1) s3)
    (h4 : BinOpTo strtod e (ExprAST.BinaryExprAST op lhs rhs1) s3 r s4) :
    BinOpTo strtod e lhs s r s4 := by
  obtain ⟨f1, hf1⟩ := h1
  obtain ⟨f3, hf3⟩ := h3
  obtain ⟨f4, hf4⟩ := h4
  subst hp
  refine ⟨max f1 (max f3 f4) + 1, ?_⟩
  rw [ParseBinOpRHS_succ, if_neg h,
    ParsePrimary_mono strtod hf1 (Nat.le_max_left f1 (max f3 f4))]
  simp only [if_pos h2, getTokPrecedence_CurTok, hop]
  rw [ParseBinOpRHS_mono strtod hf3
    (le_trans (Nat.le_max_left f3 f4) (Nat.le_max_right f1 (max f3 f4)))]
  exact ParseBinOpRHS_mono strtod hf4
    (le_trans (Nat.le_max_right f3 f4) (Nat.le_max_right f1 (max f3 f4)))

theorem BinOpTo.fail_nested {strtod : List Int → D} {s s2 s3 : State D} {e : Int}
    {lhs rhs : ExprAST D} (h : ¬ (getTokPrecedence s).1 < e)
    (h1 : PrimaryTo strtod (getNextToken strtod (getTokPrecedence s).2).2 (some rhs) s2)
    (h2 : (getTokPrecedence s).1 < (getTokPrecedence s2).1)
    (h3 : BinOpTo strtod ((getTokPrecedence s).1 + 1) rhs (getTokPrecedence s2).2 none s3) :
    BinOpTo strtod e lhs s none s3 := by
  obtain ⟨f1, hf1⟩ := h1
  obtain ⟨f3, hf3⟩ := h3
  refine ⟨max f1 f3 + 1, ?_⟩
  rw [ParseBinOpRHS_succ, if_neg h, ParsePrimary_mono strtod hf1 (Nat.le_max_left f1 f3)]
  simp only [if_pos h2]
  rw [ParseBinOpRHS_mono strtod hf3 (Nat.le_max_right f1 f3)]

end BigStep

section TextFacts

variable {D : Type}

theorem ne_EOF_of_isspace {c : Int} (h : isspace c = true) : c ≠ EOF := by
  intro he; rw [he, isspace_EOF] at h; exact Bool.noConfusion h

theorem visible_append_of_ne {a : List Int} (h : ∀ x ∈ a, x ≠ EOF) (b : List Int) :
    visible (a ++ b) = a ++ visible b := by
  unfold visible
  exact List.takeWhile_append_of_pos (fun x hx => by simpa using h x hx)

theorem visible_of_ne {a : List Int} (h : ∀ x ∈ a, x ≠ EOF) : visible a = a := by
  have := visible_append_of_ne h []
  simpa [visible_nil] using this

theorem Blank.ne_EOF {w : List Int} (h : Blank w) : ∀ x ∈ w, x ≠ EOF :=
  fun x hx => ne_EOF_of_isspace (h x hx)

theorem Blank.dropWhile_append {w : List Int} (h : Blank w) (b : List Int) :
    (w ++ b).dropWhile isspace = b.dropWhile isspace :=
  List.dropWhile_append_of_pos h

theorem Blank.dropWhile {w : List Int} (h : Blank w) : w.dropWhile isspace = [] := by
  have := h.dropWhile_append []
  simpa using this

theorem visible_headD_eq (l : List Int) : (visible l).headD EOF = l.headD EOF := by
  cases l with
  | nil => rfl
  | cons c r => rw [visible_headD]; rfl

theorem takeWhile_append_stop {p : Int → Bool} {a b : List Int} (ha : ∀ x ∈ a, p x = true)
    (hb : ∀ x, b.head? = some x → p x = false) : (a ++ b).takeWhile p = a := by
  rw [List.takeWhile_append_of_pos ha]
  cases b with
  | nil => simp
  | cons x r => simp [List.takeWhile_cons, hb x rfl]

theorem dropWhile_append_stop {p : Int → Bool} {a b : List Int} (ha : ∀ x ∈ a, p x = true)
    (hb : ∀ x, b.head? = some x → p x = false) : (a ++ b).dropWhile p = b := by
  rw [List.dropWhile_append_of_pos ha]
  cases b with
  | nil => simp
  | cons x r => simp [List.dropWhile_cons, hb x rfl]

theorem lexVis_ident (strtod : List Int → D) {c : Int} {cs rest : List Int}
    (hc : isalpha c = true) (hcs : ∀ x ∈ cs, isalnum x = true)
    (hr : ∀ x, rest.head? = some x → isalnum x = false) :
    lexVis strtod (c :: (cs ++ rest)) = ⟨tok_identifier, some (c :: cs), none, rest⟩ := by
  simp only [lexVis, hc, if_true, takeWhile_append_stop hcs hr, dropWhile_append_stop hcs hr]

theorem isalpha_false_of_isnumch {c : Int} (h : isnumch c = true) : isalpha c = false := by
  simp only [isnumch, isdigit, Bool.or_eq_true, Bool.and_eq_true, decide_eq_true_eq,
    beq_iff_eq] at h
  simp only [isalpha, Bool.or_eq_false_iff, Bool.and_eq_false_imp, decide_eq_true_eq,
    decide_eq_false_iff_not]
  omega

theorem lexVis_num (strtod : List Int → D) {c : Int} {cs rest : List Int}
    (hc : isnumch c = true) (hcs : ∀ x ∈ cs, isnumch x = true)
    (hr : ∀ x, rest.head? = some x → isnumch x = false) :
    lexVis strtod (c :: (cs ++ rest)) =
      ⟨tok_number, none, some (strtod (c :: cs)), rest⟩ := by
  simp only [lexVis, isalpha_false_of_isnumch hc, hc, if_true, Bool.false_eq_true, if_false,
    takeWhile_append_stop hcs hr, dropWhile_append_stop hcs hr]

theorem lexVis_sym (strtod : List Int → D) {c : Int} (rest : List Int)
    (h1 : isalpha c = false) (h2 : isnumch c = false) :
    lexVis strtod (c :: rest) = ⟨c, none, none, rest⟩ := by
  simp only [lexVis, h1, h2, Bool.false_eq_true, if_false]

theorem vis_fresh (s : State D) (h1 : s.LastChar = 32) (h2 : s.InputPos = 0) :
    vis s = (visible s.InputBuffer).dropWhile isspace := by
  have h3 : (32 : Int) ≠ EOF := by decide
  have h4 : isspace 32 = true := by decide
  simp [vis, vtext, rem, h1, h2, visible_cons_ne _ _ h3, List.dropWhile_cons, h4]

end TextFacts

section LexerClaims

variable {D : Type}

theorem TableOK_tableAfter (ks : List Int) : TableOK (tableAfter ks) := by
  unfold tableAfter
  suffices h : ∀ m, TableOK m → TableOK (ks.foldl (fun m k => (mapIndex m k).2) m) from
    h _ TableOK_initial
  induction ks with
  | nil => intro m hm; exact hm
  | cons k ks ih => intro m hm; exact ih _ (TableOK_mapIndex hm k)

theorem visible_head? {l : List Int} {x : Int} (h : (visible l).head? = some x) :
    l.head? = some x := by
  cases l with
  | nil => simp [visible_nil] at h
  | cons c r =>
    by_cases he : c = EOF
    · rw [he, visible_cons_EOF] at h; simp at h
    · rw [visible_cons_ne _ _ he] at h; exact h

theorem gettok_fst (strtod : List Int → D) (s : State D) :
    (gettok strtod s).1 = (lexVis strtod (vis s)).tok := by
  obtain ⟨c, p, h1, _⟩ := gettok_spec strtod s
  rw [h1]

theorem gettok_IdentifierStr (strtod : List Int → D) (s : State D) :
    (gettok strtod s).2.IdentifierStr = (lexVis strtod (vis s)).ident.getD s.IdentifierStr := by
  obtain ⟨c, p, h1, _⟩ := gettok_spec strtod s
  rw [h1]

theorem gettok_NumVal (strtod : List Int → D) (s : State D) :
    (gettok strtod s).2.NumVal = (lexVis strtod (vis s)).num.getD s.NumVal := by
  obtain ⟨c, p, h1, _⟩ := gettok_spec strtod s
  rw [h1]

theorem gettok_LastChar (strtod : List Int → D) (s : State D) :
    (gettok strtod s).2.LastChar = (lexVis strtod (vis s)).rest.headD EOF := by
  obtain ⟨c, p, h1, h2⟩ := gettok_spec strtod s
  rw [h1, ← h2, visible_headD]

/-- C4: whatever the current token and whatever keys `operator[]` has
inserted so far, `getTokPrecedence` returns 10 for `<`, 20 for `+`, 20 for
`-`, 40 for `*`, 50 for `/` and -1 for every other token; the result is never
0 and never below -1. -/
theorem getTokPrecedence_contract (s : State D) (ks : List Int) :
    ((getTokPrecedence { s with BinopPrecedence := tableAfter ks }).1 =
        if s.CurTok = 60 then 10 else if s.CurTok = 43 then 20 else if s.CurTok = 45 then 20
        else if s.CurTok = 42 then 40 else if s.CurTok = 47 then 50 else -1) ∧
      (getTokPrecedence { s with BinopPrecedence := tableAfter ks }).1 ≠ 0 ∧
      -1 ≤ (getTokPrecedence { s with BinopPrecedence := tableAfter ks }).1 := by
  have h := getTokPrecedence_fst ({ s with BinopPrecedence := tableAfter ks } : State D)
    (TableOK_tableAfter ks)
  rw [h]
  refine ⟨rfl, ?_, ?_⟩ <;>
  · simp only [precOf]
    split_ifs <;> omega

/-- C5: when the line is optional whitespace, then an identifier (a letter
followed by letters and digits), then the end of the line or a character
that is not alphanumeric, the first `gettok` from the fresh lexer state
(`LastChar = ' '`, `InputPos = 0`) returns `tok_identifier`, sets
`IdentifierStr` to exactly the identifier, and leaves in `LastChar` the
character right after it (`EOF` if there is none). -/
theorem gettok_identifier (strtod : List Int → D) (s : State D) (ws : List Int) (c : Int)
    (cs rest : List Int) (hL : s.LastChar = 32) (hP : s.InputPos = 0)
    (hB : s.InputBuffer = ws ++ c :: cs ++ rest) (hws : Blank ws) (hc : isalpha c = true)
    (hcs : ∀ x ∈ cs, isalnum x = true) (hrest : ∀ x, rest.head? = some x → isalnum x = false) :
    (gettok strtod s).1 = tok_identifier ∧ (gettok strtod s).2.IdentifierStr = c :: cs ∧
      (gettok strtod s).2.LastChar = rest.headD EOF := by
  have hne : ∀ x ∈ c :: cs, x ≠ EOF := by
    intro x hx
    rcases List.mem_cons.1 hx with rfl | hx
    · exact ne_EOF_of_isalnum (by simp [isalnum, hc])
    · exact ne_EOF_of_isalnum (hcs x hx)
  have hsp : isspace c = false := by
    simp only [isalpha, Bool.or_eq_true, Bool.and_eq_true, decide_eq_true_eq] at hc
    simp only [isspace, Bool.or_eq_false_iff, beq_eq_false_iff_ne, Bool.and_eq_false_imp,
      decide_eq_true_eq, decide_eq_false_iff_not]
    omega
  have hv : vis s = c :: (cs ++ visible rest) := by
    rw [vis_fresh s hL hP, hB, List.append_assoc, visible_append_of_ne hws.ne_EOF,
      hws.dropWhile_append, visible_append_of_ne hne]
    simp [List.dropWhile_cons, hsp]
  have hl := lexVis_ident strtod hc hcs (fun x hx => hrest x (visible_head? hx))
  rw [← hv] at hl
  refine ⟨?_, ?_, ?_⟩
  · rw [gettok_fst, hl]
  · rw [gettok_IdentifierStr, hl]; rfl
  · rw [gettok_LastChar, hl]; exact visible_headD_eq rest

/-- C6: when the line is optional whitespace, then a non-empty run `t` of
digits and `.` (in particular any text of the form digits('.'digits)*, and
also a multi-dot text such as 1.2.3), then the end of the line or a
character that is neither a digit nor `.`, the first `gettok` from the fresh
lexer state returns `tok_number` and sets `NumVal` to `strtod` of exactly `t`. -/
theorem gettok_number (strtod : List Int → D) (s : State D) (ws t rest : List Int)
    (hL : s.LastChar = 32) (hP : s.InputPos = 0) (hB : s.InputBuffer = ws ++ t ++ rest)
    (hws : Blank ws) (ht : t ≠ []) (hall : ∀ x ∈ t, isdigit x = true ∨ x = 46)
    (hrest : ∀ x, rest.head? = some x → isdigit x = false ∧ x ≠ 46) :
    (gettok strtod s).1 = tok_number ∧ (gettok strtod s).2.NumVal = strtod t ∧
      (gettok strtod s).2.LastChar = rest.headD EOF := by
  obtain ⟨c, cs, rfl⟩ := List.exists_cons_of_ne_nil ht
  have hnum : ∀ x ∈ c :: cs, isnumch x = true := by
    intro x hx
    rcases hall x hx with h | h
    · simp [isnumch, h]
    · simp [isnumch, h]
  have hne : ∀ x ∈ c :: cs, x ≠ EOF := fun x hx => ne_EOF_of_isnumch (hnum x hx)
  have hc := hnum c (List.mem_cons_self _ _)
  have hcs : ∀ x ∈ cs, isnumch x = true := fun x hx => hnum x (List.mem_cons_of_mem _ hx)
  have hsp : isspace c = false := by
    simp only [isnumch, isdigit, Bool.or_eq_true, Bool.and_eq_true, decide_eq_true_eq,
      beq_iff_eq] at hc
    simp only [isspace, Bool.or_eq_false_iff, beq_eq_false_iff_ne, Bool.and_eq_false_imp,
      decide_eq_true_eq, decide_eq_false_iff_not]
    omega
  have hr : ∀ x, rest.head? = some x → isnumch x = false := by
    intro x hx
    obtain ⟨h1, h2⟩ := hrest x hx
    simp [isnumch, h1, h2]
  have hv : vis s = c :: (cs ++ visible rest) := by
    rw [vis_fresh s hL hP, hB, List.append_assoc, visible_append_of_ne hws.ne_EOF,
      hws.dropWhile_append, visible_append_of_ne hne]
    simp [List.dropWhile_cons, hsp]
  have hl := lexVis_num strtod hc hcs (fun x hx => hr x (visible_head? hx))
  rw [← hv] at hl
  refine ⟨?_, ?_, ?_⟩
  · rw [gettok_fst, hl]
  · rw [gettok_NumVal, hl]; rfl
  · rw [gettok_LastChar, hl]; exact visible_headD_eq rest

/-- C7: `ParsePrimary` dispatches on the current token only. On `tok_number`
it returns a `NumberExprAST` holding `NumVal` and advances exactly one token:
the new current token is the token that starts the text in front of the
lexer, and the lexer stands behind that token. On `tok_identifier` it returns
a `VariableExprAST` holding `IdentifierStr` and advances in the same way. On
any token other than these two and `(` it returns `nullptr`, logs the
unknown-token error and consumes no token: every global but `cerr` is as it
was. -/
theorem ParsePrimary_dispatch (strtod : List Int → D) (fuel : Nat) (s : State D) :
    (s.CurTok = tok_number →
      ParsePrimary strtod (fuel + 1) s =
        some (some (ExprAST.NumberExprAST s.NumVal), (getNextToken strtod s).2) ∧
      OneTokenRead strtod s (getNextToken strtod s).2) ∧
    (s.CurTok = tok_identifier →
      ParsePrimary strtod (fuel + 1) s =
        some (some (ExprAST.VariableExprAST s.IdentifierStr), (getNextToken strtod s).2) ∧
      OneTokenRead strtod s (getNextToken strtod s).2) ∧
    (s.CurTok ≠ tok_number → s.CurTok ≠ tok_identifier → s.CurTok ≠ 40 →
      ParsePrimary strtod (fuel + 1) s =
        some (none, { s with cerr := s.cerr ++
          ["Error: Unknown token when expecting an expression"] })) := by
  have hone : OneTokenRead strtod s (getNextToken strtod s).2 := by
    obtain ⟨c, p, h1, h2⟩ := gettok_spec strtod s
    have hg : (getNextToken strtod s).2 =
        { s with LastChar := c, InputPos := p,
                 IdentifierStr := (lexVis strtod (vis s)).ident.getD s.IdentifierStr,
                 NumVal := (lexVis strtod (vis s)).num.getD s.NumVal,
                 CurTok := (lexVis strtod (vis s)).tok } := by
      simp [getNextToken, h1]
    have hv : vtext (getNextToken strtod s).2 = (lexVis strtod (vis s)).rest := by
      rw [hg]
      simpa [vtext, rem] using h2
    refine ⟨by rw [hg], by rw [hg], by rw [hg], hv, ?_, by rw [hg], by rw [hg], by rw [hg]⟩
    intro hne
    rw [hv]
    have h3 := lexVis_rest_length strtod (vis s)
    have h4 : 0 < (vis s).length := List.length_pos.2 hne
    omega
  refine ⟨?_, ?_, ?_⟩
  · intro h
    have h1 : s.CurTok ≠ tok_identifier := by rw [h]; decide
    refine ⟨?_, hone⟩
    rw [ParsePrimary_succ, if_neg h1, if_pos h]; rfl
  · intro h
    refine ⟨?_, hone⟩
    rw [ParsePrimary_succ, if_pos h]; rfl
  · intro h1 h2 h3
    rw [ParsePrimary_succ, if_neg h2, if_neg h1, if_neg h3]; rfl

end LexerClaims

section AtFacts

variable {D : Type}

theorem At.of_getNextToken {strtod : List Int → D} {s : State D} {text : List Int}
    (h : vis s = text.dropWhile isspace) (ht : TableOK s.BinopPrecedence) :
    At strtod (getNextToken strtod s).2 text := by
  refine ⟨?_, ?_, ?_, ?_, ?_⟩
  · rw [getNextToken_CurTok, h]
  · intro i hi
    rw [getNextToken_IdentifierStr, h, hi]; rfl
  · intro x hx
    rw [getNextToken_NumVal, h, hx]; rfl
  · rw [getNextToken_vis, h]
  · rw [getNextToken_BinopPrecedence]; exact ht

theorem At.afterPrec {strtod : List Int → D} {s : State D} {text : List Int}
    (h : At strtod s text) : At strtod (getTokPrecedence s).2 text := by
  obtain ⟨h1, h2, h3, h4, h5⟩ := h
  refine ⟨?_, ?_, ?_, ?_, getTokPrecedence_TableOK s h5⟩
  · rw [getTokPrecedence_CurTok]; exact h1
  · rw [getTokPrecedence_IdentifierStr]; exact h2
  · rw [getTokPrecedence_NumVal]; exact h3
  · rw [getTokPrecedence_vis]; exact h4

theorem At.prec {strtod : List Int → D} {s : State D} {text : List Int}
    (h : At strtod s text) : (getTokPrecedence s).1 = precOf s.CurTok :=
  getTokPrecedence_fst s h.2.2.2.2

theorem At.blank {strtod : List Int → D} {s : State D} {w text : List Int}
    (h : At strtod s (w ++ text)) (hw : Blank w) : At strtod s text := by
  unfold At at h ⊢
  rw [hw.dropWhile_append] at h
  exact h

theorem At.eof {strtod : List Int → D} {s : State D} {w : List Int}
    (h : At strtod s w) (hw : Blank w) : s.CurTok = tok_eof ∧ vis s = [] := by
  obtain ⟨h1, _, _, h4, _⟩ := h
  rw [hw.dropWhile] at h1 h4
  exact ⟨h1, h4⟩

theorem isSym_iff {c : Int} :
    isSym c = true ↔ isspace c = false ∧ isalpha c = false ∧ isnumch c = false := by
  simp [isSym, and_assoc]

theorem At.sym {strtod : List Int → D} {s : State D} {c : Int} {rest : List Int}
    (h : At strtod s (c :: rest)) (hc : isSym c = true) :
    s.CurTok = c ∧ vis s = rest.dropWhile isspace := by
  obtain ⟨h0, h1, h2⟩ := isSym_iff.1 hc
  obtain ⟨a1, _, _, a4, _⟩ := h
  have hd : (c :: rest).dropWhile isspace = c :: rest := by
    simp [List.dropWhile_cons, h0]
  rw [hd, lexVis_sym strtod rest h1 h2] at a1 a4
  exact ⟨a1, a4⟩

theorem Leaf.text_facts {l : Leaf} (h : l.valid = true) :
    ∃ c cs, l.text = c :: cs ∧ isspace c = false ∧
      ((∃ t, l = Leaf.num t ∧ isnumch c = true ∧ ∀ x ∈ cs, isnumch x = true) ∨
       (∃ n, l = Leaf.ident n ∧ isalpha c = true ∧ ∀ x ∈ cs, isalnum x = true)) := by
  cases l with
  | num t =>
    cases t with
    | nil => simp [Leaf.valid] at h
    | cons c cs =>
      simp only [Leaf.valid, List.isEmpty_cons, Bool.not_false, Bool.true_and, List.all_cons,
        Bool.and_eq_true, List.all_eq_true] at h
      refine ⟨c, cs, rfl, ?_, Or.inl ⟨_, rfl, h.1, h.2⟩⟩
      have hc := h.1
      simp only [isnumch, isdigit, Bool.or_eq_true, Bool.and_eq_true, decide_eq_true_eq,
        beq_iff_eq] at hc
      simp only [isspace, Bool.or_eq_false_iff, beq_eq_false_iff_ne, Bool.and_eq_false_imp,
        decide_eq_true_eq, decide_eq_false_iff_not]
      omega
  | ident n =>
    cases n with
    | nil => simp [Leaf.valid] at h
    | cons c cs =>
      simp only [Leaf.valid, Bool.and_eq_true, List.all_eq_true] at h
      refine ⟨c, cs, rfl, ?_, Or.inr ⟨_, rfl, h.1, h.2⟩⟩
      have hc := h.1
      simp only [isalpha, Bool.or_eq_true, Bool.and_eq_true, decide_eq_true_eq] at hc
      simp only [isspace, Bool.or_eq_false_iff, beq_eq_false_iff_ne, Bool.and_eq_false_imp,
        decide_eq_true_eq, decide_eq_false_iff_not]
      omega

/-- In the state that has just read a valid leaf, `ParsePrimary` returns the
leaf's tree and stands at the text behind it. -/
theorem At.leaf {strtod : List Int → D} {s : State D} {l : Leaf} {rest : List Int}
    (h : At strtod s (l.text ++ rest)) (hl : l.valid = true) (hr : Delim rest) :
    PrimaryTo strtod s (some (l.ast strtod)) (getNextToken strtod s).2 ∧
      At strtod (getNextToken strtod s).2 rest := by
  obtain ⟨c, cs, ht, hsp, hk⟩ := Leaf.text_facts hl
  obtain ⟨a1, a2, a3, a4, a5⟩ := h
  have hd : (l.text ++ rest).dropWhile isspace = c :: (cs ++ rest) := by
    rw [ht]; simp [List.dropWhile_cons, hsp]
  rw [hd] at a1 a2 a3 a4
  rcases hk with ⟨t, rfl, hc, hcs⟩ | ⟨n, rfl, hc, hcs⟩
  · have hlex := lexVis_num strtod hc hcs (fun x hx => (hr x hx).2)
    rw [hlex] at a1 a2 a3 a4
    have hv := a3 _ rfl
    simp only [Leaf.text] at ht
    refine ⟨?_, At.of_getNextToken a4 a5⟩
    have := PrimaryTo.number strtod s a1
    rw [hv, ← ht] at this
    exact this
  · have hlex := lexVis_ident strtod hc hcs (fun x hx => (hr x hx).1)
    rw [hlex] at a1 a2 a3 a4
    have hv := a2 _ rfl
    simp only [Leaf.text] at ht
    refine ⟨?_, At.of_getNextToken a4 a5⟩
    have := PrimaryTo.identifier strtod s a1
    rw [hv, ← ht] at this
    exact this

end AtFacts

section Chains

variable {D : Type}

theorem op_facts {o p : Int} (h : (o, p) ∈ BinopPrecedence) :
    precOf o = p ∧ isSym o = true ∧ isalnum o = false ∧ isnumch o = false ∧ 0 < p ∧
      o ≠ EOF := by
  simp only [BinopPrecedence, List.mem_cons, Prod.mk.injEq, List.mem_singleton,
    List.not_mem_nil, or_false] at h
  rcases h with ⟨rfl, rfl⟩ | ⟨rfl, rfl⟩ | ⟨rfl, rfl⟩ | ⟨rfl, rfl⟩ | ⟨rfl, rfl⟩ <;> decide

theorem Delim_nil : Delim [] := by
  intro x hx; simp at hx

theorem Delim_cons {c : Int} (rest : List Int) (h1 : isalnum c = false)
    (h2 : isnumch c = false) : Delim (c :: rest) := by
  intro x hx
  simp only [List.head?_cons, Option.some.injEq] at hx
  subst hx
  exact ⟨h1, h2⟩

theorem isspace_not_token {c : Int} (h : isspace c = true) :
    isalnum c = false ∧ isnumch c = false := by
  simp only [isspace, Bool.or_eq_true, beq_iff_eq, Bool.and_eq_true, decide_eq_true_eq] at h
  simp only [isalnum, isalpha, isdigit, isnumch, Bool.or_eq_false_iff, Bool.and_eq_false_imp,
    decide_eq_true_eq, decide_eq_false_iff_not, beq_eq_false_iff_ne]
  omega

theorem Delim_blank_append {w rest : List Int} (hw : Blank w) (hr : Delim rest) :
    Delim (w ++ rest) := by
  cases w with
  | nil => exact hr
  | cons c w =>
    have := isspace_not_token (hw c (List.mem_cons_self _ _))
    exact Delim_cons _ this.1 this.2

theorem Delim_blank {w : List Int} (hw : Blank w) : Delim w := by
  have := Delim_blank_append hw Delim_nil
  simpa using this

theorem Delim_chainText {p : Int} {links : List Link} {rest : List Int}
    (hl : ∀ k ∈ links, Link.ok p k) (hr : Delim rest) : Delim (chainText links rest) := by
  cases links with
  | nil => exact hr
  | cons k ks =>
    obtain ⟨h1, _, h3, _⟩ := hl k (List.mem_cons_self _ _)
    obtain ⟨_, _, a, b, _, _⟩ := op_facts h3
    exact Delim_blank_append h1 (Delim_cons _ a b)

theorem Leaf.text_ne_EOF {l : Leaf} (h : l.valid = true) : ∀ x ∈ l.text, x ≠ EOF := by
  obtain ⟨c, cs, ht, _, hk⟩ := Leaf.text_facts h
  rw [ht]
  intro x hx
  rcases hk with ⟨t, _, hc, hcs⟩ | ⟨n, _, hc, hcs⟩
  · rcases List.mem_cons.1 hx with rfl | hx
    · exact ne_EOF_of_isnumch hc
    · exact ne_EOF_of_isnumch (hcs x hx)
  · rcases List.mem_cons.1 hx with rfl | hx
    · exact ne_EOF_of_isalnum (by simp [isalnum, hc])
    · exact ne_EOF_of_isalnum (hcs x hx)

theorem chainText_ne_EOF {p : Int} {links : List Link} {rest : List Int}
    (hl : ∀ k ∈ links, Link.ok p k) (hr : ∀ x ∈ rest, x ≠ EOF) :
    ∀ x ∈ chainText links rest, x ≠ EOF := by
  induction links with
  | nil => exact hr
  | cons k ks ih =>
    obtain ⟨h1, h2, h3, h4⟩ := hl k (List.mem_cons_self _ _)
    have ih1 := ih (fun k1 hk1 => hl k1 (List.mem_cons_of_mem _ hk1))
    intro x hx
    simp only [chainText, List.mem_append, List.mem_cons] at hx
    rcases hx with hx | rfl | hx | hx | hx
    · exact h1.ne_EOF x hx
    · exact (op_facts h3).2.2.2.2.2
    · exact h2.ne_EOF x hx
    · exact Leaf.text_ne_EOF h4 x hx
    · exact ih1 x hx

/-- The loop of `ParseBinOpRHS` over a chain of operators of one precedence
`p ≥ ExprPrec`: the tree grows to the left, and the loop returns at the first
token whose precedence is below `ExprPrec`. -/
theorem chain_same (strtod : List Int → D) (p e : Int) (hep : e ≤ p) (rest : List Int)
    (hdel : Delim rest) (hstop : ∀ s : State D, At strtod s rest → precOf s.CurTok < e) :
    ∀ (links : List Link) (lhs : ExprAST D) (s : State D), (∀ k ∈ links, Link.ok p k) →
      At strtod s (chainText links rest) →
      ∃ s1, BinOpTo strtod e lhs s (some (leftNested strtod lhs links)) s1 ∧
        At strtod s1 rest := by
  intro links
  induction links with
  | nil =>
    intro lhs s _ hs
    refine ⟨_, BinOpTo.ret lhs ?_, hs.afterPrec⟩
    rw [hs.prec]; exact hstop s hs
  | cons k ks ih =>
    intro lhs s hl hs
    obtain ⟨h1, h2, h3, h4⟩ := hl k (List.mem_cons_self _ _)
    have hks : ∀ k1 ∈ ks, Link.ok p k1 := fun k1 hk1 => hl k1 (List.mem_cons_of_mem _ hk1)
    obtain ⟨hprec, hsym, _, _, _, _⟩ := op_facts h3
    obtain ⟨hcur, hvis⟩ := (hs.blank h1).sym hsym
    have hp0 : (getTokPrecedence s).1 = p := by rw [hs.prec, hcur, hprec]
    have hs1 : At strtod (getNextToken strtod (getTokPrecedence s).2).2
        (k.operand.text ++ chainText ks rest) := by
      refine At.blank (At.of_getNextToken ?_ hs.afterPrec.2.2.2.2) h2
      rw [getTokPrecedence_vis, hvis]
    obtain ⟨hprim, hs2⟩ := hs1.leaf h4 (Delim_chainText hks hdel)
    have hnext : ¬ (getTokPrecedence s).1 <
        (getTokPrecedence (getNextToken strtod (getNextToken strtod
          (getTokPrecedence s).2).2).2).1 := by
      rw [hp0, hs2.prec]
      cases ks with
      | nil => have := hstop _ hs2; omega
      | cons k1 ks1 =>
        obtain ⟨g1, _, g3, _⟩ := hks k1 (List.mem_cons_self _ _)
        obtain ⟨gprec, gsym, _⟩ := op_facts g3
        obtain ⟨gcur, _⟩ := (hs2.blank g1).sym gsym
        rw [gcur, gprec]; omega
    obtain ⟨s3, hb, hs3⟩ := ih (ExprAST.BinaryExprAST k.op lhs (k.operand.ast strtod)) _ hks
      hs2.afterPrec
    exact ⟨s3, BinOpTo.step hcur (by rw [hp0]; omega) hprim hnext hb, hs3⟩

theorem precOf_eof : precOf tok_eof = -1 := by decide

/-- The state in which `parseLine` calls `parseExpression`, for a line
without a character of value `EOF`. -/
theorem At_start (strtod : List Int → D) (zero : D) (line : List Int)
    (h : ∀ x ∈ line, x ≠ EOF) :
    At strtod (getNextToken strtod { initial zero with InputBuffer := line, InputPos := 0 }).2
      line := by
  refine At.of_getNextToken ?_ TableOK_initial
  rw [vis_fresh _ rfl rfl]
  simp only
  rw [visible_of_ne h]

theorem parseLine_of_ExprTo {strtod : List Int → D} {zero : D} {line : List Int}
    {r : Option (ExprAST D)} {s1 : State D}
    (h : ExprTo strtod
      (getNextToken strtod { initial zero with InputBuffer := line, InputPos := 0 }).2 r s1) :
    parseLine strtod (initial zero) line = some (r, s1) :=
  h.parse_eq

/-- C1: a line `p0 o1 p1 ... on pn` of leaf operands and operators that all
have the same precedence `p` in the table, with optional whitespace around
every token, parses from the fresh state to the left-nested tree
`Binary(on, ... Binary(o1, p0, p1) ..., pn)`. -/
theorem parseLine_left_assoc (strtod : List Int → D) (zero : D) (p : Int) (w0 : List Int)
    (p0 : Leaf) (links : List Link) (trail : List Int) (hw0 : Blank w0)
    (hp0 : p0.valid = true) (hlinks : ∀ k ∈ links, Link.ok p k) (htrail : Blank trail) :
    ∃ s1, parseLine strtod (initial zero) (w0 ++ (p0.text ++ chainText links trail)) =
      some (some (leftNested strtod (p0.ast strtod) links), s1) := by
  have hne : ∀ x ∈ w0 ++ (p0.text ++ chainText links trail), x ≠ EOF := by
    intro x hx
    simp only [List.mem_append] at hx
    rcases hx with hx | hx | hx
    · exact hw0.ne_EOF x hx
    · exact Leaf.text_ne_EOF hp0 x hx
    · exact chainText_ne_EOF hlinks htrail.ne_EOF x hx
  have h0 := (At_start strtod zero _ hne).blank hw0
  obtain ⟨hprim, h1⟩ := h0.leaf hp0 (Delim_chainText hlinks (Delim_blank htrail))
  have hstop : ∀ s : State D, At strtod s trail → precOf s.CurTok < 0 := by
    intro s hs
    rw [(hs.eof htrail).1, precOf_eof]; decide
  cases links with
  | nil =>
    obtain ⟨s1, hb, _⟩ :=
      chain_same strtod 0 0 le_rfl trail (Delim_blank htrail) hstop [] (p0.ast strtod) _
        (fun _ hk => absurd hk (List.not_mem_nil _)) h1
    exact ⟨s1, parseLine_of_ExprTo (ExprTo.of_primary hprim hb)⟩
  | cons k ks =>
    have hp := (op_facts (hlinks k (List.mem_cons_self _ _)).2.2.1).2.2.2.2.1
    obtain ⟨s1, hb, _⟩ :=
      chain_same strtod p 0 (le_of_lt hp) trail (Delim_blank htrail) hstop (k :: ks)
        (p0.ast strtod) _ hlinks h1
    exact ⟨s1, parseLine_of_ExprTo (ExprTo.of_primary hprim hb)⟩

end Chains

section Grouping

variable {D : Type}

/-- At an operator of the table followed by a leaf: the operator is the
current token, `getTokPrecedence` answers its precedence, and after the
operator `ParsePrimary` returns the leaf. -/
theorem At.link {strtod : List Int → D} {s : State D} {k : Link} {p : Int} {rest : List Int}
    (hs : At strtod s (chainText [k] rest)) (hk : Link.ok p k) (hdel : Delim rest) :
    s.CurTok = k.op ∧ (getTokPrecedence s).1 = p ∧
      PrimaryTo strtod (getNextToken strtod (getTokPrecedence s).2).2
        (some (k.operand.ast strtod))
        (getNextToken strtod (getNextToken strtod (getTokPrecedence s).2).2).2 ∧
      At strtod (getNextToken strtod (getNextToken strtod (getTokPrecedence s).2).2).2 rest := by
  obtain ⟨h1, h2, h3, h4⟩ := hk
  obtain ⟨hprec, hsym, _, _, _, _⟩ := op_facts h3
  obtain ⟨hcur, hvis⟩ := (hs.blank h1).sym hsym
  have hs1 : At strtod (getNextToken strtod (getTokPrecedence s).2).2
      (k.operand.text ++ rest) := by
    refine At.blank (At.of_getNextToken ?_ hs.afterPrec.2.2.2.2) h2
    rw [getTokPrecedence_vis, hvis]; rfl
  obtain ⟨hprim, hs2⟩ := hs1.leaf h4 hdel
  exact ⟨hcur, by rw [hs.prec, hcur, hprec], hprim, hs2⟩

theorem At.stop_blank {strtod : List Int → D} {w : List Int} (hw : Blank w) (e : Int)
    (he : 0 ≤ e) : ∀ s : State D, At strtod s w → precOf s.CurTok < e := by
  intro s hs
  rw [(hs.eof hw).1, precOf_eof]; omega

theorem isSym_40 : isSym 40 = true := by decide
theorem isSym_41 : isSym 41 = true := by decide

theorem At.stop_close {strtod : List Int → D} {w : List Int} (hw : Blank w) (rest : List Int)
    (e : Int) (he : 0 ≤ e) :
    ∀ s : State D, At strtod s (w ++ 41 :: rest) → precOf s.CurTok < e := by
  intro s hs
  rw [((hs.blank hw).sym isSym_41).1]
  have : precOf 41 = -1 := by decide
  omega

theorem Delim_close {w : List Int} (hw : Blank w) (rest : List Int) :
    Delim (w ++ 41 :: rest) :=
  Delim_blank_append hw (Delim_cons _ (by decide) (by decide))

/-- A leaf followed by a chain of one precedence, up to a stopping text:
`parseExpression` returns the left-nested tree and stands at the stopping text. -/
theorem expr_chain (strtod : List Int → D) (p : Int) (a : Leaf) (links : List Link)
    (rest : List Int) (s : State D) (ha : a.valid = true) (hl : ∀ k ∈ links, Link.ok p k)
    (hdel : Delim rest) (hstop : ∀ s : State D, At strtod s rest → precOf s.CurTok < 0)
    (hs : At strtod s (a.text ++ chainText links rest)) :
    ∃ s1, ExprTo strtod s (some (leftNested strtod (a.ast strtod) links)) s1 ∧
      At strtod s1 rest := by
  obtain ⟨hprim, h1⟩ := hs.leaf ha (Delim_chainText hl hdel)
  cases links with
  | nil =>
    obtain ⟨s1, hb, h2⟩ := chain_same strtod 0 0 le_rfl rest hdel hstop [] (a.ast strtod) _
      (fun _ hk => absurd hk (List.not_mem_nil _)) h1
    exact ⟨s1, ExprTo.of_primary hprim hb, h2⟩
  | cons k ks =>
    have hp := (op_facts (hl k (List.mem_cons_self _ _)).2.2.1).2.2.2.2.1
    obtain ⟨s1, hb, h2⟩ := chain_same strtod p 0 (le_of_lt hp) rest hdel hstop (k :: ks)
      (a.ast strtod) _ hl h1
    exact ⟨s1, ExprTo.of_primary hprim hb, h2⟩

/-- A parenthesised group `( a o b ... )`: `ParsePrimary` returns the tree
of the inner expression and stands behind the closing parenthesis. -/
theorem paren_group (strtod : List Int → D) (p : Int) (a : Leaf) (links : List Link)
    (w1 w2 rest : List Int) (s : State D) (ha : a.valid = true)
    (hl : ∀ k ∈ links, Link.ok p k) (hw1 : Blank w1) (hw2 : Blank w2)
    (hs : At strtod s (40 :: (w1 ++ (a.text ++ chainText links (w2 ++ 41 :: rest))))) :
    ∃ s1, PrimaryTo strtod s (some (leftNested strtod (a.ast strtod) links)) s1 ∧
      At strtod s1 rest := by
  obtain ⟨hcur, hvis⟩ := hs.sym isSym_40
  have h1 : At strtod (getNextToken strtod s).2
      (a.text ++ chainText links (w2 ++ 41 :: rest)) :=
    At.blank (At.of_getNextToken hvis hs.2.2.2.2) hw1
  obtain ⟨s2, he, h2⟩ := expr_chain strtod p a links _ _ ha hl (Delim_close hw2 rest)
    (At.stop_close hw2 rest 0 le_rfl) h1
  obtain ⟨hc2, hv2⟩ := (h2.blank hw2).sym isSym_41
  exact ⟨_, PrimaryTo.paren hcur he hc2, At.of_getNextToken hv2 h2.2.2.2.2⟩

end Grouping

section GroupingClaims

variable {D : Type}

theorem noEOF_append {a b : List Int} (ha : ∀ x ∈ a, x ≠ EOF) (hb : ∀ x ∈ b, x ≠ EOF) :
    ∀ x ∈ a ++ b, x ≠ EOF := by
  intro x hx
  rcases List.mem_append.1 hx with h | h
  · exact ha x h
  · exact hb x h

theorem noEOF_cons {c : Int} {b : List Int} (hc : c ≠ EOF) (hb : ∀ x ∈ b, x ≠ EOF) :
    ∀ x ∈ c :: b, x ≠ EOF := by
  intro x hx
  rcases List.mem_cons.1 hx with h | h
  · rw [h]; exact hc
  · exact hb x h

theorem noEOF_link {k : Link} {p : Int} {rest : List Int} (hk : Link.ok p k)
    (hr : ∀ x ∈ rest, x ≠ EOF) : ∀ x ∈ chainText [k] rest, x ≠ EOF :=
  chainText_ne_EOF (fun k1 h1 => by rw [List.mem_singleton.1 h1]; exact hk) hr

theorem ok_singleton {k : Link} {p : Int} (hk : Link.ok p k) : ∀ k1 ∈ [k], Link.ok p k1 :=
  fun k1 h1 => by rw [List.mem_singleton.1 h1]; exact hk

theorem tighter_right (strtod : List Int → D) (a b c : Leaf) (o1 o2 p1 p2 : Int)
    (w1 w2 w3 w4 w5 : List Int) (s : State D)
    (k1 : Link.ok p1 ⟨w1, o1, w2, b⟩) (k2 : Link.ok p2 ⟨w3, o2, w4, c⟩) (hw5 : Blank w5)
    (ha : a.valid = true) (hlt : p1 < p2)
    (hs : At strtod s
      (a.text ++ chainText [⟨w1, o1, w2, b⟩] (chainText [⟨w3, o2, w4, c⟩] w5))) :
    ∃ s1, ExprTo strtod s (some (ExprAST.BinaryExprAST o1 (a.ast strtod)
        (ExprAST.BinaryExprAST o2 (b.ast strtod) (c.ast strtod)))) s1 := by
  have hp1 := (op_facts k1.2.2.1).2.2.2.2.1
  have hd2 : Delim (chainText [⟨w3, o2, w4, c⟩] w5) :=
    Delim_chainText (ok_singleton k2) (Delim_blank hw5)
  obtain ⟨hprim, s1⟩ := hs.leaf ha (Delim_chainText (ok_singleton k1) hd2)
  obtain ⟨c1, q1, hprimb, s2⟩ := s1.link k1 hd2
  obtain ⟨c2, q2, _, _⟩ := s2.link k2 (Delim_blank hw5)
  obtain ⟨s3, hin, s3a⟩ := chain_same strtod p2 (p1 + 1) (by omega) w5 (Delim_blank hw5)
    (At.stop_blank hw5 (p1 + 1) (by omega)) [⟨w3, o2, w4, c⟩] (b.ast strtod) _
    (ok_singleton k2) s2.afterPrec
  have hlow : (getTokPrecedence s3).1 < 0 := by
    rw [s3a.prec, (s3a.eof hw5).1, precOf_eof]; decide
  have hret : BinOpTo strtod 0 (ExprAST.BinaryExprAST o1 (a.ast strtod)
      (ExprAST.BinaryExprAST o2 (b.ast strtod) (c.ast strtod))) s3 _ _ :=
    BinOpTo.ret _ hlow
  have hall := BinOpTo.nest c1 q1 (by omega) hprimb (by rw [q2]; exact hlt) hin hret
  exact ⟨_, ExprTo.of_primary hprim hall⟩

theorem tighter_left (strtod : List Int → D) (a b c : Leaf) (o1 o2 p1 p2 : Int)
    (w1 w2 w3 w4 w5 : List Int) (s : State D)
    (k1 : Link.ok p2 ⟨w1, o2, w2, b⟩) (k2 : Link.ok p1 ⟨w3, o1, w4, c⟩) (hw5 : Blank w5)
    (ha : a.valid = true) (hlt : p1 < p2)
    (hs : At strtod s
      (a.text ++ chainText [⟨w1, o2, w2, b⟩] (chainText [⟨w3, o1, w4, c⟩] w5))) :
    ∃ s1, ExprTo strtod s (some (ExprAST.BinaryExprAST o1
        (ExprAST.BinaryExprAST o2 (a.ast strtod) (b.ast strtod)) (c.ast strtod))) s1 := by
  have hp1 := (op_facts k2.2.2.1).2.2.2.2.1
  have hd2 : Delim (chainText [⟨w3, o1, w4, c⟩] w5) :=
    Delim_chainText (ok_singleton k2) (Delim_blank hw5)
  obtain ⟨hprim, s1⟩ := hs.leaf ha (Delim_chainText (ok_singleton k1) hd2)
  obtain ⟨c1, q1, hprimb, s2⟩ := s1.link k1 hd2
  obtain ⟨c2, q2, _, _⟩ := s2.link k2 (Delim_blank hw5)
  obtain ⟨s3, hin, s3a⟩ := chain_same strtod p1 0 (by omega) w5 (Delim_blank hw5)
    (At.stop_blank hw5 0 le_rfl) [⟨w3, o1, w4, c⟩]
    (ExprAST.BinaryExprAST o2 (a.ast strtod) (b.ast strtod)) _
    (ok_singleton k2) s2.afterPrec
  have hall := BinOpTo.step c1 (by rw [q1]; omega) hprimb (by rw [q1, q2]; omega) hin
  exact ⟨_, ExprTo.of_primary hprim hall⟩

/-- C2: with precedence(o1) < precedence(o2) in the table, the line
`a o1 b o2 c` parses to `Binary(o1, a, Binary(o2, b, c))` and the line
`a o2 b o1 c` to `Binary(o1, Binary(o2, a, b), c)`, for all leaf operands and
any optional whitespace `w0 .. w5` around the tokens. -/
theorem parseLine_higher_binds_tighter (strtod : List Int → D) (zero : D) (a b c : Leaf)
    (o1 o2 p1 p2 : Int) (w0 w1 w2 w3 w4 w5 : List Int)
    (hw : ∀ w ∈ [w0, w1, w2, w3, w4, w5], Blank w)
    (ha : a.valid = true) (hb : b.valid = true) (hc : c.valid = true)
    (h1 : (o1, p1) ∈ BinopPrecedence) (h2 : (o2, p2) ∈ BinopPrecedence) (hlt : p1 < p2) :
    (∃ s1, parseLine strtod (initial zero)
        (w0 ++ a.text ++ w1 ++ [o1] ++ w2 ++ b.text ++ w3 ++ [o2] ++ w4 ++ c.text ++ w5) =
      some (some (ExprAST.BinaryExprAST o1 (a.ast strtod)
        (ExprAST.BinaryExprAST o2 (b.ast strtod) (c.ast strtod))), s1)) ∧
    (∃ s1, parseLine strtod (initial zero)
        (w0 ++ a.text ++ w1 ++ [o2] ++ w2 ++ b.text ++ w3 ++ [o1] ++ w4 ++ c.text ++ w5) =
      some (some (ExprAST.BinaryExprAST o1
        (ExprAST.BinaryExprAST o2 (a.ast strtod) (b.ast strtod)) (c.ast strtod)), s1)) := by
  have hw0 : Blank w0 := hw w0 (by simp)
  have hw1 : Blank w1 := hw w1 (by simp)
  have hw2 : Blank w2 := hw w2 (by simp)
  have hw3 : Blank w3 := hw w3 (by simp)
  have hw4 : Blank w4 := hw w4 (by simp)
  have hw5 : Blank w5 := hw w5 (by simp)
  constructor
  · have k1 : Link.ok p1 ⟨w1, o1, w2, b⟩ := ⟨hw1, hw2, h1, hb⟩
    have k2 : Link.ok p2 ⟨w3, o2, w4, c⟩ := ⟨hw3, hw4, h2, hc⟩
    have hline : w0 ++ a.text ++ w1 ++ [o1] ++ w2 ++ b.text ++ w3 ++ [o2] ++ w4 ++ c.text ++ w5
        = w0 ++ (a.text ++ chainText [⟨w1, o1, w2, b⟩] (chainText [⟨w3, o2, w4, c⟩] w5)) := by
      simp [chainText, List.append_assoc]
    rw [hline]
    have hne := noEOF_append hw0.ne_EOF (noEOF_append (Leaf.text_ne_EOF ha)
      (noEOF_link k1 (noEOF_link k2 hw5.ne_EOF)))
    obtain ⟨s1, hs1⟩ := tighter_right strtod a b c o1 o2 p1 p2 w1 w2 w3 w4 w5 _ k1 k2 hw5 ha
      hlt ((At_start strtod zero _ hne).blank hw0)
    exact ⟨s1, parseLine_of_ExprTo hs1⟩
  · have k1 : Link.ok p2 ⟨w1, o2, w2, b⟩ := ⟨hw1, hw2, h2, hb⟩
    have k2 : Link.ok p1 ⟨w3, o1, w4, c⟩ := ⟨hw3, hw4, h1, hc⟩
    have hline : w0 ++ a.text ++ w1 ++ [o2] ++ w2 ++ b.text ++ w3 ++ [o1] ++ w4 ++ c.text ++ w5
        = w0 ++ (a.text ++ chainText [⟨w1, o2, w2, b⟩] (chainText [⟨w3, o1, w4, c⟩] w5)) := by
      simp [chainText, List.append_assoc]
    rw [hline]
    have hne := noEOF_append hw0.ne_EOF (noEOF_append (Leaf.text_ne_EOF ha)
      (noEOF_link k1 (noEOF_link k2 hw5.ne_EOF)))
    obtain ⟨s1, hs1⟩ := tighter_left strtod a b c o1 o2 p1 p2 w1 w2 w3 w4 w5 _ k1 k2 hw5 ha
      hlt ((At_start strtod zero _ hne).blank hw0)
    exact ⟨s1, parseLine_of_ExprTo hs1⟩

end GroupingClaims

section ParenClaims

variable {D : Type}

theorem group_left (strtod : List Int → D) (a b c : Leaf) (o1 o2 p1 p2 : Int)
    (w1 w2 w3 w4 w5 w6 w7 : List Int) (s : State D)
    (k1 : Link.ok p1 ⟨w2, o1, w3, b⟩) (k2 : Link.ok p2 ⟨w5, o2, w6, c⟩)
    (hw1 : Blank w1) (hw4 : Blank w4) (hw7 : Blank w7) (ha : a.valid = true)
    (hs : At strtod s (40 :: (w1 ++ (a.text ++ chainText [⟨w2, o1, w3, b⟩]
      (w4 ++ 41 :: chainText [⟨w5, o2, w6, c⟩] w7))))) :
    ∃ s1, ExprTo strtod s (some (ExprAST.BinaryExprAST o2
        (ExprAST.BinaryExprAST o1 (a.ast strtod) (b.ast strtod)) (c.ast strtod))) s1 := by
  have hp2 := (op_facts k2.2.2.1).2.2.2.2.1
  obtain ⟨s1, hprim, h1⟩ := paren_group strtod p1 a [⟨w2, o1, w3, b⟩] w1 w4 _ s ha
    (ok_singleton k1) hw1 hw4 hs
  obtain ⟨s2, hb, _⟩ := chain_same strtod p2 0 (by omega) w7 (Delim_blank hw7)
    (At.stop_blank hw7 0 le_rfl) [⟨w5, o2, w6, c⟩]
    (ExprAST.BinaryExprAST o1 (a.ast strtod) (b.ast strtod)) _ (ok_singleton k2) h1
  exact ⟨s2, ExprTo.of_primary hprim hb⟩

theorem group_right (strtod : List Int → D) (a b c : Leaf) (o1 o2 p1 p2 : Int)
    (w1 w2 w3 w4 w5 w6 w7 : List Int) (s : State D)
    (h1 : (o1, p1) ∈ BinopPrecedence) (k2 : Link.ok p2 ⟨w4, o2, w5, c⟩)
    (hw1 : Blank w1) (hw2 : Blank w2) (hw3 : Blank w3) (hw6 : Blank w6) (hw7 : Blank w7)
    (ha : a.valid = true) (hb : b.valid = true)
    (hs : At strtod s (a.text ++ (w1 ++ o1 :: (w2 ++ 40 :: (w3 ++ (b.text ++
      chainText [⟨w4, o2, w5, c⟩] (w6 ++ 41 :: w7))))))) :
    ∃ s1, ExprTo strtod s (some (ExprAST.BinaryExprAST o1 (a.ast strtod)
        (ExprAST.BinaryExprAST o2 (b.ast strtod) (c.ast strtod)))) s1 := by
  obtain ⟨hprec, hsym, hal, hnu, hp1, _⟩ := op_facts h1
  obtain ⟨hprim, s1⟩ := hs.leaf ha (Delim_blank_append hw1 (Delim_cons _ hal hnu))
  obtain ⟨hcur, hvis⟩ := (s1.blank hw1).sym hsym
  have hq : (getTokPrecedence (getNextToken strtod s).2).1 = p1 := by
    rw [s1.prec, hcur, hprec]
  have t1 : At strtod (getNextToken strtod (getTokPrecedence (getNextToken strtod s).2).2).2
      (40 :: (w3 ++ (b.text ++ chainText [⟨w4, o2, w5, c⟩] (w6 ++ 41 :: w7)))) := by
    refine At.blank (At.of_getNextToken ?_ s1.afterPrec.2.2.2.2) hw2
    rw [getTokPrecedence_vis, hvis]
  obtain ⟨t2, hgroup, t2a⟩ := paren_group strtod p2 b [⟨w4, o2, w5, c⟩] w3 w6 w7 _ hb
    (ok_singleton k2) hw3 hw6 t1
  have hlow : (getTokPrecedence t2).1 = -1 := by
    rw [t2a.prec, (t2a.eof hw7).1, precOf_eof]
  have hret : BinOpTo strtod 0 (ExprAST.BinaryExprAST o1 (a.ast strtod)
      (ExprAST.BinaryExprAST o2 (b.ast strtod) (c.ast strtod))) (getTokPrecedence t2).2 _ _ :=
    BinOpTo.ret _ (by
      rw [t2a.afterPrec.prec, getTokPrecedence_CurTok, (t2a.eof hw7).1, precOf_eof]; decide)
  have hall := BinOpTo.step hcur (by rw [hq]; omega) hgroup (by rw [hq, hlow]; omega) hret
  exact ⟨_, ExprTo.of_primary hprim hall⟩

/-- C3: parentheses override the precedences and leave no node of their
own: whatever the precedences of the table operators `o1` and `o2`, the line
`( a o1 b ) o2 c` parses to `Binary(o2, Binary(o1, a, b), c)` and the line
`a o1 ( b o2 c )` to `Binary(o1, a, Binary(o2, b, c))`, for all leaf operands
and any optional whitespace `w0 .. w7` around the tokens. -/
theorem parseLine_parentheses (strtod : List Int → D) (zero : D) (a b c : Leaf)
    (o1 o2 p1 p2 : Int) (w0 w1 w2 w3 w4 w5 w6 w7 : List Int)
    (hw : ∀ w ∈ [w0, w1, w2, w3, w4, w5, w6, w7], Blank w)
    (ha : a.valid = true) (hb : b.valid = true) (hc : c.valid = true)
    (h1 : (o1, p1) ∈ BinopPrecedence) (h2 : (o2, p2) ∈ BinopPrecedence) :
    (∃ s1, parseLine strtod (initial zero)
        (w0 ++ [40] ++ w1 ++ a.text ++ w2 ++ [o1] ++ w3 ++ b.text ++ w4 ++ [41] ++ w5 ++ [o2]
          ++ w6 ++ c.text ++ w7) =
      some (some (ExprAST.BinaryExprAST o2
        (ExprAST.BinaryExprAST o1 (a.ast strtod) (b.ast strtod)) (c.ast strtod)), s1)) ∧
    (∃ s1, parseLine strtod (initial zero)
        (w0 ++ a.text ++ w1 ++ [o1] ++ w2 ++ [40] ++ w3 ++ b.text ++ w4 ++ [o2] ++ w5 ++ c.text
          ++ w6 ++ [41] ++ w7) =
      some (some (ExprAST.BinaryExprAST o1 (a.ast strtod)
        (ExprAST.BinaryExprAST o2 (b.ast strtod) (c.ast strtod))), s1)) := by
  have hw0 : Blank w0 := hw w0 (by simp)
  have hw1 : Blank w1 := hw w1 (by simp)
  have hw2 : Blank w2 := hw w2 (by simp)
  have hw3 : Blank w3 := hw w3 (by simp)
  have hw4 : Blank w4 := hw w4 (by simp)
  have hw5 : Blank w5 := hw w5 (by simp)
  have hw6 : Blank w6 := hw w6 (by simp)
  have hw7 : Blank w7 := hw w7 (by simp)
  have e40 : (40 : Int) ≠ EOF := by decide
  have e41 : (41 : Int) ≠ EOF := by decide
  constructor
  · have k1 : Link.ok p1 ⟨w2, o1, w3, b⟩ := ⟨hw2, hw3, h1, hb⟩
    have k2 : Link.ok p2 ⟨w5, o2, w6, c⟩ := ⟨hw5, hw6, h2, hc⟩
    have hline : w0 ++ [40] ++ w1 ++ a.text ++ w2 ++ [o1] ++ w3 ++ b.text ++ w4 ++ [41] ++ w5
        ++ [o2] ++ w6 ++ c.text ++ w7
        = w0 ++ (40 :: (w1 ++ (a.text ++ chainText [⟨w2, o1, w3, b⟩]
            (w4 ++ 41 :: chainText [⟨w5, o2, w6, c⟩] w7)))) := by
      simp [chainText, List.append_assoc]
    rw [hline]
    have hne := noEOF_append hw0.ne_EOF (noEOF_cons e40 (noEOF_append hw1.ne_EOF
      (noEOF_append (Leaf.text_ne_EOF ha) (noEOF_link k1 (noEOF_append hw4.ne_EOF
        (noEOF_cons e41 (noEOF_link k2 hw7.ne_EOF)))))))
    obtain ⟨s1, hs1⟩ := group_left strtod a b c o1 o2 p1 p2 w1 w2 w3 w4 w5 w6 w7 _ k1 k2
      hw1 hw4 hw7 ha ((At_start strtod zero _ hne).blank hw0)
    exact ⟨s1, parseLine_of_ExprTo hs1⟩
  · have k2 : Link.ok p2 ⟨w4, o2, w5, c⟩ := ⟨hw4, hw5, h2, hc⟩
    have hline : w0 ++ a.text ++ w1 ++ [o1] ++ w2 ++ [40] ++ w3 ++ b.text ++ w4 ++ [o2] ++ w5
        ++ c.text ++ w6 ++ [41] ++ w7
        = w0 ++ (a.text ++ (w1 ++ o1 :: (w2 ++ 40 :: (w3 ++ (b.text ++
            chainText [⟨w4, o2, w5, c⟩] (w6 ++ 41 :: w7)))))) := by
      simp [chainText, List.append_assoc]
    rw [hline]
    have hne := noEOF_append hw0.ne_EOF (noEOF_append (Leaf.text_ne_EOF ha)
      (noEOF_append hw1.ne_EOF (noEOF_cons (op_facts h1).2.2.2.2.2 (noEOF_append hw2.ne_EOF
        (noEOF_cons e40 (noEOF_append hw3.ne_EOF (noEOF_append (Leaf.text_ne_EOF hb)
          (noEOF_link k2 (noEOF_append hw6.ne_EOF (noEOF_cons e41 hw7.ne_EOF))))))))))
    obtain ⟨s1, hs1⟩ := group_right strtod a b c o1 o2 p1 p2 w1 w2 w3 w4 w5 w6 w7 _ h1 k2
      hw1 hw2 hw3 hw6 hw7 ha hb ((At_start strtod zero _ hne).blank hw0)
    exact ⟨s1, parseLine_of_ExprTo hs1⟩

end ParenClaims

section Simulation

variable {D : Type}

theorem Sim.simNext {strtod : List Int → D} {d : Prop} {s1 s2 : State D} (h : Sim d s1 s2) :
    Sim d (getNextToken strtod s1).2 (getNextToken strtod s2).2 := by
  obtain ⟨⟨_, hv, t1, t2⟩, hd⟩ := h
  refine ⟨⟨?_, ?_, ?_, ?_⟩, ?_⟩
  · rw [getNextToken_CurTok, getNextToken_CurTok, hv]
  · rw [getNextToken_vis, getNextToken_vis, hv]
  · rw [getNextToken_BinopPrecedence]; exact t1
  · rw [getNextToken_BinopPrecedence]; exact t2
  · intro hdd
    obtain ⟨a, b, c⟩ := hd hdd
    refine ⟨?_, ?_, ?_⟩
    · rw [getNextToken_IdentifierStr, getNextToken_IdentifierStr, hv, a]
    · rw [getNextToken_NumVal, getNextToken_NumVal, hv, b]
    · rw [getNextToken_cerr, getNextToken_cerr, c]

theorem Sim.simPrec {d : Prop} {s1 s2 : State D} (h : Sim d s1 s2) :
    (getTokPrecedence s1).1 = (getTokPrecedence s2).1 := by
  rw [getTokPrecedence_fst s1 h.1.2.2.1, getTokPrecedence_fst s2 h.1.2.2.2, h.1.1]

theorem Sim.simAfterPrec {d : Prop} {s1 s2 : State D} (h : Sim d s1 s2) :
    Sim d (getTokPrecedence s1).2 (getTokPrecedence s2).2 := by
  obtain ⟨⟨hc, hv, t1, t2⟩, hd⟩ := h
  refine ⟨⟨?_, ?_, getTokPrecedence_TableOK s1 t1, getTokPrecedence_TableOK s2 t2⟩, ?_⟩
  · rw [getTokPrecedence_CurTok, getTokPrecedence_CurTok, hc]
  · rw [getTokPrecedence_vis, getTokPrecedence_vis, hv]
  · intro hdd
    obtain ⟨a, b, c⟩ := hd hdd
    refine ⟨?_, ?_, ?_⟩
    · rw [getTokPrecedence_IdentifierStr, getTokPrecedence_IdentifierStr, a]
    · rw [getTokPrecedence_NumVal, getTokPrecedence_NumVal, b]
    · rw [getTokPrecedence_cerr, getTokPrecedence_cerr, c]

theorem Sim.logError {d : Prop} {s1 s2 : State D} (h : Sim d s1 s2) (Str : String) :
    Sim d (LogError Str s1).2 (LogError Str s2).2 := by
  obtain ⟨hs, hd⟩ := h
  refine ⟨hs, ?_⟩
  intro hdd
  obtain ⟨a, b, c⟩ := hd hdd
  exact ⟨a, b, by simp only [LogError, c]⟩

theorem Rel.none_none {d : Prop} : Rel d (none : Option (ExprAST D)) none :=
  ⟨Iff.rfl, fun _ => rfl⟩

theorem Rel.some_some {d : Prop} {t1 t2 : ExprAST D} (h : d → t1 = t2) :
    Rel d (some t1) (some t2) :=
  ⟨by simp, fun hd => by rw [h hd]⟩

theorem Rel.of_none {d : Prop} {r2 : Option (ExprAST D)} (h : Rel d none r2) : r2 = none :=
  h.1.1 rfl

theorem Rel.of_some {d : Prop} {t1 : ExprAST D} {r2 : Option (ExprAST D)}
    (h : Rel d (some t1) r2) : ∃ t2, r2 = some t2 ∧ (d → t1 = t2) := by
  cases r2 with
  | none => exact absurd (h.1.2 rfl) (by simp)
  | some t2 => exact ⟨t2, rfl, fun hd => Option.some.inj (h.2 hd)⟩

/-- The parser's control flow depends only on the current token, the text
ahead and the answers of the table: from two such states the four parsing
functions return together, both with a tree or both with `nullptr`, in
states that are again alike; the trees are equal when the states also agree
on `IdentifierStr`, `NumVal` and `cerr`. -/
theorem parser_sim (strtod : List Int → D) (d : Prop) : ∀ fuel : Nat,
    (∀ s1 s2 r1 t1, Sim d s1 s2 → ParsePrimary strtod fuel s1 = some (r1, t1) →
      ∃ r2 t2, ParsePrimary strtod fuel s2 = some (r2, t2) ∧ Rel d r1 r2 ∧ Sim d t1 t2) ∧
    (∀ s1 s2 r1 t1, Sim d s1 s2 → ParseParenExpr strtod fuel s1 = some (r1, t1) →
      ∃ r2 t2, ParseParenExpr strtod fuel s2 = some (r2, t2) ∧ Rel d r1 r2 ∧ Sim d t1 t2) ∧
    (∀ e l1 l2 s1 s2 r1 t1, Sim d s1 s2 → (d → l1 = l2) →
      ParseBinOpRHS strtod fuel e l1 s1 = some (r1, t1) →
      ∃ r2 t2, ParseBinOpRHS strtod fuel e l2 s2 = some (r2, t2) ∧ Rel d r1 r2 ∧
        Sim d t1 t2) ∧
    (∀ s1 s2 r1 t1, Sim d s1 s2 → parseExpression strtod fuel s1 = some (r1, t1) →
      ∃ r2 t2, parseExpression strtod fuel s2 = some (r2, t2) ∧ Rel d r1 r2 ∧ Sim d t1 t2) := by
  intro fuel
  induction fuel with
  | zero =>
    refine ⟨?_, ?_, ?_, ?_⟩
    · intro s1 s2 r1 t1 _ h; simp [ParsePrimary] at h
    · intro s1 s2 r1 t1 _ h; simp [ParseParenExpr] at h
    · intro e l1 l2 s1 s2 r1 t1 _ _ h; simp [ParseBinOpRHS] at h
    · intro s1 s2 r1 t1 _ h; simp [parseExpression] at h
  | succ n ih =>
    obtain ⟨ihP, ihPar, ihB, ihE⟩ := ih
    refine ⟨?_, ?_, ?_, ?_⟩
    · intro s1 s2 r1 t1 hs h
      rw [ParsePrimary_succ] at h ⊢
      rw [← hs.1.1]
      split_ifs at h ⊢
      · simp only [ParseIdentifierExpr, Option.some.injEq, Prod.mk.injEq] at h
        obtain ⟨rfl, rfl⟩ := h
        exact ⟨_, _, rfl, Rel.some_some (fun hd => by rw [(hs.2 hd).1]), hs.simNext⟩
      · simp only [ParseNumberExpr, Option.some.injEq, Prod.mk.injEq] at h
        obtain ⟨rfl, rfl⟩ := h
        exact ⟨_, _, rfl, Rel.some_some (fun hd => by rw [(hs.2 hd).2.1]), hs.simNext⟩
      · exact ihPar s1 s2 r1 t1 hs h
      · simp only [Option.some.injEq, LogError, Prod.mk.injEq] at h
        obtain ⟨rfl, rfl⟩ := h
        exact ⟨_, _, rfl, Rel.none_none, hs.logError _⟩
    · intro s1 s2 r1 t1 hs h
      rw [ParseParenExpr_succ] at h ⊢
      rcases hE : parseExpression strtod n (getNextToken strtod s1).2 with _ | ⟨r, u1⟩
      · rw [hE] at h; simp at h
      · obtain ⟨r2, u2, hE2, hrel, hsim⟩ := ihE _ _ _ _ hs.simNext hE
        rw [hE] at h
        rw [hE2]
        cases r with
        | none =>
          rw [hrel.of_none]
          simp only [Option.some.injEq, Prod.mk.injEq] at h
          obtain ⟨rfl, rfl⟩ := h
          exact ⟨_, _, rfl, Rel.none_none, hsim⟩
        | some V =>
          obtain ⟨V2, rfl, hV⟩ := hrel.of_some
          simp only at h ⊢
          rw [← hsim.1.1]
          split_ifs at h ⊢
          · simp only [Option.some.injEq, LogError, Prod.mk.injEq] at h
            obtain ⟨rfl, rfl⟩ := h
            exact ⟨_, _, rfl, Rel.none_none, hsim.logError _⟩
          · simp only [Option.some.injEq, Prod.mk.injEq] at h
            obtain ⟨rfl, rfl⟩ := h
            exact ⟨_, _, rfl, Rel.some_some hV, hsim.simNext⟩
    · intro e l1 l2 s1 s2 r1 t1 hs hl h
      rw [ParseBinOpRHS_succ] at h ⊢
      rw [← hs.simPrec]
      by_cases h1 : (getTokPrecedence s1).1 < e
      · rw [if_pos h1] at h ⊢
        simp only [Option.some.injEq, Prod.mk.injEq] at h
        obtain ⟨rfl, rfl⟩ := h
        exact ⟨_, _, rfl, Rel.some_some hl, hs.simAfterPrec⟩
      · rw [if_neg h1] at h ⊢
        rcases hP : ParsePrimary strtod n (getNextToken strtod (getTokPrecedence s1).2).2
          with _ | ⟨r, u1⟩
        · rw [hP] at h; simp at h
        · obtain ⟨r2, u2, hP2, hrel, hsim⟩ := ihP _ _ _ _ hs.simAfterPrec.simNext hP
          rw [hP] at h
          rw [hP2]
          cases r with
          | none =>
            rw [hrel.of_none]
            simp only [Option.some.injEq, Prod.mk.injEq] at h
            obtain ⟨rfl, rfl⟩ := h
            exact ⟨_, _, rfl, Rel.none_none, hsim⟩
          | some RHS =>
            obtain ⟨RHS2, rfl, hR⟩ := hrel.of_some
            simp only at h ⊢
            rw [← hsim.simPrec, ← hs.simAfterPrec.1.1]
            by_cases h2 : (getTokPrecedence s1).1 < (getTokPrecedence u1).1
            · rw [if_pos h2] at h ⊢
              rcases hB : ParseBinOpRHS strtod n ((getTokPrecedence s1).1 + 1) RHS
                (getTokPrecedence u1).2 with _ | ⟨r3, u3⟩
              · rw [hB] at h; simp at h
              · obtain ⟨r4, u4, hB2, hrel3, hsim3⟩ := ihB _ _ RHS2 _ _ _ _ hsim.simAfterPrec hR hB
                rw [hB] at h
                rw [hB2]
                cases r3 with
                | none =>
                  rw [hrel3.of_none]
                  simp only [Option.some.injEq, Prod.mk.injEq] at h
                  obtain ⟨rfl, rfl⟩ := h
                  exact ⟨_, _, rfl, Rel.none_none, hsim3⟩
                | some RHS1 =>
                  obtain ⟨RHS3, rfl, hR3⟩ := hrel3.of_some
                  simp only at h ⊢
                  exact ihB _ _ _ _ _ _ _ hsim3
                    (fun hd => by rw [hl hd, hR3 hd]) h
            · rw [if_neg h2] at h ⊢
              exact ihB _ _ _ _ _ _ _ hsim.simAfterPrec (fun hd => by rw [hl hd, hR hd]) h
    · intro s1 s2 r1 t1 hs h
      rw [parseExpression_succ] at h ⊢
      rcases hP : ParsePrimary strtod n s1 with _ | ⟨r, u1⟩
      · rw [hP] at h; simp at h
      · obtain ⟨r2, u2, hP2, hrel, hsim⟩ := ihP _ _ _ _ hs hP
        rw [hP] at h
        rw [hP2]
        cases r with
        | none =>
          rw [hrel.of_none]
          simp only [Option.some.injEq, Prod.mk.injEq] at h
          obtain ⟨rfl, rfl⟩ := h
          exact ⟨_, _, rfl, Rel.none_none, hsim⟩
        | some LHS =>
          obtain ⟨LHS2, rfl, hL⟩ := hrel.of_some
          simp only at h ⊢
          exact ihB _ _ _ _ _ _ _ hsim hL h

end Simulation

section FailureClaims

variable {D : Type}

/-- A call that returns a tree has written nothing to `cerr`. -/
theorem success_cerr (strtod : List Int → D) : ∀ fuel : Nat,
    (∀ s t s1, ParsePrimary strtod fuel s = some (some t, s1) → s1.cerr = s.cerr) ∧
    (∀ s t s1, ParseParenExpr strtod fuel s = some (some t, s1) → s1.cerr = s.cerr) ∧
    (∀ e l s t s1, ParseBinOpRHS strtod fuel e l s = some (some t, s1) → s1.cerr = s.cerr) ∧
    (∀ s t s1, parseExpression strtod fuel s = some (some t, s1) → s1.cerr = s.cerr) := by
  intro fuel
  induction fuel with
  | zero =>
    refine ⟨?_, ?_, ?_, ?_⟩
    · intro s t s1 h; simp [ParsePrimary] at h
    · intro s t s1 h; simp [ParseParenExpr] at h
    · intro e l s t s1 h; simp [ParseBinOpRHS] at h
    · intro s t s1 h; simp [parseExpression] at h
  | succ n ih =>
    obtain ⟨ihP, ihPar, ihB, ihE⟩ := ih
    refine ⟨?_, ?_, ?_, ?_⟩
    · intro s t s1 h
      rw [ParsePrimary_succ] at h
      split_ifs at h
      · simp only [ParseIdentifierExpr, Option.some.injEq, Prod.mk.injEq] at h
        rw [← h.2, getNextToken_cerr]
      · simp only [ParseNumberExpr, Option.some.injEq, Prod.mk.injEq] at h
        rw [← h.2, getNextToken_cerr]
      · exact ihPar s t s1 h
      · simp [LogError] at h
    · intro s t s1 h
      rw [ParseParenExpr_succ] at h
      rcases hE : parseExpression strtod n (getNextToken strtod s).2 with _ | ⟨_ | V, u⟩
      · rw [hE] at h; simp at h
      · rw [hE] at h; simp at h
      · rw [hE] at h
        simp only at h
        have h1 := ihE _ _ _ hE
        rw [getNextToken_cerr] at h1
        split_ifs at h
        · simp [LogError] at h
        · simp only [Option.some.injEq, Prod.mk.injEq] at h
          rw [← h.2, getNextToken_cerr, h1]
    · intro e l s t s1 h
      rw [ParseBinOpRHS_succ] at h
      by_cases h1 : (getTokPrecedence s).1 < e
      · rw [if_pos h1] at h
        simp only [Option.some.injEq, Prod.mk.injEq] at h
        rw [← h.2, getTokPrecedence_cerr]
      · rw [if_neg h1] at h
        rcases hP : ParsePrimary strtod n (getNextToken strtod (getTokPrecedence s).2).2
          with _ | ⟨_ | RHS, u⟩
        · rw [hP] at h; simp at h
        · rw [hP] at h; simp at h
        · rw [hP] at h
          simp only at h
          have hu := ihP _ _ _ hP
          rw [getNextToken_cerr, getTokPrecedence_cerr] at hu
          by_cases h2 : (getTokPrecedence s).1 < (getTokPrecedence u).1
          · rw [if_pos h2] at h
            rcases hB : ParseBinOpRHS strtod n ((getTokPrecedence s).1 + 1) RHS
              (getTokPrecedence u).2 with _ | ⟨_ | RHS1, u3⟩
            · rw [hB] at h; simp at h
            · rw [hB] at h; simp at h
            · rw [hB] at h
              simp only at h
              have h3 := ihB _ _ _ _ _ hB
              rw [getTokPrecedence_cerr] at h3
              rw [ihB _ _ _ _ _ h, h3, hu]
          · rw [if_neg h2] at h
            rw [ihB _ _ _ _ _ h, getTokPrecedence_cerr, hu]
    · intro s t s1 h
      rw [parseExpression_succ] at h
      rcases hP : ParsePrimary strtod n s with _ | ⟨_ | LHS, u⟩
      · rw [hP] at h; simp at h
      · rw [hP] at h; simp at h
      · rw [hP] at h
        simp only at h
        rw [ihB _ _ _ _ _ h, ihP _ _ _ hP]

/-- The state in which `parseLine` calls `parseExpression`, for any line. -/
theorem At_start_visible (strtod : List Int → D) (zero : D) (line : List Int) :
    At strtod (getNextToken strtod { initial zero with InputBuffer := line, InputPos := 0 }).2
      (visible line) := by
  refine At.of_getNextToken ?_ TableOK_initial
  rw [vis_fresh _ rfl rfl]

theorem parseLine_eq (strtod : List Int → D) (s : State D) (line : List Int) :
    parseLine strtod s line =
      parseExpression strtod
        (parseFuel (getNextToken strtod { s with InputBuffer := line, InputPos := 0 }).2)
        (getNextToken strtod { s with InputBuffer := line, InputPos := 0 }).2 := rfl

/-- The state reached by `getNextToken` from a state that stands in front of
the text of a line is like the state in which `parseLine` starts on that line. -/
theorem Sim_start (strtod : List Int → D) (zero : D) (line : List Int) (d : Prop)
    (s : State D) (hv : vis s = (visible line).dropWhile isspace)
    (ht : TableOK s.BinopPrecedence)
    (hd : d → s.IdentifierStr = [] ∧ s.NumVal = zero ∧ s.cerr = []) :
    Sim d (getNextToken strtod { initial zero with InputBuffer := line, InputPos := 0 }).2
      (getNextToken strtod s).2 := by
  have h0 : vis ({ initial zero with InputBuffer := line, InputPos := 0 } : State D) = vis s := by
    rw [vis_fresh _ rfl rfl, hv]
  refine ⟨⟨?_, ?_, ?_, ?_⟩, ?_⟩
  · rw [getNextToken_CurTok, getNextToken_CurTok, h0]
  · rw [getNextToken_vis, getNextToken_vis, h0]
  · rw [getNextToken_BinopPrecedence]; exact TableOK_initial
  · rw [getNextToken_BinopPrecedence]; exact ht
  · intro hdd
    obtain ⟨a, b, c⟩ := hd hdd
    refine ⟨?_, ?_, ?_⟩
    · rw [getNextToken_IdentifierStr, getNextToken_IdentifierStr, h0, a]; rfl
    · rw [getNextToken_NumVal, getNextToken_NumVal, h0, b]; rfl
    · rw [getNextToken_cerr, getNextToken_cerr, c]; rfl

theorem start_sym_data (strtod : List Int → D) (zero : D) (c : Int) (rest : List Int)
    (hc : isSym c = true) (hce : c ≠ EOF) :
    (getNextToken strtod
        { initial zero with InputBuffer := c :: rest, InputPos := 0 }).2.IdentifierStr = [] ∧
    (getNextToken strtod
        { initial zero with InputBuffer := c :: rest, InputPos := 0 }).2.NumVal = zero ∧
    (getNextToken strtod
        { initial zero with InputBuffer := c :: rest, InputPos := 0 }).2.cerr = [] := by
  obtain ⟨h0, h1, h2⟩ := isSym_iff.1 hc
  have hv : vis ({ initial zero with InputBuffer := c :: rest, InputPos := 0 } : State D)
      = c :: visible rest := by
    rw [vis_fresh _ rfl rfl]
    simp [visible_cons_ne _ _ hce, List.dropWhile_cons, h0]
  refine ⟨?_, ?_, ?_⟩
  · rw [getNextToken_IdentifierStr, hv, lexVis_sym strtod _ h1 h2]; rfl
  · rw [getNextToken_NumVal, hv, lexVis_sym strtod _ h1 h2]; rfl
  · rw [getNextToken_cerr]; rfl

/-- C8: when `parseExpression` succeeds on a line `s` and stops at the end
of the input (`CurTok = tok_eof`), it fails on the line `(` followed by `s`:
it returns `nullptr` and the one line written to `cerr` is the `Expected ')'`
error of `ParseParenExpr`. -/
theorem parseLine_unclosed_paren (strtod : List Int → D) (zero : D) (s : List Int)
    (t : ExprAST D) (u : State D)
    (h : parseLine strtod (initial zero) s = some (some t, u)) (heof : u.CurTok = tok_eof) :
    ∃ u1, parseLine strtod (initial zero) (40 :: s) = some (none, u1) ∧
      u1.cerr = ["Error: Expected ')'"] := by
  rw [parseLine_eq] at h
  have ha := At_start_visible strtod zero (40 :: s)
  have e40 : (40 : Int) ≠ EOF := by decide
  rw [visible_cons_ne _ _ e40] at ha
  obtain ⟨hcur, hvis⟩ := ha.sym isSym_40
  have hsim := Sim_start strtod zero s True _ hvis ha.2.2.2.2
    (fun _ => start_sym_data strtod zero 40 s isSym_40 e40)
  obtain ⟨r2, t2, h2, hrel, hs2⟩ := (parser_sim strtod True _).2.2.2 _ _ _ _ hsim h
  obtain ⟨t3, rfl, ht3⟩ := hrel.of_some
  have ht := ht3 trivial
  subst ht
  have hne : t2.CurTok ≠ 41 := by rw [← hs2.1.1, heof]; decide
  have hcerr : t2.cerr = [] := by
    rw [← (hs2.2 trivial).2.2, (success_cerr strtod _).2.2.2 _ _ _ h, getNextToken_cerr]
    rfl
  refine ⟨_, parseLine_of_ExprTo (ExprTo.of_primary_fail
    (PrimaryTo.paren_unclosed hcur ⟨_, h2⟩ hne)), ?_⟩
  simp [LogError, hcerr]

theorem fail_in_group (strtod : List Int → D) (zero : D) (s : List Int) (u : State D)
    (a : Leaf) (o p : Int) (w1 w2 w3 : List Int) (st : State D)
    (h : parseLine strtod (initial zero) s = some (none, u))
    (ha : a.valid = true) (ho : (o, p) ∈ BinopPrecedence)
    (hw1 : Blank w1) (hw2 : Blank w2) (hw3 : Blank w3)
    (hst : At strtod st (a.text ++ (w1 ++ (o :: (w2 ++ (40 :: (w3 ++ visible s))))))) :
    ∃ u1, ExprTo strtod st none u1 := by
  obtain ⟨hprec, hsym, hal, hnu, hp, hoe⟩ := op_facts ho
  rw [parseLine_eq] at h
  obtain ⟨hprim, s1⟩ := hst.leaf ha (Delim_blank_append hw1 (Delim_cons _ hal hnu))
  obtain ⟨hcur, hvis⟩ := (s1.blank hw1).sym hsym
  have t1 : At strtod (getNextToken strtod (getTokPrecedence (getNextToken strtod st).2).2).2
      (40 :: (w3 ++ visible s)) := by
    refine At.blank (At.of_getNextToken ?_ s1.afterPrec.2.2.2.2) hw2
    rw [getTokPrecedence_vis, hvis]
  obtain ⟨hc40, hv40⟩ := t1.sym isSym_40
  rw [hw3.dropWhile_append] at hv40
  have hsim := Sim_start strtod zero s False _ hv40 t1.2.2.2.2 (fun hf => hf.elim)
  obtain ⟨r2, t2, h2, hrel, _⟩ := (parser_sim strtod False _).2.2.2 _ _ _ _ hsim h
  rw [hrel.of_none] at h2
  have hfail := PrimaryTo.paren_fail hc40 ⟨_, h2⟩
  have hq : ¬ (getTokPrecedence (getNextToken strtod st).2).1 < 0 := by
    rw [s1.prec, hcur, hprec]; omega
  exact ⟨_, ExprTo.of_primary hprim (BinOpTo.fail_primary _ hq hfail)⟩

/-- C9: when `parseExpression` fails on a line `s`, it also fails on the
line `a o ( s` for every leaf operand `a` and table operator `o` (with any
optional whitespace `w0 .. w3` around the tokens): no tree is returned, not
even the one already built for `a`. -/
theorem parseLine_failure_propagates (strtod : List Int → D) (zero : D) (s : List Int)
    (u : State D) (a : Leaf) (o p : Int) (w0 w1 w2 w3 : List Int)
    (h : parseLine strtod (initial zero) s = some (none, u))
    (ha : a.valid = true) (ho : (o, p) ∈ BinopPrecedence)
    (hw : ∀ w ∈ [w0, w1, w2, w3], Blank w) :
    ∃ u1, parseLine strtod (initial zero)
      (w0 ++ a.text ++ w1 ++ [o] ++ w2 ++ [40] ++ w3 ++ s) = some (none, u1) := by
  have hw0 : Blank w0 := hw w0 (by simp)
  have hw1 : Blank w1 := hw w1 (by simp)
  have hw2 : Blank w2 := hw w2 (by simp)
  have hw3 : Blank w3 := hw w3 (by simp)
  have hoe := (op_facts ho).2.2.2.2.2
  have e40 : (40 : Int) ≠ EOF := by decide
  have hline : w0 ++ a.text ++ w1 ++ [o] ++ w2 ++ [40] ++ w3 ++ s
      = w0 ++ (a.text ++ (w1 ++ (o :: (w2 ++ (40 :: (w3 ++ s)))))) := by
    simp [List.append_assoc]
  rw [hline]
  have hvisible : visible (w0 ++ (a.text ++ (w1 ++ (o :: (w2 ++ (40 :: (w3 ++ s)))))))
      = w0 ++ (a.text ++ (w1 ++ (o :: (w2 ++ (40 :: (w3 ++ visible s)))))) := by
    rw [visible_append_of_ne hw0.ne_EOF, visible_append_of_ne (Leaf.text_ne_EOF ha),
      visible_append_of_ne hw1.ne_EOF, visible_cons_ne _ _ hoe,
      visible_append_of_ne hw2.ne_EOF, visible_cons_ne _ _ e40,
      visible_append_of_ne hw3.ne_EOF]
  have hs0 := At_start_visible strtod zero
    (w0 ++ (a.text ++ (w1 ++ (o :: (w2 ++ (40 :: (w3 ++ s)))))))
  rw [hvisible] at hs0
  obtain ⟨u1, hu1⟩ := fail_in_group strtod zero s u a o p w1 w2 w3 _ h ha ho hw1 hw2 hw3
    (hs0.blank hw0)
  exact ⟨u1, parseLine_of_ExprTo hu1⟩

end FailureClaims

section Trailing

variable {D : Type}

theorem takeWhile_append_cons_neg {p : Int → Bool} (a : List Int) {x : Int} (b : List Int)
    (hx : p x = false) : (a ++ x :: b).takeWhile p = a.takeWhile p := by
  induction a with
  | nil => simp [List.takeWhile_cons, hx]
  | cons c a ih =>
    simp only [List.cons_append, List.takeWhile_cons, ih]

theorem dropWhile_append_cons_neg {p : Int → Bool} (a : List Int) {x : Int} (b : List Int)
    (hx : p x = false) : (a ++ x :: b).dropWhile p = a.dropWhile p ++ x :: b := by
  induction a with
  | nil => simp [List.dropWhile_cons, hx]
  | cons c a ih =>
    simp only [List.cons_append, List.dropWhile_cons, ih]
    split_ifs <;> rfl

theorem lexVis_append_space (strtod : List Int → D) (c : Int) (v X : List Int) :
    lexVis strtod (c :: v ++ 32 :: X) =
      { lexVis strtod (c :: v) with rest := (lexVis strtod (c :: v)).rest ++ 32 :: X } := by
  have h1 : isalnum 32 = false := by decide
  have h2 : isnumch 32 = false := by decide
  simp only [lexVis, List.cons_append]
  split_ifs
  · rw [takeWhile_append_cons_neg v X h1, dropWhile_append_cons_neg v X h1]
  · rw [takeWhile_append_cons_neg v X h2, dropWhile_append_cons_neg v X h2]
  · rfl

theorem dropWhile_isspace_append_close (a R : List Int) :
    (a ++ 32 :: 41 :: R).dropWhile isspace =
      if a.dropWhile isspace = [] then 41 :: R
      else a.dropWhile isspace ++ 32 :: 41 :: R := by
  induction a with
  | nil =>
    have h32 : isspace 32 = true := by decide
    have h41 : isspace 41 = false := by decide
    simp [List.dropWhile_cons, h32, h41]
  | cons c a ih =>
    by_cases hc : isspace c = true
    · simp only [List.cons_append, List.dropWhile_cons, hc, if_true, ih]
    · simp [List.dropWhile_cons, hc]

theorem Ext.extAfterPrec {R : List Int} {s1 s2 : State D} (h : Ext R s1 s2) :
    Ext R (getTokPrecedence s1).2 (getTokPrecedence s2).2 := by
  obtain ⟨t1, t2, h3⟩ := h
  refine ⟨getTokPrecedence_TableOK s1 t1, getTokPrecedence_TableOK s2 t2, ?_⟩
  obtain ⟨m1, e1, _⟩ := getTokPrecedence_snd s1
  obtain ⟨m2, e2, _⟩ := getTokPrecedence_snd s2
  rw [e1, e2]
  exact h3

theorem Ext.extPrec {R : List Int} {s1 s2 : State D} (h : Ext R s1 s2) :
    (getTokPrecedence s1).1 = (getTokPrecedence s2).1 := by
  obtain ⟨t1, t2, h3⟩ := h
  rw [getTokPrecedence_fst s1 t1, getTokPrecedence_fst s2 t2]
  rcases h3 with ⟨hc, _⟩ | ⟨hc, hp⟩
  · rw [hc]
  · rw [hc, hp, precOf_eof]

theorem Ext.same_of_prec {R : List Int} {s1 s2 : State D} (h : Ext R s1 s2)
    (hp : 0 ≤ (getTokPrecedence s1).1) :
    s1.CurTok = s2.CurTok ∧ s1.IdentifierStr = s2.IdentifierStr ∧ s1.NumVal = s2.NumVal ∧
      (vtext s2 = vtext s1 ++ 32 :: 41 :: R ∨ vtext s2 = vtext s1) := by
  obtain ⟨t1, t2, h3⟩ := h
  rcases h3 with h3 | ⟨hc, _⟩
  · exact h3
  · exact absurd hc (getTokPrecedence_nonneg s1 hp)

theorem Ext.extNext {strtod : List Int → D} {R : List Int} {s1 s2 : State D}
    (t1 : TableOK s1.BinopPrecedence) (t2 : TableOK s2.BinopPrecedence)
    (hi : s1.IdentifierStr = s2.IdentifierStr) (hn : s1.NumVal = s2.NumVal)
    (hv : vtext s2 = vtext s1 ++ 32 :: 41 :: R ∨ vtext s2 = vtext s1) :
    Ext R (getNextToken strtod s1).2 (getNextToken strtod s2).2 := by
  refine ⟨by rw [getNextToken_BinopPrecedence]; exact t1,
    by rw [getNextToken_BinopPrecedence]; exact t2, ?_⟩
  rcases hv with hv | hv
  · have hv2 : vis s2 = if vis s1 = [] then 41 :: R else vis s1 ++ 32 :: 41 :: R := by
      unfold vis
      rw [hv, dropWhile_isspace_append_close]
    rcases hv1 : vis s1 with _ | ⟨c, v⟩
    · right
      rw [hv1] at hv2
      simp only [if_true] at hv2
      refine ⟨?_, ?_⟩
      · rw [getNextToken_CurTok, hv1]; rfl
      · rw [getNextToken_CurTok, hv2, lexVis_sym strtod R (by decide) (by decide)]
        rfl
    · left
      rw [hv1] at hv2
      simp only [reduceCtorEq, if_false] at hv2
      have hl := lexVis_append_space strtod c v (41 :: R)
      refine ⟨?_, ?_, ?_, Or.inl ?_⟩
      · rw [getNextToken_CurTok, getNextToken_CurTok, hv1, hv2, hl]
      · rw [getNextToken_IdentifierStr, getNextToken_IdentifierStr, hv1, hv2, hl, hi]
      · rw [getNextToken_NumVal, getNextToken_NumVal, hv1, hv2, hl, hn]
      · rw [getNextToken_vtext, getNextToken_vtext, hv1, hv2, hl]
  · left
    have hv2 : vis s2 = vis s1 := by unfold vis; rw [hv]
    refine ⟨?_, ?_, ?_, Or.inr ?_⟩
    · rw [getNextToken_CurTok, getNextToken_CurTok, hv2]
    · rw [getNextToken_IdentifierStr, getNextToken_IdentifierStr, hv2, hi]
    · rw [getNextToken_NumVal, getNextToken_NumVal, hv2, hn]
    · rw [getNextToken_vtext, getNextToken_vtext, hv2]

end Trailing

section TrailingClaims

variable {D : Type}

theorem Ext.next_of_tok (strtod : List Int → D) {R : List Int} {s1 s2 : State D}
    (h : Ext R s1 s2) (hne : s1.CurTok ≠ tok_eof) :
    s1.CurTok = s2.CurTok ∧ s1.IdentifierStr = s2.IdentifierStr ∧ s1.NumVal = s2.NumVal ∧
      Ext R (getNextToken strtod s1).2 (getNextToken strtod s2).2 := by
  obtain ⟨t1, t2, h3⟩ := h
  rcases h3 with ⟨hc, hi, hn, hv⟩ | ⟨hc, _⟩
  · exact ⟨hc, hi, hn, Ext.extNext t1 t2 hi hn hv⟩
  · exact absurd hc hne

/-- A run that returns a tree is not disturbed by a space, a `)` and any
text behind the line: the run on the longer line returns the same tree. -/
theorem parser_ext (strtod : List Int → D) (R : List Int) : ∀ fuel : Nat,
    (∀ s1 s2 t u1, Ext R s1 s2 → ParsePrimary strtod fuel s1 = some (some t, u1) →
      ∃ u2, ParsePrimary strtod fuel s2 = some (some t, u2) ∧ Ext R u1 u2) ∧
    (∀ s1 s2 t u1, Ext R s1 s2 → s1.CurTok = 40 →
      ParseParenExpr strtod fuel s1 = some (some t, u1) →
      ∃ u2, ParseParenExpr strtod fuel s2 = some (some t, u2) ∧ Ext R u1 u2) ∧
    (∀ e l s1 s2 t u1, 0 ≤ e → Ext R s1 s2 →
      ParseBinOpRHS strtod fuel e l s1 = some (some t, u1) →
      ∃ u2, ParseBinOpRHS strtod fuel e l s2 = some (some t, u2) ∧ Ext R u1 u2) ∧
    (∀ s1 s2 t u1, Ext R s1 s2 → parseExpression strtod fuel s1 = some (some t, u1) →
      ∃ u2, parseExpression strtod fuel s2 = some (some t, u2) ∧ Ext R u1 u2) := by
  intro fuel
  induction fuel with
  | zero =>
    refine ⟨?_, ?_, ?_, ?_⟩
    · intro s1 s2 t u1 _ h; simp [ParsePrimary] at h
    · intro s1 s2 t u1 _ _ h; simp [ParseParenExpr] at h
    · intro e l s1 s2 t u1 _ _ h; simp [ParseBinOpRHS] at h
    · intro s1 s2 t u1 _ h; simp [parseExpression] at h
  | succ n ih =>
    obtain ⟨ihP, ihPar, ihB, ihE⟩ := ih
    refine ⟨?_, ?_, ?_, ?_⟩
    · intro s1 s2 t u1 hs h
      rw [ParsePrimary_succ] at h ⊢
      by_cases c1 : s1.CurTok = tok_identifier
      · obtain ⟨hc, hi, _, hx⟩ := hs.next_of_tok strtod (by rw [c1]; decide)
        rw [if_pos c1] at h
        rw [if_pos (hc ▸ c1)]
        simp only [ParseIdentifierExpr, Option.some.injEq, Prod.mk.injEq] at h ⊢
        obtain ⟨rfl, rfl⟩ := h
        exact ⟨_, ⟨by rw [hi], rfl⟩, hx⟩
      · rw [if_neg c1] at h
        by_cases c2 : s1.CurTok = tok_number
        · obtain ⟨hc, _, hn, hx⟩ := hs.next_of_tok strtod (by rw [c2]; decide)
          rw [if_pos c2] at h
          rw [if_neg (hc ▸ c1), if_pos (hc ▸ c2)]
          simp only [ParseNumberExpr, Option.some.injEq, Prod.mk.injEq] at h ⊢
          obtain ⟨rfl, rfl⟩ := h
          exact ⟨_, ⟨by rw [hn], rfl⟩, hx⟩
        · rw [if_neg c2] at h
          by_cases c3 : s1.CurTok = 40
          · obtain ⟨hc, _, _, _⟩ := hs.next_of_tok strtod (by rw [c3]; decide)
            rw [if_pos c3] at h
            rw [if_neg (hc ▸ c1), if_neg (hc ▸ c2), if_pos (hc ▸ c3)]
            exact ihPar _ _ _ _ hs c3 h
          · rw [if_neg c3] at h
            simp [LogError] at h
    · intro s1 s2 t u1 hs c3 h
      obtain ⟨_, _, _, hx⟩ := hs.next_of_tok strtod (by rw [c3]; decide)
      rw [ParseParenExpr_succ] at h ⊢
      rcases hE : parseExpression strtod n (getNextToken strtod s1).2 with _ | ⟨_ | V, v1⟩
      · rw [hE] at h; simp at h
      · rw [hE] at h; simp at h
      · obtain ⟨v2, hE2, hv⟩ := ihE _ _ _ _ hx hE
        rw [hE] at h
        rw [hE2]
        simp only at h ⊢
        by_cases c4 : v1.CurTok = 41
        · obtain ⟨hc, _, _, hy⟩ := hv.next_of_tok strtod (by rw [c4]; decide)
          have c5 : ¬ v1.CurTok ≠ 41 := fun hh => hh c4
          have c6 : ¬ v2.CurTok ≠ 41 := fun hh => hh (hc ▸ c4)
          rw [if_neg c5] at h
          rw [if_neg c6]
          simp only [Option.some.injEq, Prod.mk.injEq] at h ⊢
          obtain ⟨rfl, rfl⟩ := h
          exact ⟨_, ⟨rfl, rfl⟩, hy⟩
        · have c5 : v1.CurTok ≠ 41 := c4
          rw [if_pos c5] at h
          simp [LogError] at h
    · intro e l s1 s2 t u1 he hs h
      rw [ParseBinOpRHS_succ] at h ⊢
      rw [← hs.extPrec]
      by_cases h1 : (getTokPrecedence s1).1 < e
      · rw [if_pos h1] at h ⊢
        simp only [Option.some.injEq, Prod.mk.injEq] at h ⊢
        obtain ⟨rfl, rfl⟩ := h
        exact ⟨_, ⟨rfl, rfl⟩, hs.extAfterPrec⟩
      · rw [if_neg h1] at h ⊢
        have hne : (getTokPrecedence s1).2.CurTok ≠ tok_eof := by
          rw [getTokPrecedence_CurTok]
          exact getTokPrecedence_nonneg s1 (by omega)
        obtain ⟨hc, _, _, hx⟩ := hs.extAfterPrec.next_of_tok strtod hne
        rcases hP : ParsePrimary strtod n (getNextToken strtod (getTokPrecedence s1).2).2
          with _ | ⟨_ | RHS, v1⟩
        · rw [hP] at h; simp at h
        · rw [hP] at h; simp at h
        · obtain ⟨v2, hP2, hv⟩ := ihP _ _ _ _ hx hP
          rw [hP] at h
          rw [hP2]
          simp only at h ⊢
          rw [← hv.extPrec, ← hc]
          by_cases h2 : (getTokPrecedence s1).1 < (getTokPrecedence v1).1
          · rw [if_pos h2] at h ⊢
            rcases hB : ParseBinOpRHS strtod n ((getTokPrecedence s1).1 + 1) RHS
              (getTokPrecedence v1).2 with _ | ⟨_ | RHS1, v3⟩
            · rw [hB] at h; simp at h
            · rw [hB] at h; simp at h
            · obtain ⟨v4, hB2, hv4⟩ := ihB _ _ _ _ _ _ (by omega) hv.extAfterPrec hB
              rw [hB] at h
              rw [hB2]
              simp only at h ⊢
              exact ihB _ _ _ _ _ _ he hv4 h
          · rw [if_neg h2] at h ⊢
            exact ihB _ _ _ _ _ _ he hv.extAfterPrec h
    · intro s1 s2 t u1 hs h
      rw [parseExpression_succ] at h ⊢
      rcases hP : ParsePrimary strtod n s1 with _ | ⟨_ | LHS, v1⟩
      · rw [hP] at h; simp at h
      · rw [hP] at h; simp at h
      · obtain ⟨v2, hP2, hv⟩ := ihP _ _ _ _ hs hP
        rw [hP] at h
        rw [hP2]
        simp only at h ⊢
        exact ihB _ _ _ _ _ _ le_rfl hv h

theorem visible_append (a b : List Int) :
    visible (a ++ b) = visible a ++ visible b ∨ visible (a ++ b) = visible a := by
  induction a with
  | nil => left; simp [visible_nil]
  | cons c a ih =>
    by_cases hc : c = EOF
    · right; simp [hc, visible_cons_EOF]
    · simp only [List.cons_append, visible_cons_ne _ _ hc]
      rcases ih with h | h
      · left; rw [h]
      · right; rw [h]

/-- C10: when `parseExpression` succeeds on a line `s` with tree `t` and
stops at the end of the input, it succeeds with the same tree `t` on the
line `s`, a space, a `)` and any text `r`: the stray `)` and what follows it
are not looked at. -/
theorem parseLine_stray_close (strtod : List Int → D) (zero : D) (s r : List Int)
    (t : ExprAST D) (u : State D)
    (h : parseLine strtod (initial zero) s = some (some t, u)) (_heof : u.CurTok = tok_eof) :
    ∃ u1, parseLine strtod (initial zero) (s ++ [32, 41] ++ r) = some (some t, u1) := by
  rw [parseLine_eq] at h
  have e32 : (32 : Int) ≠ EOF := by decide
  have e41 : (41 : Int) ≠ EOF := by decide
  have hline : s ++ [32, 41] ++ r = s ++ 32 :: 41 :: r := by simp
  rw [hline]
  have hv : vtext ({ initial zero with InputBuffer := s ++ 32 :: 41 :: r, InputPos := 0 } : State D)
      = vtext ({ initial zero with InputBuffer := s, InputPos := 0 } : State D)
          ++ 32 :: 41 :: visible r ∨
      vtext ({ initial zero with InputBuffer := s ++ 32 :: 41 :: r, InputPos := 0 } : State D)
      = vtext ({ initial zero with InputBuffer := s, InputPos := 0 } : State D) := by
    have h1 : ∀ l : List Int,
        vtext ({ initial zero with InputBuffer := l, InputPos := 0 } : State D)
          = 32 :: visible l := by
      intro l
      simp only [vtext, rem, initial, List.drop_zero]
      exact visible_cons_ne _ _ e32
    rw [h1, h1]
    rcases visible_append s (32 :: 41 :: r) with h2 | h2
    · left
      rw [h2, visible_cons_ne _ _ e32, visible_cons_ne _ _ e41]; rfl
    · right; rw [h2]
  have hext : Ext (visible r)
      (getNextToken strtod { initial zero with InputBuffer := s, InputPos := 0 }).2
      (getNextToken strtod
        { initial zero with InputBuffer := s ++ 32 :: 41 :: r, InputPos := 0 }).2 :=
    Ext.extNext TableOK_initial TableOK_initial rfl rfl hv
  obtain ⟨u2, h2, _⟩ := (parser_ext strtod (visible r) _).2.2.2 _ _ _ _ hext h
  exact ⟨u2, parseLine_of_ExprTo ⟨_, h2⟩⟩

end TrailingClaims

section Invariants

variable {D : Type}

/-- A property of the state that `getNextToken`, `getTokPrecedence` and
`LogError` keep is kept by the four parsing functions. -/
theorem parser_inv (strtod : List Int → D) (P : State D → Prop)
    (hN : ∀ s, P s → P (getNextToken strtod s).2) (hT : ∀ s, P s → P (getTokPrecedence s).2)
    (hL : ∀ Str s, P s → P (LogError Str s).2) : ∀ fuel : Nat,
    (∀ s r s1, P s → ParsePrimary strtod fuel s = some (r, s1) → P s1) ∧
    (∀ s r s1, P s → ParseParenExpr strtod fuel s = some (r, s1) → P s1) ∧
    (∀ e l s r s1, P s → ParseBinOpRHS strtod fuel e l s = some (r, s1) → P s1) ∧
    (∀ s r s1, P s → parseExpression strtod fuel s = some (r, s1) → P s1) := by
  intro fuel
  induction fuel with
  | zero =>
    refine ⟨?_, ?_, ?_, ?_⟩
    · intro s r s1 _ h; simp [ParsePrimary] at h
    · intro s r s1 _ h; simp [ParseParenExpr] at h
    · intro e l s r s1 _ h; simp [ParseBinOpRHS] at h
    · intro s r s1 _ h; simp [parseExpression] at h
  | succ n ih =>
    obtain ⟨ihP, ihPar, ihB, ihE⟩ := ih
    refine ⟨?_, ?_, ?_, ?_⟩
    · intro s r s1 hs h
      rw [ParsePrimary_succ] at h
      split_ifs at h
      · simp only [ParseIdentifierExpr, Option.some.injEq, Prod.mk.injEq] at h
        rw [← h.2]; exact hN s hs
      · simp only [ParseNumberExpr, Option.some.injEq, Prod.mk.injEq] at h
        rw [← h.2]; exact hN s hs
      · exact ihPar s r s1 hs h
      · simp only [Option.some.injEq] at h
        have h3 := hL "Unknown token when expecting an expression" s hs
        rw [h] at h3; exact h3
    · intro s r s1 hs h
      rw [ParseParenExpr_succ] at h
      rcases hE : parseExpression strtod n (getNextToken strtod s).2 with _ | ⟨_ | V, u⟩
      · rw [hE] at h; simp at h
      · rw [hE] at h
        simp only [Option.some.injEq, Prod.mk.injEq] at h
        rw [← h.2]; exact ihE _ _ _ (hN s hs) hE
      · rw [hE] at h
        simp only at h
        have hu := ihE _ _ _ (hN s hs) hE
        split_ifs at h
        · simp only [Option.some.injEq] at h
          have h3 := hL "Expected ')'" u hu
          rw [h] at h3; exact h3
        · simp only [Option.some.injEq, Prod.mk.injEq] at h
          rw [← h.2]; exact hN u hu
    · intro e l s r s1 hs h
      rw [ParseBinOpRHS_succ] at h
      by_cases h1 : (getTokPrecedence s).1 < e
      · rw [if_pos h1] at h
        simp only [Option.some.injEq, Prod.mk.injEq] at h
        rw [← h.2]; exact hT s hs
      · rw [if_neg h1] at h
        rcases hP : ParsePrimary strtod n (getNextToken strtod (getTokPrecedence s).2).2
          with _ | ⟨_ | RHS, u⟩
        · rw [hP] at h; simp at h
        · rw [hP] at h
          simp only [Option.some.injEq, Prod.mk.injEq] at h
          rw [← h.2]; exact ihP _ _ _ (hN _ (hT s hs)) hP
        · rw [hP] at h
          simp only at h
          have hu := ihP _ _ _ (hN _ (hT s hs)) hP
          by_cases h2 : (getTokPrecedence s).1 < (getTokPrecedence u).1
          · rw [if_pos h2] at h
            rcases hB : ParseBinOpRHS strtod n ((getTokPrecedence s).1 + 1) RHS
              (getTokPrecedence u).2 with _ | ⟨_ | RHS1, u3⟩
            · rw [hB] at h; simp at h
            · rw [hB] at h
              simp only [Option.some.injEq, Prod.mk.injEq] at h
              rw [← h.2]; exact ihB _ _ _ _ _ (hT u hu) hB
            · rw [hB] at h
              simp only at h
              exact ihB _ _ _ _ _ (ihB _ _ _ _ _ (hT u hu) hB) h
          · rw [if_neg h2] at h
            exact ihB _ _ _ _ _ (hT u hu) h
    · intro s r s1 hs h
      rw [parseExpression_succ] at h
      rcases hP : ParsePrimary strtod n s with _ | ⟨_ | LHS, u⟩
      · rw [hP] at h; simp at h
      · rw [hP] at h
        simp only [Option.some.injEq, Prod.mk.injEq] at h
        rw [← h.2]; exact ihP _ _ _ hs hP
      · rw [hP] at h
        simp only at h
        exact ihB _ _ _ _ _ (ihP _ _ _ hs hP) h

/-- What `parseLine` keeps: the same properties, from the state in which the
line is handed over. -/
theorem parseLine_inv (strtod : List Int → D) (P : State D → Prop)
    (hN : ∀ s, P s → P (getNextToken strtod s).2) (hT : ∀ s, P s → P (getTokPrecedence s).2)
    (hL : ∀ Str s, P s → P (LogError Str s).2) (s : State D) (line : List Int)
    (r : Option (ExprAST D)) (s1 : State D)
    (hs : P { s with InputBuffer := line, InputPos := 0 })
    (h : parseLine strtod s line = some (r, s1)) : P s1 :=
  (parser_inv strtod P hN hT hL _).2.2.2 _ _ _ (hN _ hs) h

end Invariants

section TableClaims

variable {D : Type}

theorem mem_mapIndex (m : List (Int × Int)) (k : Int) :
    (∀ e ∈ m, e ∈ (mapIndex m k).2) ∧ (∀ e ∈ (mapIndex m k).2, e ∈ m ∨ e = (k, 0)) := by
  induction m with
  | nil => simp [mapIndex]
  | cons a m ih =>
    obtain ⟨k1, v⟩ := a
    simp only [mapIndex]
    split_ifs with h1 h2
    · exact ⟨fun e he => he, fun e he => Or.inl he⟩
    · refine ⟨fun e he => List.mem_cons_of_mem _ he, fun e he => ?_⟩
      rcases List.mem_cons.1 he with h | h
      · exact Or.inr h
      · exact Or.inl h
    · refine ⟨fun e he => ?_, fun e he => ?_⟩
      · rcases List.mem_cons.1 he with h | h
        · rw [h]; exact List.mem_cons_self _ _
        · exact List.mem_cons_of_mem _ (ih.1 e h)
      · rcases List.mem_cons.1 he with h | h
        · rw [h]; exact Or.inl (List.mem_cons_self _ _)
        · rcases ih.2 e h with h3 | h3
          · exact Or.inl (List.mem_cons_of_mem _ h3)
          · exact Or.inr h3

theorem KeysSorted_initial : KeysSorted BinopPrecedence := by
  unfold KeysSorted BinopPrecedence
  decide

theorem KeysSorted_mapIndex {m : List (Int × Int)} (h : KeysSorted m) (k : Int) :
    KeysSorted (mapIndex m k).2 := by
  induction m with
  | nil => simp [mapIndex, KeysSorted]
  | cons a m ih =>
    obtain ⟨k1, v⟩ := a
    unfold KeysSorted at h ih ⊢
    rw [List.pairwise_cons] at h
    simp only [mapIndex]
    split_ifs with h1 h2
    · exact List.pairwise_cons.2 h
    · refine List.pairwise_cons.2 ⟨fun b hb => ?_, List.pairwise_cons.2 h⟩
      rcases List.mem_cons.1 hb with hb | hb
      · rw [hb]; exact h2
      · have := h.1 b hb
        simp only at this ⊢
        omega
    · refine List.pairwise_cons.2 ⟨fun b hb => ?_, ih h.2⟩
      rcases (mem_mapIndex m k).2 b hb with hb | hb
      · exact h.1 b hb
      · rw [hb]
        simp only
        omega

/-- In a table with sorted keys, `operator[]` with a key that is present
changes nothing. -/
theorem mapIndex_of_mem {m : List (Int × Int)} (h : KeysSorted m) {k v : Int}
    (hk : (k, v) ∈ m) : (mapIndex m k).2 = m := by
  induction m with
  | nil => simp at hk
  | cons a m ih =>
    obtain ⟨k1, v1⟩ := a
    unfold KeysSorted at h ih
    rw [List.pairwise_cons] at h
    simp only [mapIndex]
    split_ifs with h1 h2
    · rfl
    · exfalso
      rcases List.mem_cons.1 hk with hk | hk
      · simp only [Prod.mk.injEq] at hk; exact h1 hk.1
      · have := h.1 _ hk
        simp only at this
        omega
    · rcases List.mem_cons.1 hk with hk | hk
      · simp only [Prod.mk.injEq] at hk; exact absurd hk.1 h1
      · simp only
        rw [ih h.2 hk]

/-- The table after a call of `getTokPrecedence`: the old one, or the old one
with the current token inserted by `operator[]`. -/
theorem getTokPrecedence_table (s : State D) :
    (getTokPrecedence s).2.BinopPrecedence = s.BinopPrecedence ∨
    (getTokPrecedence s).2.BinopPrecedence = (mapIndex s.BinopPrecedence s.CurTok).2 := by
  unfold getTokPrecedence
  by_cases ha : isascii s.CurTok = true
  · right
    simp only [ha, Bool.not_true, Bool.false_eq_true, if_false]
    split_ifs <;> rfl
  · left
    simp only [ha, Bool.not_false, if_true]

theorem TableKept_initial : TableKept BinopPrecedence :=
  ⟨fun _ h => h, fun _ h => Or.inl h⟩

theorem TableKept_mapIndex {m : List (Int × Int)} (h : TableKept m) (k : Int) :
    TableKept (mapIndex m k).2 := by
  refine ⟨fun e he => (mem_mapIndex m k).1 e (h.1 e he), fun e he => ?_⟩
  rcases (mem_mapIndex m k).2 e he with h1 | h1
  · exact h.2 e h1
  · rw [h1]; exact Or.inr rfl

theorem TableKept_getTokPrecedence (s : State D) (h : TableKept s.BinopPrecedence) :
    TableKept (getTokPrecedence s).2.BinopPrecedence := by
  rcases getTokPrecedence_table s with h1 | h1
  · rw [h1]; exact h
  · rw [h1]; exact TableKept_mapIndex h _

theorem LogError_BinopPrecedence (Str : String) (s : State D) :
    (LogError Str s).2.BinopPrecedence = s.BinopPrecedence := rfl

/-- A property of the table that `operator[]` keeps is kept by `parseLine`. -/
theorem parseLine_table (strtod : List Int → D) (Q : List (Int × Int) → Prop)
    (hQ : ∀ m k, Q m → Q (mapIndex m k).2) (s : State D) (line : List Int)
    (r : Option (ExprAST D)) (s1 : State D) (hs : Q s.BinopPrecedence)
    (h : parseLine strtod s line = some (r, s1)) : Q s1.BinopPrecedence := by
  refine parseLine_inv strtod (fun s => Q s.BinopPrecedence) ?_ ?_ ?_ s line r s1 hs h
  · intro s hs; show Q (getNextToken strtod s).2.BinopPrecedence
    rw [getNextToken_BinopPrecedence]; exact hs
  · intro s hs
    show Q (getTokPrecedence s).2.BinopPrecedence
    rcases getTokPrecedence_table s with h1 | h1
    · rw [h1]; exact hs
    · rw [h1]; exact hQ _ _ hs
  · intro Str s hs; exact hs

theorem afterLines_table (strtod : List Int → D) (Q : List (Int × Int) → Prop)
    (hQ : ∀ m k, Q m → Q (mapIndex m k).2) (lines : List (List Int)) :
    ∀ s : State D, Q s.BinopPrecedence → Q (afterLines strtod s lines).BinopPrecedence := by
  induction lines with
  | nil => intro s hs; exact hs
  | cons line lines ih =>
    intro s hs
    simp only [afterLines]
    split_ifs
    · exact hs
    · rcases hp : parseLine strtod s line with _ | ⟨r, s1⟩
      · exact ih s hs
      · exact ih s1 (parseLine_table strtod Q hQ s line r s1 hs hp)

end TableClaims

section OperatorClaims

variable {D : Type}

theorem parser_TableOK (strtod : List Int → D) (fuel : Nat) :
    (∀ s r s1, TableOK s.BinopPrecedence → ParsePrimary strtod fuel s = some (r, s1) →
      TableOK s1.BinopPrecedence) ∧
    (∀ s r s1, TableOK s.BinopPrecedence → ParseParenExpr strtod fuel s = some (r, s1) →
      TableOK s1.BinopPrecedence) ∧
    (∀ e l s r s1, TableOK s.BinopPrecedence → ParseBinOpRHS strtod fuel e l s = some (r, s1) →
      TableOK s1.BinopPrecedence) ∧
    (∀ s r s1, TableOK s.BinopPrecedence → parseExpression strtod fuel s = some (r, s1) →
      TableOK s1.BinopPrecedence) := by
  refine parser_inv strtod (fun s => TableOK s.BinopPrecedence) ?_ ?_ ?_ fuel
  · intro s hs
    show TableOK (getNextToken strtod s).2.BinopPrecedence
    rw [getNextToken_BinopPrecedence]; exact hs
  · intro s hs; exact getTokPrecedence_TableOK s hs
  · intro Str s hs; exact hs

theorem opsInTable_binary {op : Int} {l r : ExprAST D}
    (h : ∃ p, (op, p) ∈ BinopPrecedence ∧ 0 < p) (hl : opsInTable l) (hr : opsInTable r) :
    opsInTable (ExprAST.BinaryExprAST op l r) :=
  And.intro h (And.intro hl hr)

/-- A token that `getTokPrecedence` does not answer with a negative number is
one of the five operators of the initial table. -/
theorem operator_of_prec (s : State D) (h : TableOK s.BinopPrecedence)
    (h1 : 0 ≤ (getTokPrecedence s).1) :
    ∃ p, ((getTokPrecedence s).2.CurTok, p) ∈ BinopPrecedence ∧ 0 < p := by
  rw [getTokPrecedence_fst s h] at h1
  rw [getTokPrecedence_CurTok]
  rcases (precOf_pos_iff s.CurTok).1 h1 with h2 | h2 | h2 | h2 | h2 <;> rw [h2]
  · exact ⟨10, by decide, by decide⟩
  · exact ⟨20, by decide, by decide⟩
  · exact ⟨20, by decide, by decide⟩
  · exact ⟨40, by decide, by decide⟩
  · exact ⟨50, by decide, by decide⟩

/-- The trees returned by the four parsing functions have operators of the
table in all their binary nodes. -/
theorem parser_ops (strtod : List Int → D) : ∀ fuel : Nat,
    (∀ s t s1, TableOK s.BinopPrecedence → ParsePrimary strtod fuel s = some (some t, s1) →
      opsInTable t) ∧
    (∀ s t s1, TableOK s.BinopPrecedence → ParseParenExpr strtod fuel s = some (some t, s1) →
      opsInTable t) ∧
    (∀ e l s t s1, TableOK s.BinopPrecedence → 0 ≤ e → opsInTable l →
      ParseBinOpRHS strtod fuel e l s = some (some t, s1) → opsInTable t) ∧
    (∀ s t s1, TableOK s.BinopPrecedence → parseExpression strtod fuel s = some (some t, s1) →
      opsInTable t) := by
  intro fuel
  induction fuel with
  | zero =>
    refine ⟨?_, ?_, ?_, ?_⟩
    · intro s r s1 _ h; simp [ParsePrimary] at h
    · intro s r s1 _ h; simp [ParseParenExpr] at h
    · intro e l s r s1 _ _ _ h; simp [ParseBinOpRHS] at h
    · intro s r s1 _ h; simp [parseExpression] at h
  | succ n ih =>
    obtain ⟨ihP, ihPar, ihB, ihE⟩ := ih
    have hN : ∀ s : State D, TableOK s.BinopPrecedence →
        TableOK (getNextToken strtod s).2.BinopPrecedence := by
      intro s hs; rw [getNextToken_BinopPrecedence]; exact hs
    refine ⟨?_, ?_, ?_, ?_⟩
    · intro s t s1 hs h
      rw [ParsePrimary_succ] at h
      split_ifs at h
      · simp only [ParseIdentifierExpr, Option.some.injEq, Prod.mk.injEq] at h
        rw [← h.1]; trivial
      · simp only [ParseNumberExpr, Option.some.injEq, Prod.mk.injEq] at h
        rw [← h.1]; trivial
      · exact ihPar s t s1 hs h
      · simp [LogError] at h
    · intro s t s1 hs h
      rw [ParseParenExpr_succ] at h
      rcases hE : parseExpression strtod n (getNextToken strtod s).2 with _ | ⟨_ | V, u⟩
      · rw [hE] at h; simp at h
      · rw [hE] at h; simp at h
      · rw [hE] at h
        simp only at h
        split_ifs at h
        · simp [LogError] at h
        · simp only [Option.some.injEq, Prod.mk.injEq] at h
          rw [← h.1]; exact ihE _ _ _ (hN s hs) hE
    · intro e l s t s1 hs he hl h
      rw [ParseBinOpRHS_succ] at h
      by_cases h1 : (getTokPrecedence s).1 < e
      · rw [if_pos h1] at h
        simp only [Option.some.injEq, Prod.mk.injEq] at h
        rw [← h.1]; exact hl
      · rw [if_neg h1] at h
        have hop := operator_of_prec s hs (by omega)
        have hs1 := hN _ (getTokPrecedence_TableOK s hs)
        rcases hP : ParsePrimary strtod n (getNextToken strtod (getTokPrecedence s).2).2
          with _ | ⟨_ | RHS, u⟩
        · rw [hP] at h; simp at h
        · rw [hP] at h; simp at h
        · rw [hP] at h
          simp only at h
          have hu := (parser_TableOK strtod n).1 _ _ _ hs1 hP
          have hR := ihP _ _ _ hs1 hP
          by_cases h2 : (getTokPrecedence s).1 < (getTokPrecedence u).1
          · rw [if_pos h2] at h
            rcases hB : ParseBinOpRHS strtod n ((getTokPrecedence s).1 + 1) RHS
              (getTokPrecedence u).2 with _ | ⟨_ | RHS1, u3⟩
            · rw [hB] at h; simp at h
            · rw [hB] at h; simp at h
            · rw [hB] at h
              simp only at h
              have hu3 := (parser_TableOK strtod n).2.2.1 _ _ _ _ _
                (getTokPrecedence_TableOK u hu) hB
              have hR1 := ihB _ _ _ _ _ (getTokPrecedence_TableOK u hu) (by omega) hR hB
              exact ihB _ _ _ _ _ hu3 he (opsInTable_binary hop hl hR1) h
          · rw [if_neg h2] at h
            exact ihB _ _ _ _ _ (getTokPrecedence_TableOK u hu) he (opsInTable_binary hop hl hR) h
    · intro s t s1 hs h
      rw [parseExpression_succ] at h
      rcases hP : ParsePrimary strtod n s with _ | ⟨_ | LHS, u⟩
      · rw [hP] at h; simp at h
      · rw [hP] at h; simp at h
      · rw [hP] at h
        simp only at h
        exact ihB _ _ _ _ _ ((parser_TableOK strtod n).1 _ _ _ hs hP) le_rfl
          (ihP _ _ _ hs hP) h

/-- C17. Operator invariant of the produced tree: when the parse of a line
succeeds, from the fresh program state or from any state whose precedence
table still answers like the initial one, every binary node of the returned
tree, at every depth, carries an operator that is a key of the precedence
table with a precedence above 0, that is one of `<`, `+`, `-`, `*`, `/`. -/
theorem parseLine_operators (strtod : List Int → D) (s : State D) (line : List Int)
    (t : ExprAST D) (s1 : State D) (hs : TableOK s.BinopPrecedence)
    (h : parseLine strtod s line = some (some t, s1)) : opsInTable t := by
  refine (parser_ops strtod _).2.2.2 _ t s1 ?_ h
  rw [getNextToken_BinopPrecedence]
  exact hs

/-- C20, counterexample. With `)` as the current token, a call of
`getTokPrecedence` from the initial state adds the key `)` with the value 0
to the table, and after the line `(1)` the table holds six entries. -/
theorem getTokPrecedence_inserts :
    (getTokPrecedence { initial ([] : List Int) with CurTok := 41 }).2.BinopPrecedence
      = (41, 0) :: BinopPrecedence ∧
    (getTokPrecedence { initial ([] : List Int) with CurTok := 41 }).2.BinopPrecedence
      ≠ (initial ([] : List Int)).BinopPrecedence ∧
    (afterLines (fun t : List Int => t) (initial []) [[40, 49, 41]]).BinopPrecedence
      = (41, 0) :: BinopPrecedence := by
  decide

/-- C20, amended. A call of `getTokPrecedence` keeps every entry of the
precedence table and adds at most one, the current token with the value 0;
in a table with sorted keys it adds none when the current token is not an
ASCII character or is a key already. So after any number of lines parsed
from the initial state the table still holds the five initial entries, every
other entry has the value 0, and the table answers every key as the initial
table does. -/
theorem getTokPrecedence_keeps_entries (strtod : List Int → D) :
    (∀ s : State D,
      (∀ e ∈ s.BinopPrecedence, e ∈ (getTokPrecedence s).2.BinopPrecedence) ∧
      (∀ e ∈ (getTokPrecedence s).2.BinopPrecedence,
        e ∈ s.BinopPrecedence ∨ e = (s.CurTok, 0)) ∧
      (KeysSorted s.BinopPrecedence →
        (isascii s.CurTok = false ∨ ∃ v, (s.CurTok, v) ∈ s.BinopPrecedence) →
        (getTokPrecedence s).2.BinopPrecedence = s.BinopPrecedence)) ∧
    (∀ (zero : D) (lines : List (List Int)),
      TableKept (afterLines strtod (initial zero) lines).BinopPrecedence ∧
      TableOK (afterLines strtod (initial zero) lines).BinopPrecedence ∧
      KeysSorted (afterLines strtod (initial zero) lines).BinopPrecedence) := by
  refine ⟨fun s => ⟨?_, ?_, ?_⟩, fun zero lines => ⟨?_, ?_, ?_⟩⟩
  · rcases getTokPrecedence_table s with h1 | h1
    · rw [h1]; exact fun e he => he
    · rw [h1]; exact (mem_mapIndex _ _).1
  · rcases getTokPrecedence_table s with h1 | h1
    · rw [h1]; exact fun e he => Or.inl he
    · rw [h1]; exact (mem_mapIndex _ _).2
  · intro hsorted hkey
    rcases hkey with hna | ⟨v, hv⟩
    · unfold getTokPrecedence
      simp [hna]
    · rcases getTokPrecedence_table s with h1 | h1
      · exact h1
      · rw [h1]; exact mapIndex_of_mem hsorted hv
  · exact afterLines_table strtod TableKept (fun m k h => TableKept_mapIndex h k) lines _
      TableKept_initial
  · exact afterLines_table strtod TableOK (fun m k h => TableOK_mapIndex h k) lines _
      TableOK_initial
  · exact afterLines_table strtod KeysSorted (fun m k h => KeysSorted_mapIndex h k) lines _
      KeysSorted_initial

end OperatorClaims

section EndOfInput

variable {D : Type}

/-- With no visible text ahead, `gettok` returns `tok_eof` and there is still
no visible text ahead. -/
theorem gettok_of_vis_nil (strtod : List Int → D) (s : State D) (h : vis s = []) :
    (gettok strtod s).1 = tok_eof ∧ vis (gettok strtod s).2 = [] := by
  obtain ⟨c, p, h1, h2⟩ := gettok_spec strtod s
  have h3 : vtext (gettok strtod s).2 = (lexVis strtod (vis s)).rest := by
    rw [h1]
    simpa [vtext, rem] using h2
  refine ⟨by rw [h1, h]; rfl, ?_⟩
  rw [vis, h3, h]; rfl

theorem gettok_iterate_of_vis_nil (strtod : List Int → D) (n : Nat) :
    ∀ s : State D, vis s = [] → vis ((fun s => (gettok strtod s).2)^[n] s) = [] := by
  induction n with
  | zero => intro s h; exact h
  | succ n ih =>
    intro s h
    rw [Function.iterate_succ_apply]
    exact ih _ (gettok_of_vis_nil strtod s h).2

/-- With no visible text ahead, reading the first token and parsing fails in
`ParsePrimary` with the unknown-token error. -/
theorem parse_of_vis_nil (strtod : List Int → D) (s : State D) (h : vis s = []) :
    parse strtod (getNextToken strtod s).2 =
      some (LogError "Unknown token when expecting an expression" (getNextToken strtod s).2) := by
  have h1 : (getNextToken strtod s).2.CurTok = tok_eof := by
    rw [getNextToken_CurTok, h]; rfl
  have h2 : PrimaryTo strtod (getNextToken strtod s).2 none
      (LogError "Unknown token when expecting an expression" (getNextToken strtod s).2).2 :=
    PrimaryTo.unknown strtod _ (by rw [h1]; decide) (by rw [h1]; decide) (by rw [h1]; decide)
  exact (ExprTo.of_primary_fail h2).parse_eq

theorem vis_of_blank (s : State D) (line : List Int) (h : Blank line) (h1 : s.LastChar = 32) :
    vis ({ s with InputBuffer := line, InputPos := 0 } : State D) = [] := by
  rw [vis_fresh ({ s with InputBuffer := line, InputPos := 0 } : State D) h1 rfl]
  simp only
  rw [visible_of_ne h.ne_EOF, h.dropWhile]

theorem vis_of_EOF (s : State D) (h : s.LastChar = EOF) : vis s = [] := by
  rw [vis, vtext, h, visible_cons_EOF]; rfl

/-- C13. Empty or whitespace-only input is rejected by the parser: for a
line of whitespace characters only (the empty line included), the first
`gettok` from the fresh lexer state returns `tok_eof`, so does every later
one, and `parseExpression` fails with the unknown-token error of
`ParsePrimary`, producing no tree. -/
theorem parseLine_blank (strtod : List Int → D) (zero : D) (line : List Int)
    (h : Blank line) :
    (∀ n : Nat, (gettok strtod ((fun s => (gettok strtod s).2)^[n]
      { initial zero with InputBuffer := line, InputPos := 0 })).1 = tok_eof) ∧
    ∃ u, parseLine strtod (initial zero) line = some (none, u) ∧
      u.cerr = ["Error: Unknown token when expecting an expression"] := by
  have h0 := vis_of_blank (initial zero) line h rfl
  refine ⟨fun n => (gettok_of_vis_nil strtod _ (gettok_iterate_of_vis_nil strtod n _ h0)).1,
    _, parse_of_vis_nil strtod _ h0, ?_⟩
  show (getNextToken strtod _).2.cerr ++ _ = _
  rw [getNextToken_cerr]
  rfl

/-- C18. The parser terminates on every input: from every state, and so from
the fresh one, the steps for a line (`getNextToken`, then `parseExpression`)
return a tree or a failure, with the fuel of `parseLine` and with every larger
fuel. The reasons: reading a token while the current one is not `tok_eof`
lowers the number of tokens left; with the input exhausted every token is
`tok_eof`; on `tok_eof`, `ParsePrimary` fails and `ParseBinOpRHS` returns. -/
theorem parseLine_terminates (strtod : List Int → D) (s : State D) (line : List Int) :
    (∃ r, parseLine strtod s line = some r ∧
      ∀ fuel, parseFuel (getNextToken strtod { s with InputBuffer := line, InputPos := 0 }).2 ≤ fuel →
        parseExpression strtod fuel
          (getNextToken strtod { s with InputBuffer := line, InputPos := 0 }).2 = some r) ∧
    (∀ u : State D, u.CurTok ≠ tok_eof →
      tokensLeft (getNextToken strtod u).2 < tokensLeft u) ∧
    (∀ u : State D, vis u = [] →
      (getNextToken strtod u).1 = tok_eof ∧ vis (getNextToken strtod u).2 = []) ∧
    (∀ (fuel : Nat) (u : State D), u.CurTok = tok_eof →
      ParsePrimary strtod (fuel + 1) u =
        some (LogError "Unknown token when expecting an expression" u)) ∧
    (∀ (fuel : Nat) (e : Int) (l : ExprAST D) (u : State D), u.CurTok = tok_eof → 0 ≤ e →
      ParseBinOpRHS strtod (fuel + 1) e l u = some (some l, u)) := by
  refine ⟨?_, ?_, ?_, ?_, ?_⟩
  · obtain ⟨r, hr⟩ := parseExpression_terminates strtod
      (getNextToken strtod { s with InputBuffer := line, InputPos := 0 }).2 _ le_rfl
    exact ⟨r, hr, fun fuel hf => parseExpression_of_fuel strtod hr hf⟩
  · intro u hu
    have h1 := tokensLeft_getNextToken strtod u
    unfold tokensLeft at *
    rw [if_neg hu]
    omega
  · intro u hu
    exact gettok_of_vis_nil strtod u hu
  · intro fuel u hu
    rw [ParsePrimary_succ, if_neg (by rw [hu]; decide), if_neg (by rw [hu]; decide),
      if_neg (by rw [hu]; decide)]
  · intro fuel e l u hu he
    have h1 : getTokPrecedence u = (-1, u) := by
      unfold getTokPrecedence
      rw [hu]; rfl
    rw [ParseBinOpRHS_succ, h1, if_pos (by show (-1 : Int) < e; omega)]

/-- C12, at the failing input. The line `2` alone, from the initial state,
parses to `Number 2`. After the line `1` the lookahead `LastChar` is `EOF`,
and the same line `2` then fails with the unknown-token error: its first
token is read as `tok_eof`. -/
theorem parseLine_second_line :
    (parseLine (fun t : List Int => t) (initial []) [50]).map Prod.fst
      = some (some (ExprAST.NumberExprAST [50])) ∧
    (afterLines (fun t : List Int => t) (initial []) [[49]]).LastChar = EOF ∧
    (parseLine (fun t : List Int => t)
      (afterLines (fun t : List Int => t) (initial []) [[49]]) [50]).map Prod.fst
      = some none ∧
    (parseLine (fun t : List Int => t)
      (afterLines (fun t : List Int => t) (initial []) [[49]]) [50]).map (fun r => r.2.cerr)
      = some ["Error: Unknown token when expecting an expression"] := by
  decide

/-- Once the lookahead is `EOF`, no later line is read: from a state with
`LastChar = EOF`, every line fails with the unknown-token error and leaves
the lookahead at `EOF`. -/
theorem parseLine_after_EOF (strtod : List Int → D) (s : State D) (line : List Int)
    (h : s.LastChar = EOF) :
    ∃ u, parseLine strtod s line = some (none, u) ∧
      u.cerr = s.cerr ++ ["Error: Unknown token when expecting an expression"] ∧
      u.LastChar = EOF := by
  have h0 : vis ({ s with InputBuffer := line, InputPos := 0 } : State D) = [] :=
    vis_of_EOF _ h
  refine ⟨_, parse_of_vis_nil strtod _ h0, ?_, ?_⟩
  · show (getNextToken strtod _).2.cerr ++ _ = _
    rw [getNextToken_cerr]
    rfl
  · show (gettok strtod _).2.LastChar = EOF
    rw [gettok_LastChar, h0]; rfl

end EndOfInput

section PrintClaims

variable {D : Type}

theorem listing_length (fmt : D → List Int) (t : ExprAST D) :
    ∀ d, (listing fmt t d).length = size t := by
  induction t with
  | NumberExprAST v => intro d; rfl
  | VariableExprAST n => intro d; rfl
  | BinaryExprAST op l r ihl ihr =>
    intro d
    simp only [listing, size, List.length_cons, List.length_append, ihl, ihr]
    omega

theorem head_label (a x : List Int) (h : a.head? ≠ some 32) (h1 : a ≠ []) :
    (a ++ x).head? ≠ some 32 := by
  cases a with
  | nil => exact absurd rfl h1
  | cons c a => simpa using h

theorem listing_head (fmt : D → List Int) (t : ExprAST D) :
    ∀ d, ∀ e ∈ listing fmt t d, e.2.head? ≠ some 32 ∧ d ≤ e.1 ∧ e.1 ≤ d + height t := by
  induction t with
  | NumberExprAST v =>
    intro d e he
    simp only [listing, List.mem_singleton] at he
    rw [he]; exact ⟨head_label _ _ (by decide) (by decide), le_rfl, by simp [height]⟩
  | VariableExprAST n =>
    intro d e he
    simp only [listing, List.mem_singleton] at he
    rw [he]; exact ⟨head_label _ _ (by decide) (by decide), le_rfl, by simp [height]⟩
  | BinaryExprAST op l r ihl ihr =>
    intro d e he
    simp only [listing, List.mem_cons, List.mem_append] at he
    rcases he with he | he | he
    · rw [he]; exact ⟨head_label _ _ (by decide) (by decide), le_rfl, by simp [height]⟩
    · have h1 := ihl (d + 1) e he
      have h2 := le_max_left (height l) (height r)
      simp only [height]
      exact ⟨h1.1, by omega, by omega⟩
    · have h1 := ihr (d + 1) e he
      have h2 := le_max_right (height l) (height r)
      simp only [height]
      exact ⟨h1.1, by omega, by omega⟩

/-- The lines of `print`, as long as no indentation passes `INT_MAX`. -/
theorem print_eq (fmt : D → List Int) (t : ExprAST D) :
    ∀ (d : Nat) (n : Nat), (n : Int) + 2 * d + 2 * height t ≤ INT_MAX →
      print fmt t ((n : Int) + 2 * d) =
        some ((listing fmt t d).map (fun e => List.replicate (n + 2 * e.1) 32 ++ e.2)) := by
  have hi : ∀ n d : Nat, indentation ((n : Int) + 2 * d) = List.replicate (n + 2 * d) 32 := by
    intro n d
    unfold indentation
    congr 1
  induction t with
  | NumberExprAST v =>
    intro d n h
    simp only [height, Nat.cast_zero, mul_zero, add_zero] at h
    have h1 : ¬ ((n : Int) + 2 * d < 0 ∨ INT_MAX < (n : Int) + 2 * d) := by omega
    simp only [print, if_neg h1, listing, List.map_cons, List.map_nil, hi, List.append_assoc]
  | VariableExprAST v =>
    intro d n h
    simp only [height, Nat.cast_zero, mul_zero, add_zero] at h
    have h1 : ¬ ((n : Int) + 2 * d < 0 ∨ INT_MAX < (n : Int) + 2 * d) := by omega
    simp only [print, if_neg h1, listing, List.map_cons, List.map_nil, hi, List.append_assoc]
  | BinaryExprAST op l r ihl ihr =>
    intro d n h
    simp only [height, Nat.cast_add, Nat.cast_one, Nat.cast_max] at h
    have h1 : ¬ ((n : Int) + 2 * d < 0 ∨ INT_MAX < (n : Int) + 2 * d) := by omega
    have e1 : (n : Int) + 2 * d + 2 = (n : Int) + 2 * ((d + 1 : Nat) : Int) := by
      push_cast; ring
    have h2 := ihl (d + 1) n (by push_cast; omega)
    have h3 := ihr (d + 1) n (by push_cast; omega)
    simp only [print, if_neg h1, e1, h2, h3, listing, List.map_cons, List.map_append, hi,
      List.append_assoc]

/-- C14, counterexample. With the indent `INT_MAX`, `print` on a binary node
has no defined output: the children are printed with `indent + 2`, which no
`int` holds. -/
theorem print_overflow :
    (0 : Int) ≤ 2147483647 ∧
    print (fun t : List Int => t)
      (ExprAST.BinaryExprAST 43 (ExprAST.NumberExprAST [49]) (ExprAST.NumberExprAST [50]))
      2147483647 = none := by
  decide

/-- C14, amended. For every tree `t` and every indent `n ≥ 0` with
`n + 2 * height t ≤ INT_MAX`, `print(n)` writes exactly one line per node of
`t`, in pre-order (node, whole left subtree, whole right subtree); the line of
a node at depth `d` below the root is exactly `n + 2 * d` spaces followed by
the text of the node, `Number: <value>`, `Variable: <name>` or
`Binary Op: <operator>`, which does not start with a space. -/
theorem print_listing (fmt : D → List Int) (t : ExprAST D) (n : Nat)
    (h : (n : Int) + 2 * height t ≤ INT_MAX) :
    print fmt t n =
      some ((listing fmt t 0).map (fun e => List.replicate (n + 2 * e.1) 32 ++ e.2)) ∧
    (listing fmt t 0).length = size t ∧
    (∀ e ∈ listing fmt t 0, e.2.head? ≠ some 32 ∧ e.1 ≤ height t) := by
  refine ⟨?_, listing_length fmt t 0, fun e he => ?_⟩
  · have := print_eq fmt t 0 n (by simpa using h)
    simpa using this
  · have := listing_head fmt t 0 e he
    exact ⟨this.1, by omega⟩

end PrintClaims

section RoundTrip

variable {D : Type}

theorem render_ne_EOF {sep : List Int} (hsep : Blank sep) (t : Shape) (ht : t.ok) :
    ∀ x ∈ render sep t, x ≠ EOF := by
  induction t with
  | leaf p => exact Leaf.text_ne_EOF ht
  | binary op l r ihl ihr =>
    obtain ⟨⟨p, hp⟩, hl, hr⟩ := ht
    intro x hx
    simp only [render, List.mem_cons, List.mem_append, List.mem_singleton, List.not_mem_nil,
      or_false] at hx
    rcases hx with rfl | hx | hx | hx | rfl | hx | hx | hx | rfl
    · decide
    · exact hsep.ne_EOF x hx
    · exact ihl hl x hx
    · exact hsep.ne_EOF x hx
    · exact (op_facts hp).2.2.2.2.2
    · exact hsep.ne_EOF x hx
    · exact ihr hr x hx
    · exact hsep.ne_EOF x hx
    · decide

/-- `ParsePrimary` in front of the text of a tree returns that tree and stops
behind the text. -/
theorem render_primary (strtod : List Int → D) {sep : List Int} (hsep : Blank sep) (t : Shape) :
    t.ok → ∀ (s : State D) (rest : List Int), Delim rest →
      At strtod s (render sep t ++ rest) →
      ∃ s1, PrimaryTo strtod s (some (t.ast strtod)) s1 ∧ At strtod s1 rest := by
  induction t with
  | leaf p =>
    intro ht s rest hdel hs
    exact ⟨_, hs.leaf ht hdel⟩
  | binary op l r ihl ihr =>
    intro ht s rest hdel hs
    obtain ⟨⟨p, hp⟩, hl, hr⟩ := ht
    obtain ⟨hprec, hsym, halnum, hnum, hpos, _⟩ := op_facts hp
    have htext : render sep (Shape.binary op l r) ++ rest =
        40 :: (sep ++ (render sep l ++ (sep ++ op :: (sep ++ (render sep r ++
          (sep ++ 41 :: rest)))))) := by
      simp [render, List.append_assoc]
    rw [htext] at hs
    obtain ⟨hcur, hvis⟩ := hs.sym isSym_40
    have h1 : At strtod (getNextToken strtod s).2
        (render sep l ++ (sep ++ op :: (sep ++ (render sep r ++ (sep ++ 41 :: rest))))) :=
      At.blank (At.of_getNextToken hvis hs.2.2.2.2) hsep
    obtain ⟨s2, hpl, h2⟩ := ihl hl _ _
      (Delim_blank_append hsep (Delim_cons _ halnum hnum)) h1
    obtain ⟨hc2, hv2⟩ := (h2.blank hsep).sym hsym
    have hp2 : (getTokPrecedence s2).1 = p := by rw [h2.prec, hc2, hprec]
    have h3 : At strtod (getNextToken strtod (getTokPrecedence s2).2).2
        (render sep r ++ (sep ++ 41 :: rest)) := by
      refine At.blank (At.of_getNextToken ?_ h2.afterPrec.2.2.2.2) hsep
      rw [getTokPrecedence_vis, hv2]
    obtain ⟨s4, hpr, h4⟩ := ihr hr _ _ (Delim_close hsep rest) h3
    have hstop : ∀ s : State D, At strtod s (sep ++ 41 :: rest) → precOf s.CurTok < 0 :=
      At.stop_close hsep rest 0 le_rfl
    have hnext : ¬ (getTokPrecedence s2).1 < (getTokPrecedence s4).1 := by
      rw [hp2, h4.prec]
      have := hstop _ h4
      omega
    have hret : BinOpTo strtod 0
        (ExprAST.BinaryExprAST op (l.ast strtod) (r.ast strtod)) (getTokPrecedence s4).2
        (some (ExprAST.BinaryExprAST op (l.ast strtod) (r.ast strtod)))
        (getTokPrecedence (getTokPrecedence s4).2).2 :=
      BinOpTo.ret _ (by rw [h4.afterPrec.prec]; exact hstop _ h4.afterPrec)
    have hbin := BinOpTo.step hc2 (by rw [hp2]; omega) hpr hnext hret
    have he := ExprTo.of_primary hpl hbin
    obtain ⟨hc5, hv5⟩ := (h4.afterPrec.afterPrec.blank hsep).sym isSym_41
    exact ⟨_, PrimaryTo.paren hcur he hc5,
      At.of_getNextToken hv5 h4.afterPrec.afterPrec.2.2.2.2⟩

/-- C16. Round trip through fully parenthesised text: for every tree whose
operators are keys of the precedence table and whose leaves are identifier
or number tokens, `parseExpression` on the rendered text (with any
whitespace `sep` between the tokens, none included) succeeds, returns
exactly that tree and stops with `tok_eof` as the current token. -/
theorem parseLine_render (strtod : List Int → D) (zero : D) (sep : List Int) (t : Shape)
    (hsep : Blank sep) (ht : t.ok) :
    ∃ s1, parseLine strtod (initial zero) (render sep t) = some (some (t.ast strtod), s1) ∧
      s1.CurTok = tok_eof := by
  have h0 := At_start strtod zero (render sep t) (render_ne_EOF hsep t ht)
  have h0a : At strtod
      (getNextToken strtod { initial zero with InputBuffer := render sep t, InputPos := 0 }).2
      (render sep t ++ []) := by
    rw [List.append_nil]; exact h0
  obtain ⟨s1, hp, h1⟩ := render_primary strtod hsep t ht _ [] Delim_nil h0a
  have hb : Blank ([] : List Int) := fun c hc => absurd hc (List.not_mem_nil _)
  have hret : BinOpTo strtod 0 (t.ast strtod) s1 (some (t.ast strtod)) (getTokPrecedence s1).2 :=
    BinOpTo.ret _ (by rw [h1.prec]; exact At.stop_blank hb 0 le_rfl s1 h1)
  refine ⟨_, parseLine_of_ExprTo (ExprTo.of_primary hp hret), ?_⟩
  rw [getTokPrecedence_CurTok]
  exact (h1.eof hb).1

end RoundTrip

section Reference

variable {D : Type}

theorem splitLastMin_cons {α : Type} (key : α → Int) (x : α) (xs : List α) :
    splitLastMin key (x :: xs) =
      match splitLastMin key xs with
      | none => some ([], x, [])
      | some (a, y, b) => if key x < key y then some ([], x, xs) else some (x :: a, y, b) :=
  rfl

theorem refTree_succ (strtod : List Int → D) (n : Nat) (t : ExprAST D) (links : List Link) :
    refTree strtod (n + 1) t links =
      match splitLastMin (fun k => precOf k.op) links with
      | none => t
      | some (a, k, b) =>
        ExprAST.BinaryExprAST k.op (refTree strtod n t a)
          (refTree strtod n (k.operand.ast strtod) b) :=
  rfl

theorem splitLastMin_spec {α : Type} (key : α → Int) :
    ∀ (l a b : List α) (y : α), splitLastMin key l = some (a, y, b) →
      l = a ++ y :: b ∧ (∀ x ∈ a, key y ≤ key x) ∧ (∀ x ∈ b, key y < key x) := by
  intro l
  induction l with
  | nil => intro a b y h; simp [splitLastMin] at h
  | cons x xs ih =>
    intro a b y h
    simp only [splitLastMin] at h
    rcases hs : splitLastMin key xs with _ | ⟨a1, y1, b1⟩
    · rw [hs] at h
      simp only [Option.some.injEq, Prod.mk.injEq] at h
      obtain ⟨rfl, rfl, rfl⟩ := h
      cases xs with
      | nil => simp
      | cons x1 xs1 =>
        simp only [splitLastMin] at hs
        rcases hs1 : splitLastMin key xs1 with _ | ⟨a2, y2, b2⟩
        · rw [hs1] at hs; simp at hs
        · rw [hs1] at hs
          simp only at hs
          split_ifs at hs
    · rw [hs] at h
      simp only at h
      obtain ⟨e1, e2, e3⟩ := ih a1 b1 y1 hs
      split_ifs at h with hlt
      · simp only [Option.some.injEq, Prod.mk.injEq] at h
        obtain ⟨rfl, rfl, rfl⟩ := h
        refine ⟨rfl, by simp, ?_⟩
        intro z hz
        rw [e1] at hz
        rcases List.mem_append.1 hz with hz | hz
        · have := e2 z hz; omega
        · rcases List.mem_cons.1 hz with hz | hz
          · rw [hz]; exact hlt
          · have := e3 z hz; omega
      · simp only [Option.some.injEq, Prod.mk.injEq] at h
        obtain ⟨rfl, rfl, rfl⟩ := h
        refine ⟨by rw [e1]; rfl, ?_, e3⟩
        intro z hz
        rcases List.mem_cons.1 hz with hz | hz
        · rw [hz]; omega
        · exact e2 z hz

theorem splitLastMin_eq_none {α : Type} (key : α → Int) (l : List α)
    (h : splitLastMin key l = none) : l = [] := by
  cases l with
  | nil => rfl
  | cons x xs =>
    simp only [splitLastMin] at h
    rcases hs : splitLastMin key xs with _ | ⟨a1, y1, b1⟩
    · rw [hs] at h; simp at h
    · rw [hs] at h
      simp only at h
      split_ifs at h

/-- A head below everything behind it is the last minimum. -/
theorem splitLastMin_head {α : Type} (key : α → Int) (x : α) (xs : List α)
    (h : ∀ z ∈ xs, key x < key z) : splitLastMin key (x :: xs) = some ([], x, xs) := by
  simp only [splitLastMin]
  rcases hs : splitLastMin key xs with _ | ⟨a1, y1, b1⟩
  · rw [splitLastMin_eq_none key xs hs]
  · simp only
    obtain ⟨e1, _, _⟩ := splitLastMin_spec key xs a1 b1 y1 hs
    have hy : y1 ∈ xs := by rw [e1]; simp
    rw [if_pos (h y1 hy)]

/-- Elements in front that are not below the last minimum do not move it. -/
theorem splitLastMin_append {α : Type} (key : α → Int) (pre l a b : List α) (y : α)
    (hs : splitLastMin key l = some (a, y, b)) (h : ∀ z ∈ pre, key y ≤ key z) :
    splitLastMin key (pre ++ l) = some (pre ++ a, y, b) := by
  induction pre with
  | nil => simpa using hs
  | cons x pre ih =>
    have h1 := ih (fun z hz => h z (List.mem_cons_of_mem _ hz))
    have h2 := h x (List.mem_cons_self _ _)
    rw [List.cons_append, splitLastMin_cons, h1]
    simp only
    rw [if_neg (by omega)]
    rfl

theorem refTree_fuel (strtod : List Int → D) : ∀ (n : Nat) (t : ExprAST D) (links : List Link),
    links.length ≤ n → refTree strtod n t links = refTree strtod links.length t links := by
  intro n
  induction n using Nat.strong_induction_on with
  | _ n ih =>
    intro t links hn
    cases n with
    | zero =>
      have : links = [] := List.length_eq_zero.1 (by omega)
      subst this; rfl
    | succ m =>
      cases links with
      | nil => rfl
      | cons k ks =>
        rw [List.length_cons, refTree_succ, refTree_succ]
        rcases hs : splitLastMin (fun k => precOf k.op) (k :: ks) with _ | ⟨a, y, b⟩
        · rw [hs]
        · rw [hs]
          simp only
          obtain ⟨e1, _, _⟩ := splitLastMin_spec _ _ a b y hs
          have hl : (k :: ks).length = a.length + b.length + 1 := by
            rw [e1]; simp; omega
          simp only [List.length_cons] at hl hn
          rw [ih m (by omega) t a (by omega), ih m (by omega) _ b (by omega),
            ih ks.length (by omega) t a (by omega), ih ks.length (by omega) _ b (by omega)]

/-- The reference tree with enough fuel. -/
theorem refTree_nil (strtod : List Int → D) (n : Nat) (t : ExprAST D) :
    refTree strtod n t [] = t := by
  cases n <;> rfl

theorem refTree_split (strtod : List Int → D) (t : ExprAST D) (links a b : List Link)
    (y : Link) (hs : splitLastMin (fun k => precOf k.op) links = some (a, y, b)) :
    refTree strtod links.length t links =
      ExprAST.BinaryExprAST y.op (refTree strtod a.length t a)
        (refTree strtod b.length (y.operand.ast strtod) b) := by
  obtain ⟨e1, _, _⟩ := splitLastMin_spec _ _ a b y hs
  have hl : links.length = (a.length + b.length) + 1 := by
    rw [e1]; simp; omega
  rw [hl, refTree_succ, hs]
  simp only
  rw [refTree_fuel strtod _ t a (by omega), refTree_fuel strtod _ _ b (by omega)]

/-- The operator `k`, everything behind it that binds tighter (`hi`), then
the rest: the reference tree has `Binary(k, lhs, reference of hi)` as the
first operand of the rest. -/
theorem refTree_group (strtod : List Int → D) (k : Link) (hi : List Link)
    (hhi : ∀ x ∈ hi, precOf k.op < precOf x.op) :
    ∀ (n : Nat) (ra : List Link) (lhs : ExprAST D), ra.length ≤ n →
      (∀ x, ra.head? = some x → precOf x.op ≤ precOf k.op) →
      refTree strtod (k :: (hi ++ ra)).length lhs (k :: (hi ++ ra)) =
        refTree strtod ra.length
          (ExprAST.BinaryExprAST k.op lhs (refTree strtod hi.length (k.operand.ast strtod) hi))
          ra := by
  intro n
  induction n using Nat.strong_induction_on with
  | _ n ih =>
    intro ra lhs hn hhead
    rcases hs : splitLastMin (fun k => precOf k.op) ra with _ | ⟨a, y, b⟩
    · have hra := splitLastMin_eq_none _ _ hs
      subst hra
      rw [List.append_nil, refTree_split strtod lhs _ [] hi k (splitLastMin_head _ k hi hhi)]
      rw [refTree_nil, refTree_nil]
    · obtain ⟨e1, e2, e3⟩ := splitLastMin_spec _ _ a b y hs
      have hyk : precOf y.op ≤ precOf k.op := by
        cases a with
        | nil =>
          rw [e1] at hhead
          exact hhead y rfl
        | cons a0 a1 =>
          rw [e1] at hhead
          have h1 := hhead a0 rfl
          have h2 := e2 a0 (List.mem_cons_self _ _)
          omega
      have hpre : ∀ z ∈ k :: hi, precOf y.op ≤ precOf z.op := by
        intro z hz
        rcases List.mem_cons.1 hz with hz | hz
        · rw [hz]; exact hyk
        · have := hhi z hz; omega
      have hs2 := splitLastMin_append (fun k => precOf k.op) (k :: hi) ra a b y hs hpre
      have hlen : ra.length = a.length + b.length + 1 := by rw [e1]; simp; omega
      have hcons : k :: (hi ++ ra) = (k :: hi) ++ ra := rfl
      rw [hcons, refTree_split strtod lhs _ _ _ y hs2, refTree_split strtod _ ra a b y hs]
      congr 1
      have hheada : ∀ x, a.head? = some x → precOf x.op ≤ precOf k.op := by
        intro x hx
        cases a with
        | nil => simp at hx
        | cons a0 a1 =>
          rw [e1] at hhead
          exact hhead x hx
      exact ih a.length (by omega) a lhs le_rfl hheada

theorem inorder_refTree (strtod : List Int → D) : ∀ (n : Nat) (t : ExprAST D)
    (links : List Link), links.length ≤ n →
    inorder (refTree strtod links.length t links) = inorder t ++ linkItems strtod links := by
  intro n
  induction n using Nat.strong_induction_on with
  | _ n ih =>
    intro t links hn
    rcases hs : splitLastMin (fun k => precOf k.op) links with _ | ⟨a, y, b⟩
    · have := splitLastMin_eq_none _ _ hs
      subst this
      simp [refTree_nil, linkItems]
    · obtain ⟨e1, _, _⟩ := splitLastMin_spec _ _ a b y hs
      have hlen : links.length = a.length + b.length + 1 := by rw [e1]; simp; omega
      rw [refTree_split strtod t links a b y hs]
      simp only [inorder]
      rw [ih a.length (by omega) t a le_rfl, ih b.length (by omega) _ b le_rfl]
      have happ : ∀ (l1 l2 : List Link),
          linkItems strtod (l1 ++ l2) = linkItems strtod l1 ++ linkItems strtod l2 := by
        intro l1 l2
        induction l1 with
        | nil => rfl
        | cons c l1 ih1 => simp [linkItems, ih1]
      have hleaf : ∀ p : Leaf, inorder (p.ast strtod) = [Sum.inl (p.ast strtod)] := by
        intro p; cases p <;> rfl
      rw [e1, happ, hleaf]
      simp [linkItems]

end Reference

section ReferenceClaims

variable {D : Type}

theorem chainText_append (a b : List Link) (rest : List Int) :
    chainText (a ++ b) rest = chainText a (chainText b rest) := by
  induction a with
  | nil => rfl
  | cons k a ih =>
    show chainText (k :: (a ++ b)) rest = _
    simp only [chainText, ih]

theorem Delim_chain {links : List Link} {rest : List Int}
    (hl : ∀ k ∈ links, k.wf) (hr : Delim rest) : Delim (chainText links rest) := by
  cases links with
  | nil => exact hr
  | cons k ks =>
    obtain ⟨p, h1, _, h3, _⟩ := hl k (List.mem_cons_self _ _)
    obtain ⟨_, _, a, b, _, _⟩ := op_facts h3
    exact Delim_blank_append h1 (Delim_cons _ a b)

theorem chain_ne_EOF {links : List Link} {rest : List Int}
    (hl : ∀ k ∈ links, k.wf) (hr : ∀ x ∈ rest, x ≠ EOF) :
    ∀ x ∈ chainText links rest, x ≠ EOF := by
  induction links with
  | nil => exact hr
  | cons k ks ih =>
    obtain ⟨p, h1, h2, h3, h4⟩ := hl k (List.mem_cons_self _ _)
    have ih1 := ih (fun k1 hk1 => hl k1 (List.mem_cons_of_mem _ hk1))
    intro x hx
    simp only [chainText, List.mem_append, List.mem_cons] at hx
    rcases hx with hx | rfl | hx | hx | hx
    · exact h1.ne_EOF x hx
    · exact (op_facts h3).2.2.2.2.2
    · exact h2.ne_EOF x hx
    · exact Leaf.text_ne_EOF h4 x hx
    · exact ih1 x hx

/-- In front of a chain, the current token is the first operator; in front
of the text behind the chain, the precedence is below `e`. -/
theorem chain_head_prec {strtod : List Int → D} {e q : Int} {links : List Link}
    {rest : List Int} (hl : ∀ k ∈ links, k.wf)
    (hstop : ∀ s : State D, At strtod s rest → precOf s.CurTok < e) (he : e ≤ q + 1)
    (hhead : ∀ x, links.head? = some x → precOf x.op ≤ q) :
    ∀ s : State D, At strtod s (chainText links rest) → precOf s.CurTok < q + 1 := by
  intro s hs
  cases links with
  | nil => have := hstop s hs; omega
  | cons k ks =>
    obtain ⟨p, g1, _, g3, _⟩ := hl k (List.mem_cons_self _ _)
    obtain ⟨_, gsym, _⟩ := op_facts g3
    obtain ⟨gcur, _⟩ := (hs.blank g1).sym gsym
    have := hhead k rfl
    rw [gcur]; omega

/-- The loop of `ParseBinOpRHS` over a chain of operators of precedence at
least `ExprPrec`: it returns the reference tree of the chain, with `LHS` as
the first operand, at the first token whose precedence is below `ExprPrec`. -/
theorem chain_ref (strtod : List Int → D) : ∀ (n : Nat) (links : List Link) (e : Int)
    (lhs : ExprAST D) (s : State D) (rest : List Int), links.length ≤ n → Delim rest →
    (∀ s : State D, At strtod s rest → precOf s.CurTok < e) →
    (∀ k ∈ links, k.wf ∧ e ≤ precOf k.op) → At strtod s (chainText links rest) →
    ∃ s1, BinOpTo strtod e lhs s (some (refTree strtod links.length lhs links)) s1 ∧
      At strtod s1 rest := by
  intro n
  induction n using Nat.strong_induction_on with
  | _ n ih =>
    intro links e lhs s rest hn hdel hstop hl hs
    cases links with
    | nil =>
      refine ⟨_, BinOpTo.ret lhs ?_, hs.afterPrec⟩
      rw [hs.prec]; exact hstop s hs
    | cons k ks =>
      obtain ⟨⟨p, hk⟩, hek⟩ := hl k (List.mem_cons_self _ _)
      have hks : ∀ k1 ∈ ks, k1.wf ∧ e ≤ precOf k1.op :=
        fun k1 hk1 => hl k1 (List.mem_cons_of_mem _ hk1)
      have hwf : ∀ k1 ∈ ks, k1.wf := fun k1 hk1 => (hks k1 hk1).1
      have hprec : precOf k.op = p := (op_facts hk.2.2.1).1
      have hs0 : At strtod s (chainText [k] (chainText ks rest)) := hs
      obtain ⟨hcur, hp0, hprim, hs2⟩ := hs0.link hk (Delim_chain hwf hdel)
      simp only [List.length_cons] at hn
      have hpe : ¬ p < e := by omega
      by_cases hnext : p < (getTokPrecedence (getNextToken strtod (getNextToken strtod
          (getTokPrecedence s).2).2).2).1
      · have hsplit : ks = ks.takeWhile (fun x => decide (p < precOf x.op)) ++
            ks.dropWhile (fun x => decide (p < precOf x.op)) :=
          (List.takeWhile_append_dropWhile _ ks).symm
        generalize hhi : ks.takeWhile (fun x => decide (p < precOf x.op)) = hi at hsplit
        generalize hrb : ks.dropWhile (fun x => decide (p < precOf x.op)) = rb at hsplit
        have hhi1 : ∀ x ∈ hi, p < precOf x.op := by
          intro x hx
          rw [← hhi] at hx
          simpa using List.mem_takeWhile_imp hx
        have hrb1 : ∀ x, rb.head? = some x → precOf x.op ≤ p := by
          intro x hx
          have := List.head?_dropWhile_not (fun x : Link => decide (p < precOf x.op)) ks
          rw [hrb, hx] at this
          simp only [decide_eq_true_eq, Bool.not_eq_true'] at this
          simpa using this
        have hlen : ks.length = hi.length + rb.length := by
          rw [hsplit]; simp
        have hwfhi : ∀ k1 ∈ hi, k1.wf ∧ p + 1 ≤ precOf k1.op := by
          intro k1 hk1
          have := hhi1 k1 hk1
          exact ⟨hwf k1 (by rw [hsplit]; exact List.mem_append_left _ hk1), by omega⟩
        have hwfrb : ∀ k1 ∈ rb, k1.wf ∧ e ≤ precOf k1.op :=
          fun k1 hk1 => hks k1 (by rw [hsplit]; exact List.mem_append_right _ hk1)
        have hs2a : At strtod (getTokPrecedence (getNextToken strtod (getNextToken strtod
            (getTokPrecedence s).2).2).2).2 (chainText hi (chainText rb rest)) := by
          rw [← chainText_append, ← hsplit]; exact hs2.afterPrec
        obtain ⟨s3, h3, hs3⟩ := ih hi.length (by omega) hi (p + 1) (k.operand.ast strtod) _
          (chainText rb rest) le_rfl (Delim_chain (fun k1 hk1 => (hwfrb k1 hk1).1) hdel)
          (chain_head_prec (fun k1 hk1 => (hwfrb k1 hk1).1) hstop (by omega) hrb1)
          hwfhi hs2a
        obtain ⟨s4, h4, hs4⟩ := ih rb.length (by omega) rb e
          (ExprAST.BinaryExprAST k.op lhs
            (refTree strtod hi.length (k.operand.ast strtod) hi)) s3 rest le_rfl hdel hstop
          hwfrb hs3
        refine ⟨s4, ?_, hs4⟩
        have hg := refTree_group strtod k hi (by rw [hprec]; exact hhi1) rb.length rb lhs le_rfl
          (by rw [hprec]; exact hrb1)
        rw [hsplit, hg]
        exact BinOpTo.nest hcur hp0 hpe hprim hnext h3 h4
      · have hhead : ∀ x, ks.head? = some x → precOf x.op ≤ precOf k.op := by
          intro x hx
          cases ks with
          | nil => simp at hx
          | cons k1 ks1 =>
            simp only [List.head?_cons, Option.some.injEq] at hx
            subst hx
            obtain ⟨p1, g1, _, g3, _⟩ := hwf k1 (List.mem_cons_self _ _)
            obtain ⟨_, gsym, _⟩ := op_facts g3
            obtain ⟨gcur, _⟩ := (hs2.blank g1).sym gsym
            rw [hs2.prec, gcur] at hnext
            omega
        obtain ⟨s4, h4, hs4⟩ := ih ks.length (by omega) ks e
          (ExprAST.BinaryExprAST k.op lhs (k.operand.ast strtod)) _ rest le_rfl hdel hstop
          hks hs2.afterPrec
        refine ⟨s4, ?_, hs4⟩
        have hg := refTree_group strtod k [] (fun x hx => absurd hx (List.not_mem_nil _))
          ks.length ks lhs le_rfl hhead
        simp only [List.nil_append, refTree_nil, List.length_nil] at hg
        rw [hg]
        exact BinOpTo.step hcur (by rw [hp0]; exact hpe) hprim (by rw [hp0]; exact hnext) h4

end ReferenceClaims

section ReferenceTheorem

variable {D : Type}

/-- C15. Parenthesis-free chains parse to the reference precedence tree: for
leaves `p0 .. pn` and operators `o1 .. on` of the table, written with any
whitespace around them, `parseExpression` on `p0 o1 p1 ... on pn` succeeds
and returns `ref`, which is the leaf for a single operand and otherwise cuts
the chain at the last operator `ok` of minimal precedence into
`Binary(ok, ref(p0 .. p(k-1)), ref(pk .. pn))`; the in-order traversal of
the result is the input sequence. -/
theorem parseLine_reference (strtod : List Int → D) (zero : D) (w0 : List Int) (p0 : Leaf)
    (links : List Link) (trail : List Int) (hw0 : Blank w0) (hp0 : p0.valid = true)
    (hlinks : ∀ k ∈ links, k.wf) (htrail : Blank trail) :
    (∃ s1, parseLine strtod (initial zero) (w0 ++ (p0.text ++ chainText links trail)) =
      some (some (ref strtod p0 links), s1)) ∧
    ref strtod p0 [] = p0.ast strtod ∧
    (∀ a k b, splitLastMin (fun k => precOf k.op) links = some (a, k, b) →
      links = a ++ k :: b ∧ (∀ x ∈ a, precOf k.op ≤ precOf x.op) ∧
      (∀ x ∈ b, precOf k.op < precOf x.op) ∧
      ref strtod p0 links =
        ExprAST.BinaryExprAST k.op (ref strtod p0 a) (ref strtod k.operand b)) ∧
    (links ≠ [] → ∃ a k b, splitLastMin (fun k => precOf k.op) links = some (a, k, b)) ∧
    inorder (ref strtod p0 links) = Sum.inl (p0.ast strtod) :: linkItems strtod links := by
  refine ⟨?_, rfl, ?_, ?_, ?_⟩
  · have hne : ∀ x ∈ w0 ++ (p0.text ++ chainText links trail), x ≠ EOF := by
      intro x hx
      simp only [List.mem_append] at hx
      rcases hx with hx | hx | hx
      · exact hw0.ne_EOF x hx
      · exact Leaf.text_ne_EOF hp0 x hx
      · exact chain_ne_EOF hlinks htrail.ne_EOF x hx
    have h0 := (At_start strtod zero _ hne).blank hw0
    obtain ⟨hprim, h1⟩ := h0.leaf hp0 (Delim_chain hlinks (Delim_blank htrail))
    have hstop : ∀ s : State D, At strtod s trail → precOf s.CurTok < 0 :=
      At.stop_blank htrail 0 le_rfl
    have hl0 : ∀ k ∈ links, k.wf ∧ (0 : Int) ≤ precOf k.op := by
      intro k hk
      obtain ⟨p, hp⟩ := hlinks k hk
      obtain ⟨g1, _, _, _, g5, _⟩ := op_facts hp.2.2.1
      exact ⟨⟨p, hp⟩, by omega⟩
    obtain ⟨s1, hb, _⟩ := chain_ref strtod links.length links 0 (p0.ast strtod) _ trail le_rfl
      (Delim_blank htrail) hstop hl0 h1
    exact ⟨s1, parseLine_of_ExprTo (ExprTo.of_primary hprim hb)⟩
  · intro a k b hs
    obtain ⟨e1, e2, e3⟩ := splitLastMin_spec _ _ a b k hs
    exact ⟨e1, e2, e3, refTree_split strtod _ links a b k hs⟩
  · intro hne
    rcases hs : splitLastMin (fun k => precOf k.op) links with _ | ⟨a, k, b⟩
    · exact absurd (splitLastMin_eq_none _ _ hs) hne
    · exact ⟨a, k, b, hs⟩
  · have hleaf : inorder (p0.ast strtod) = [Sum.inl (p0.ast strtod)] := by
      cases p0 <;> rfl
    unfold ref
    rw [inorder_refTree strtod links.length _ links le_rfl, hleaf]
    rfl

end ReferenceTheorem

section TrailingOperator

variable {D : Type}

theorem dropWhile_isspace_append_sym (a : List Int) {x : Int} (R : List Int)
    (hx : isspace x = false) :
    (a ++ 32 :: x :: R).dropWhile isspace =
      if a.dropWhile isspace = [] then x :: R
      else a.dropWhile isspace ++ 32 :: x :: R := by
  induction a with
  | nil =>
    have h32 : isspace 32 = true := by decide
    simp [List.dropWhile_cons, h32, hx]
  | cons c a ih =>
    by_cases hc : isspace c = true
    · simp only [List.cons_append, List.dropWhile_cons, hc, if_true, ih]
    · simp [List.dropWhile_cons, hc]

theorem vis_ne_EOF (s : State D) : ∀ x ∈ vis s, x ≠ EOF := by
  intro x hx
  have h1 : x ∈ vtext s := (List.dropWhile_sublist _).subset hx
  have h2 := List.mem_takeWhile_imp h1
  simpa using h2

theorem lexVis_tok_ne_eof (strtod : List Int → D) {c : Int} (v : List Int) (hc : c ≠ EOF) :
    (lexVis strtod (c :: v)).tok ≠ tok_eof := by
  simp only [lexVis]
  split_ifs
  · show tok_identifier ≠ tok_eof; decide
  · show tok_number ≠ tok_eof; decide
  · exact hc

theorem ExtOp.opNext {strtod : List Int → D} {o p : Int} {c : List String} {s1 s2 : State D}
    (ho : (o, p) ∈ BinopPrecedence)
    (t1 : TableOK s1.BinopPrecedence) (t2 : TableOK s2.BinopPrecedence) (hc : s2.cerr = c)
    (hi : s1.IdentifierStr = s2.IdentifierStr) (hn : s1.NumVal = s2.NumVal)
    (hv : vtext s2 = vtext s1 ++ [32, o]) :
    ExtOp o c (getNextToken strtod s1).2 (getNextToken strtod s2).2 := by
  obtain ⟨_, hsym, _, hnum, _, _⟩ := op_facts ho
  obtain ⟨hsp, halpha, _⟩ := isSym_iff.1 hsym
  refine ⟨by rw [getNextToken_BinopPrecedence]; exact t1,
    by rw [getNextToken_BinopPrecedence]; exact t2, by rw [getNextToken_cerr]; exact hc, ?_⟩
  have hv2 : vis s2 = if vis s1 = [] then [o] else vis s1 ++ [32, o] := by
    unfold vis
    rw [hv, dropWhile_isspace_append_sym _ [] hsp]
  rcases hv1 : vis s1 with _ | ⟨a, v⟩
  · right
    rw [hv1] at hv2
    simp only [if_true] at hv2
    refine ⟨?_, ?_, ?_⟩
    · rw [getNextToken_CurTok, hv1]; rfl
    · rw [getNextToken_CurTok, hv2, lexVis_sym strtod [] halpha hnum]
    · rw [getNextToken_vis, hv2, lexVis_sym strtod [] halpha hnum]; rfl
  · left
    rw [hv1] at hv2
    simp only [reduceCtorEq, if_false] at hv2
    have hl := lexVis_append_space strtod a v [o]
    have ha : a ≠ EOF := vis_ne_EOF s1 a (by rw [hv1]; exact List.mem_cons_self _ _)
    refine ⟨?_, ?_, ?_, ?_, ?_⟩
    · rw [getNextToken_CurTok, hv1]; exact lexVis_tok_ne_eof strtod v ha
    · rw [getNextToken_CurTok, getNextToken_CurTok, hv1, hv2, hl]
    · rw [getNextToken_IdentifierStr, getNextToken_IdentifierStr, hv1, hv2, hl, hi]
    · rw [getNextToken_NumVal, getNextToken_NumVal, hv1, hv2, hl, hn]
    · rw [getNextToken_vtext, getNextToken_vtext, hv1, hv2, hl]

theorem ExtOp.opAfterPrec {o : Int} {c : List String} {s1 s2 : State D}
    (h : ExtOp o c s1 s2) : ExtOp o c (getTokPrecedence s1).2 (getTokPrecedence s2).2 := by
  obtain ⟨t1, t2, hc, h3⟩ := h
  refine ⟨getTokPrecedence_TableOK s1 t1, getTokPrecedence_TableOK s2 t2,
    by rw [getTokPrecedence_cerr]; exact hc, ?_⟩
  obtain ⟨m1, e1, _⟩ := getTokPrecedence_snd s1
  obtain ⟨m2, e2, _⟩ := getTokPrecedence_snd s2
  rw [e1, e2]
  exact h3

theorem ExtOp.opTok (strtod : List Int → D) {o p : Int} {c : List String} {s1 s2 : State D}
    (ho : (o, p) ∈ BinopPrecedence) (h : ExtOp o c s1 s2) (hne : s1.CurTok ≠ tok_eof) :
    s1.CurTok = s2.CurTok ∧ s1.IdentifierStr = s2.IdentifierStr ∧ s1.NumVal = s2.NumVal ∧
      (getTokPrecedence s1).1 = (getTokPrecedence s2).1 ∧
      ExtOp o c (getNextToken strtod s1).2 (getNextToken strtod s2).2 := by
  obtain ⟨t1, t2, hc, h3⟩ := h
  rcases h3 with ⟨_, hcur, hi, hn, hv⟩ | ⟨hc1, _⟩
  · refine ⟨hcur, hi, hn, ?_, ExtOp.opNext ho t1 t2 hc hi hn hv⟩
    rw [getTokPrecedence_fst s1 t1, getTokPrecedence_fst s2 t2, hcur]
  · exact absurd hc1 hne

/-- The loop of `ParseBinOpRHS` with the trailing operator as the current
token and nothing behind it: it returns at once when the operator binds
less than `ExprPrec`, and otherwise consumes the operator and fails for
want of an operand. -/
theorem trailing_operator (strtod : List Int → D) {o p : Int} {c : List String} {s2 : State D}
    (ho : (o, p) ∈ BinopPrecedence) (t2 : TableOK s2.BinopPrecedence) (hc : s2.cerr = c)
    (hcur : s2.CurTok = o) (hv : vis s2 = []) (e : Int) (l : ExprAST D) :
    (getTokPrecedence s2).1 = p ∧
    (p < e → BinOpTo strtod e l s2 (some l) (getTokPrecedence s2).2) ∧
    (¬ p < e → ∃ u2, BinOpTo strtod e l s2 none u2 ∧
      u2.cerr = c ++ ["Error: Unknown token when expecting an expression"]) := by
  have hp : (getTokPrecedence s2).1 = p := by
    rw [getTokPrecedence_fst s2 t2, hcur]; exact (op_facts ho).1
  refine ⟨hp, fun h => BinOpTo.ret l (by rw [hp]; exact h), fun h => ?_⟩
  have h1 : (getNextToken strtod (getTokPrecedence s2).2).2.CurTok = tok_eof := by
    rw [getNextToken_CurTok, getTokPrecedence_vis, hv]; rfl
  have h2 : PrimaryTo strtod (getNextToken strtod (getTokPrecedence s2).2).2 none
      (LogError "Unknown token when expecting an expression"
        (getNextToken strtod (getTokPrecedence s2).2).2).2 :=
    PrimaryTo.unknown strtod _ (by rw [h1]; decide) (by rw [h1]; decide) (by rw [h1]; decide)
  refine ⟨_, BinOpTo.fail_primary l (by rw [hp]; exact h) h2, ?_⟩
  show (getNextToken strtod _).2.cerr ++ _ = _
  rw [getNextToken_cerr, getTokPrecedence_cerr, hc]
  rfl

end TrailingOperator

section TrailingOperatorClaims

variable {D : Type}

/-- A run that returns a tree, against the run on the same line with a space
and an operator `o` of the table behind it: the second run returns the same
tree in a related state, or fails with the unknown-token error; it fails
when the first run has returned to the top level at the end of its line. -/
theorem parser_op (strtod : List Int → D) (o p : Int) (c : List String)
    (ho : (o, p) ∈ BinopPrecedence) : ∀ fuel : Nat,
    (∀ s1 s2 t u1, ExtOp o c s1 s2 → ParsePrimary strtod fuel s1 = some (some t, u1) →
      ∃ r2 u2, PrimaryTo strtod s2 r2 u2 ∧ OpOut o c t u1 r2 u2) ∧
    (∀ s1 s2 t u1, ExtOp o c s1 s2 → s1.CurTok = 40 →
      ParseParenExpr strtod fuel s1 = some (some t, u1) →
      ∃ r2 u2, PrimaryTo strtod s2 r2 u2 ∧ OpOut o c t u1 r2 u2) ∧
    (∀ e l s1 s2 t u1, 0 ≤ e → ExtOp o c s1 s2 →
      ParseBinOpRHS strtod fuel e l s1 = some (some t, u1) →
      ∃ r2 u2, BinOpTo strtod e l s2 r2 u2 ∧ OpOut o c t u1 r2 u2 ∧
        (r2 = some t → u1.CurTok = tok_eof → p < e)) ∧
    (∀ s1 s2 t u1, ExtOp o c s1 s2 → parseExpression strtod fuel s1 = some (some t, u1) →
      ∃ r2 u2, ExprTo strtod s2 r2 u2 ∧ OpOut o c t u1 r2 u2 ∧
        (r2 = some t → u1.CurTok ≠ tok_eof)) := by
  have hpos : 0 < p := (op_facts ho).2.2.2.2.1
  intro fuel
  induction fuel with
  | zero =>
    refine ⟨?_, ?_, ?_, ?_⟩
    · intro s1 s2 t u1 _ h; simp [ParsePrimary] at h
    · intro s1 s2 t u1 _ _ h; simp [ParseParenExpr] at h
    · intro e l s1 s2 t u1 _ _ h; simp [ParseBinOpRHS] at h
    · intro s1 s2 t u1 _ h; simp [parseExpression] at h
  | succ n ih =>
    obtain ⟨ihP, ihPar, ihB, ihE⟩ := ih
    refine ⟨?_, ?_, ?_, ?_⟩
    · intro s1 s2 t u1 hs h
      rw [ParsePrimary_succ] at h
      by_cases c1 : s1.CurTok = tok_identifier
      · obtain ⟨hc, hi, _, _, hx⟩ := hs.opTok strtod ho (by rw [c1]; decide)
        rw [if_pos c1] at h
        simp only [ParseIdentifierExpr, Option.some.injEq, Prod.mk.injEq] at h
        obtain ⟨rfl, rfl⟩ := h
        refine ⟨_, _, PrimaryTo.identifier strtod s2 (hc ▸ c1), Or.inl ⟨?_, hx⟩⟩
        rw [hi]
      · rw [if_neg c1] at h
        by_cases c2 : s1.CurTok = tok_number
        · obtain ⟨hc, _, hn, _, hx⟩ := hs.opTok strtod ho (by rw [c2]; decide)
          rw [if_pos c2] at h
          simp only [ParseNumberExpr, Option.some.injEq, Prod.mk.injEq] at h
          obtain ⟨rfl, rfl⟩ := h
          refine ⟨_, _, PrimaryTo.number strtod s2 (hc ▸ c2), Or.inl ⟨?_, hx⟩⟩
          rw [hn]
        · rw [if_neg c2] at h
          by_cases c3 : s1.CurTok = 40
          · rw [if_pos c3] at h
            exact ihPar _ _ _ _ hs c3 h
          · rw [if_neg c3] at h
            simp [LogError] at h
    · intro s1 s2 t u1 hs c3 h
      obtain ⟨hc, _, _, _, hx⟩ := hs.opTok strtod ho (by rw [c3]; decide)
      have c3b : s2.CurTok = 40 := hc ▸ c3
      rw [ParseParenExpr_succ] at h
      rcases hE : parseExpression strtod n (getNextToken strtod s1).2 with _ | ⟨_ | V, v1⟩
      · rw [hE] at h; simp at h
      · rw [hE] at h; simp at h
      · obtain ⟨r2, v2, hE2, hout, hne⟩ := ihE _ _ _ _ hx hE
        rw [hE] at h
        simp only at h
        by_cases c4 : v1.CurTok = 41
        · have c5 : ¬ v1.CurTok ≠ 41 := fun hh => hh c4
          rw [if_neg c5] at h
          simp only [Option.some.injEq, Prod.mk.injEq] at h
          obtain ⟨rfl, rfl⟩ := h
          rcases hout with ⟨rfl, hv⟩ | ⟨rfl, hcerr⟩
          · obtain ⟨hc2, _, _, _, hy⟩ := hv.opTok strtod ho (by rw [c4]; decide)
            exact ⟨_, _, PrimaryTo.paren c3b hE2 (hc2 ▸ c4), Or.inl ⟨rfl, hy⟩⟩
          · exact ⟨_, _, PrimaryTo.paren_fail c3b hE2, Or.inr ⟨rfl, hcerr⟩⟩
        · have c5 : v1.CurTok ≠ 41 := c4
          rw [if_pos c5] at h
          simp [LogError] at h
    · intro e l s1 s2 t u1 he hs h
      rw [ParseBinOpRHS_succ] at h
      by_cases hph : s1.CurTok = tok_eof
      · obtain ⟨t1, t2, hc, h3⟩ := hs
        have h3c : s2.CurTok = o ∧ vis s2 = [] := by
          rcases h3 with ⟨hne, _⟩ | ⟨_, h4, h5⟩
          · exact absurd hph hne
          · exact ⟨h4, h5⟩
        have hp1 : (getTokPrecedence s1).1 < e := by
          rw [getTokPrecedence_fst s1 t1, hph, precOf_eof]; omega
        rw [if_pos hp1] at h
        simp only [Option.some.injEq, Prod.mk.injEq] at h
        obtain ⟨rfl, rfl⟩ := h
        obtain ⟨_, hret, hfail⟩ := trailing_operator strtod ho t2 hc h3c.1 h3c.2 e l
        by_cases hpe : p < e
        · refine ⟨_, _, hret hpe, Or.inl ⟨rfl, ?_⟩, fun _ _ => hpe⟩
          exact ExtOp.opAfterPrec ⟨t1, t2, hc, h3⟩
        · obtain ⟨u2, hb, hcerr⟩ := hfail hpe
          exact ⟨_, _, hb, Or.inr ⟨rfl, hcerr⟩, fun hh => by simp at hh⟩
      · obtain ⟨hcur, _, _, hpeq, _⟩ := hs.opTok strtod ho hph
        rw [getTokPrecedence_CurTok, hcur, hpeq] at h
        by_cases h1 : (getTokPrecedence s2).1 < e
        · rw [if_pos h1] at h
          simp only [Option.some.injEq, Prod.mk.injEq] at h
          obtain ⟨rfl, rfl⟩ := h
          refine ⟨_, _, BinOpTo.ret l h1, Or.inl ⟨rfl, hs.opAfterPrec⟩, fun _ hu => ?_⟩
          rw [getTokPrecedence_CurTok] at hu
          exact absurd hu hph
        · rw [if_neg h1] at h
          have hne : (getTokPrecedence s1).2.CurTok ≠ tok_eof := by
            rw [getTokPrecedence_CurTok]; exact hph
          obtain ⟨_, _, _, _, hx⟩ := hs.opAfterPrec.opTok strtod ho hne
          rcases hP : ParsePrimary strtod n (getNextToken strtod (getTokPrecedence s1).2).2
            with _ | ⟨_ | RHS, v1⟩
          · rw [hP] at h; simp at h
          · rw [hP] at h; simp at h
          · obtain ⟨r2, v2, hP2, hout⟩ := ihP _ _ _ _ hx hP
            rw [hP] at h
            simp only at h
            rcases hout with ⟨rfl, hv⟩ | ⟨rfl, hcerr⟩
            swap
            · exact ⟨_, _, BinOpTo.fail_primary l h1 hP2, Or.inr ⟨rfl, hcerr⟩,
                fun hh => by simp at hh⟩
            by_cases h2 : (getTokPrecedence s2).1 < (getTokPrecedence v1).1
            · rw [if_pos h2] at h
              have hv1 : v1.CurTok ≠ tok_eof := getTokPrecedence_nonneg v1 (by omega)
              obtain ⟨_, _, _, hpv, _⟩ := hv.opTok strtod ho hv1
              rcases hB : ParseBinOpRHS strtod n ((getTokPrecedence s2).1 + 1) RHS
                (getTokPrecedence v1).2 with _ | ⟨_ | RHS1, v3⟩
              · rw [hB] at h; simp at h
              · rw [hB] at h; simp at h
              · obtain ⟨r3, v4, hB2, hout3, _⟩ := ihB _ _ _ _ _ _ (by omega) hv.opAfterPrec hB
                rw [hB] at h
                simp only at h
                rcases hout3 with ⟨rfl, hv4⟩ | ⟨rfl, hcerr⟩
                · obtain ⟨r5, u2, hB5, hout5, hx5⟩ := ihB _ _ _ _ _ _ he hv4 h
                  exact ⟨r5, u2, BinOpTo.nest rfl rfl h1 hP2 (hpv ▸ h2) hB2 hB5, hout5, hx5⟩
                · exact ⟨_, _, BinOpTo.fail_nested h1 hP2 (hpv ▸ h2) hB2,
                    Or.inr ⟨rfl, hcerr⟩, fun hh => by simp at hh⟩
            · rw [if_neg h2] at h
              by_cases h2b : (getTokPrecedence s2).1 < (getTokPrecedence v2).1
              · obtain ⟨tv1, tv2, hcv, hphv⟩ := hv
                rcases hphv with ⟨hne1, hcur1, _⟩ | ⟨_, hc2, hvis2⟩
                · exfalso
                  rw [getTokPrecedence_fst v1 tv1, hcur1, ← getTokPrecedence_fst v2 tv2] at h2
                  exact h2 h2b
                · obtain ⟨hp2, _, hfail⟩ := trailing_operator strtod ho
                    (getTokPrecedence_TableOK v2 tv2)
                    (show (getTokPrecedence v2).2.cerr = c by
                      rw [getTokPrecedence_cerr]; exact hcv)
                    (by rw [getTokPrecedence_CurTok]; exact hc2)
                    (by rw [getTokPrecedence_vis]; exact hvis2)
                    ((getTokPrecedence s2).1 + 1) RHS
                  have hp3 : (getTokPrecedence v2).1 = p := by
                    rw [getTokPrecedence_fst v2 tv2, hc2]; exact (op_facts ho).1
                  obtain ⟨u2, hb, hcerr⟩ := hfail (by omega)
                  exact ⟨_, _, BinOpTo.fail_nested h1 hP2 h2b hb, Or.inr ⟨rfl, hcerr⟩,
                    fun hh => by simp at hh⟩
              · obtain ⟨r5, u2, hB5, hout5, hx5⟩ := ihB _ _ _ _ _ _ he hv.opAfterPrec h
                exact ⟨r5, u2, BinOpTo.step rfl h1 hP2 h2b hB5, hout5, hx5⟩
    · intro s1 s2 t u1 hs h
      rw [parseExpression_succ] at h
      rcases hP : ParsePrimary strtod n s1 with _ | ⟨_ | LHS, v1⟩
      · rw [hP] at h; simp at h
      · rw [hP] at h; simp at h
      · obtain ⟨r2, v2, hP2, hout⟩ := ihP _ _ _ _ hs hP
        rw [hP] at h
        simp only at h
        rcases hout with ⟨rfl, hv⟩ | ⟨rfl, hcerr⟩
        · obtain ⟨r5, u2, hB5, hout5, hx5⟩ := ihB _ _ _ _ _ _ le_rfl hv h
          refine ⟨r5, u2, ExprTo.of_primary hP2 hB5, hout5, fun hr hu => ?_⟩
          have := hx5 hr hu
          omega
        · exact ⟨_, _, ExprTo.of_primary_fail hP2, Or.inr ⟨rfl, hcerr⟩,
            fun hh => by simp at hh⟩

end TrailingOperatorClaims

section TrailingOperatorTheorems

variable {D : Type}

/-- C11, counterexample. The line `1 + 2` parses to `Binary('+', 1, 2)` and
stops at the end of the input; `+` is an operator of the table; the line
`1 + 2 +` does not parse to that tree: it fails, with the unknown-token
error. -/
theorem parseLine_trailing_operator_fails :
    (parseLine (fun t : List Int => t) (initial []) [49, 32, 43, 32, 50]).map Prod.fst
      = some (some (ExprAST.BinaryExprAST 43 (ExprAST.NumberExprAST [49])
          (ExprAST.NumberExprAST [50]))) ∧
    (parseLine (fun t : List Int => t) (initial []) [49, 32, 43, 32, 50]).map
      (fun r => r.2.CurTok) = some tok_eof ∧
    (43, 20) ∈ BinopPrecedence ∧
    (parseLine (fun t : List Int => t) (initial [])
      ([49, 32, 43, 32, 50] ++ [32] ++ [43])).map Prod.fst = some none ∧
    (parseLine (fun t : List Int => t) (initial [])
      ([49, 32, 43, 32, 50] ++ [32] ++ [43])).map (fun r => r.2.cerr)
      = some ["Error: Unknown token when expecting an expression"] := by
  decide

/-- C11, amended. A trailing operator is not ignored by the core parse: for
every line `s` without a character of value `EOF` on which `parseExpression`
succeeds and stops at the end of the input, and every operator `o` of the
precedence table, `parseExpression` on `s`, a space and `o` fails: it returns
no tree and logs the unknown-token error of `ParsePrimary`. -/
theorem parseLine_trailing_operator (strtod : List Int → D) (zero : D) (s : List Int)
    (o p : Int) (t : ExprAST D) (u : State D) (hs : ∀ x ∈ s, x ≠ EOF)
    (ho : (o, p) ∈ BinopPrecedence)
    (h : parseLine strtod (initial zero) s = some (some t, u)) (heof : u.CurTok = tok_eof) :
    ∃ u1, parseLine strtod (initial zero) (s ++ [32] ++ [o]) = some (none, u1) ∧
      u1.cerr = ["Error: Unknown token when expecting an expression"] := by
  rw [parseLine_eq] at h
  have e32 : (32 : Int) ≠ EOF := by decide
  have hoe : o ≠ EOF := (op_facts ho).2.2.2.2.2
  have hline : s ++ [32] ++ [o] = s ++ [32, o] := by simp
  rw [hline]
  have hne2 : ∀ x ∈ s ++ [32, o], x ≠ EOF := by
    intro x hx
    simp only [List.mem_append, List.mem_cons, List.mem_singleton, List.not_mem_nil,
      or_false] at hx
    rcases hx with hx | rfl | rfl
    · exact hs x hx
    · exact e32
    · exact hoe
  have h1 : ∀ l : List Int,
      vtext ({ initial zero with InputBuffer := l, InputPos := 0 } : State D)
        = 32 :: visible l := by
    intro l
    simp only [vtext, rem, initial, List.drop_zero]
    exact visible_cons_ne _ _ e32
  have hv : vtext ({ initial zero with InputBuffer := s ++ [32, o], InputPos := 0 } : State D)
      = vtext ({ initial zero with InputBuffer := s, InputPos := 0 } : State D) ++ [32, o] := by
    rw [h1, h1, visible_of_ne hne2, visible_of_ne hs]; rfl
  have hext : ExtOp o []
      (getNextToken strtod { initial zero with InputBuffer := s, InputPos := 0 }).2
      (getNextToken strtod { initial zero with InputBuffer := s ++ [32, o], InputPos := 0 }).2 :=
    ExtOp.opNext ho TableOK_initial TableOK_initial rfl rfl rfl hv
  obtain ⟨r2, u2, hE2, hout, hne⟩ := (parser_op strtod o p [] ho _).2.2.2 _ _ _ _ hext h
  rcases hout with ⟨rfl, _⟩ | ⟨rfl, hcerr⟩
  · exact absurd heof (hne rfl)
  · exact ⟨u2, parseLine_of_ExprTo hE2, by simpa using hcerr⟩

end TrailingOperatorTheorems

section SymbolTokens

variable {D : Type}

/-- A call of `gettok` returns `tok_eof` exactly when no visible text is
left, that is when only whitespace stands in front of the end of the buffer
or of a character of value `EOF`. -/
theorem gettok_eof_iff (strtod : List Int → D) (s : State D) :
    (gettok strtod s).1 = tok_eof ↔ vis s = [] := by
  rw [gettok_fst]
  constructor
  · intro h
    rcases hv : vis s with _ | ⟨c, v⟩
    · rfl
    · rw [hv] at h
      have hc : c ≠ EOF := vis_ne_EOF s c (by rw [hv]; exact List.mem_cons_self _ _)
      exact absurd h (lexVis_tok_ne_eof strtod v hc)
  · intro h; rw [h]; rfl

/-- Without a character of value `EOF` ahead, no visible text is left exactly
when the lookahead and the rest of the buffer are whitespace. -/
theorem vis_eq_nil_iff (s : State D) (h : ∀ x ∈ s.LastChar :: rem s, x ≠ EOF) :
    vis s = [] ↔ Blank (s.LastChar :: rem s) := by
  unfold vis vtext
  rw [visible_of_ne h, List.dropWhile_eq_nil_iff]
  rfl

/-- A first visible character that is neither a letter, nor a digit, nor `.`
is returned as the token, and the lexer advances by that character; the
token differs from `tok_eof`, and from `tok_number` and `tok_identifier` when
the character is not negative. -/
theorem gettok_symbol (strtod : List Int → D) (s : State D) (c : Int) (v : List Int)
    (hv : vis s = c :: v) (h1 : isalpha c = false) (h2 : isdigit c = false) (h3 : c ≠ 46) :
    (gettok strtod s).1 = c ∧ vtext (gettok strtod s).2 = v ∧ c ≠ tok_eof ∧
      (0 ≤ c → c ≠ tok_number ∧ c ≠ tok_identifier) := by
  have hn : isnumch c = false := by simp [isnumch, h2, h3]
  have hc : c ≠ EOF := vis_ne_EOF s c (by rw [hv]; exact List.mem_cons_self _ _)
  obtain ⟨a, p, e1, e2⟩ := gettok_spec strtod s
  have e3 : vtext (gettok strtod s).2 = (lexVis strtod (vis s)).rest := by
    rw [e1]
    simpa [vtext, rem] using e2
  refine ⟨?_, ?_, hc, fun h0 => ?_⟩
  · rw [gettok_fst, hv, lexVis_sym strtod v h1 hn]
  · rw [e3, hv, lexVis_sym strtod v h1 hn]
  · unfold tok_number tok_identifier
    constructor <;> omega

/-- C19, at the failing input. A character of value -1 (the byte 0xFF where
`char` is signed) is taken for the end of the input: on the line made of that
character and `1`, the first `gettok` returns `tok_eof` although the `1` has
not been read, no character is consumed after it, and the next `gettok`
returns `tok_eof` again. The claim asks for the symbol token of the
character. -/
theorem gettok_EOF_char :
    (gettok (fun t : List Int => t)
      { initial [] with InputBuffer := [-1, 49], InputPos := 0 }).1 = tok_eof ∧
    rem (gettok (fun t : List Int => t)
      { initial [] with InputBuffer := [-1, 49], InputPos := 0 }).2 = [49] ∧
    (gettok (fun t : List Int => t) (gettok (fun t : List Int => t)
      { initial [] with InputBuffer := [-1, 49], InputPos := 0 }).2).1 = tok_eof ∧
    rem (gettok (fun t : List Int => t) (gettok (fun t : List Int => t)
      { initial [] with InputBuffer := [-1, 49], InputPos := 0 }).2).2 = [49] := by
  decide

end SymbolTokens

section Witnesses

/-- Witness of C1: the line `1 - 2 - 3` parses to `Binary('-', Binary('-', 1, 2), 3)`. -/
theorem parseLine_left_assoc_witness :
    ∃ s1, parseLine (fun t : List Int => t) (initial []) [49, 32, 45, 32, 50, 32, 45, 32, 51] =
      some (some (ExprAST.BinaryExprAST 45
        (ExprAST.BinaryExprAST 45 (ExprAST.NumberExprAST [49]) (ExprAST.NumberExprAST [50]))
        (ExprAST.NumberExprAST [51])), s1) :=
  parseLine_left_assoc (fun t : List Int => t) [] 20 [] (Leaf.num [49])
    [⟨[32], 45, [32], Leaf.num [50]⟩, ⟨[32], 45, [32], Leaf.num [51]⟩] []
    (by decide) (by decide) (by decide) (by decide)

/-- Witness of C2: `1 + 2 * 3` parses to `Binary('+', 1, Binary('*', 2, 3))`
and `1 * 2 + 3` to `Binary('+', Binary('*', 1, 2), 3)`. -/
theorem parseLine_higher_binds_tighter_witness :
    (∃ s1, parseLine (fun t : List Int => t) (initial []) [49, 32, 43, 32, 50, 32, 42, 32, 51] =
      some (some (ExprAST.BinaryExprAST 43 (ExprAST.NumberExprAST [49])
        (ExprAST.BinaryExprAST 42 (ExprAST.NumberExprAST [50]) (ExprAST.NumberExprAST [51]))),
        s1)) ∧
    (∃ s1, parseLine (fun t : List Int => t) (initial []) [49, 32, 42, 32, 50, 32, 43, 32, 51] =
      some (some (ExprAST.BinaryExprAST 43
        (ExprAST.BinaryExprAST 42 (ExprAST.NumberExprAST [49]) (ExprAST.NumberExprAST [50]))
        (ExprAST.NumberExprAST [51])), s1)) :=
  parseLine_higher_binds_tighter (fun t : List Int => t) [] (Leaf.num [49]) (Leaf.num [50])
    (Leaf.num [51]) 43 42 20 40 [] [32] [32] [32] [32] []
    (by decide) (by decide) (by decide) (by decide) (by decide) (by decide) (by decide)

/-- Witness of C3: `(1 + 2) * 3` parses to `Binary('*', Binary('+', 1, 2), 3)`
and `x * (y + 3)` to `Binary('*', x, Binary('+', y, 3))`. -/
theorem parseLine_parentheses_witness :
    (∃ s1, parseLine (fun t : List Int => t) (initial [])
        [40, 49, 32, 43, 32, 50, 41, 32, 42, 32, 51] =
      some (some (ExprAST.BinaryExprAST 42
        (ExprAST.BinaryExprAST 43 (ExprAST.NumberExprAST [49]) (ExprAST.NumberExprAST [50]))
        (ExprAST.NumberExprAST [51])), s1)) ∧
    (∃ s1, parseLine (fun t : List Int => t) (initial [])
        [120, 32, 42, 32, 40, 121, 32, 43, 32, 51, 41] =
      some (some (ExprAST.BinaryExprAST 42 (ExprAST.VariableExprAST [120])
        (ExprAST.BinaryExprAST 43 (ExprAST.VariableExprAST [121])
          (ExprAST.NumberExprAST [51]))), s1)) :=
  ⟨(parseLine_parentheses (fun t : List Int => t) [] (Leaf.num [49]) (Leaf.num [50])
      (Leaf.num [51]) 43 42 20 40 [] [] [32] [32] [] [32] [32] []
      (by decide) (by decide) (by decide) (by decide) (by decide) (by decide)).1,
   (parseLine_parentheses (fun t : List Int => t) [] (Leaf.ident [120]) (Leaf.ident [121])
      (Leaf.num [51]) 42 43 40 20 [] [32] [32] [] [32] [32] [] []
      (by decide) (by decide) (by decide) (by decide) (by decide) (by decide)).2⟩

/-- Witness of C5: on the line `  ab1 +` the first `gettok` returns
`tok_identifier` with `IdentifierStr = "ab1"` and `LastChar = ' '`. -/
theorem gettok_identifier_witness :
    (gettok (fun t : List Int => t)
        { initial [] with InputBuffer := [32, 32, 97, 98, 49, 32, 43] }).1 = tok_identifier ∧
      (gettok (fun t : List Int => t)
        { initial [] with InputBuffer := [32, 32, 97, 98, 49, 32, 43] }).2.IdentifierStr =
          [97, 98, 49] ∧
      (gettok (fun t : List Int => t)
        { initial [] with InputBuffer := [32, 32, 97, 98, 49, 32, 43] }).2.LastChar = 32 :=
  gettok_identifier (fun t : List Int => t)
    { initial [] with InputBuffer := [32, 32, 97, 98, 49, 32, 43] } [32, 32] 97 [98, 49]
    [32, 43] rfl rfl rfl (by decide) (by decide) (by decide) (by decide)

/-- Witness of C6: on the line `1.2.3 ` the first `gettok` returns
`tok_number` and `NumVal` is `strtod` of the whole text `1.2.3`. -/
theorem gettok_number_witness :
    (gettok (fun t : List Int => t)
        { initial [] with InputBuffer := [49, 46, 50, 46, 51, 32] }).1 = tok_number ∧
      (gettok (fun t : List Int => t)
        { initial [] with InputBuffer := [49, 46, 50, 46, 51, 32] }).2.NumVal =
          [49, 46, 50, 46, 51] ∧
      (gettok (fun t : List Int => t)
        { initial [] with InputBuffer := [49, 46, 50, 46, 51, 32] }).2.LastChar = 32 :=
  gettok_number (fun t : List Int => t)
    { initial [] with InputBuffer := [49, 46, 50, 46, 51, 32] } [] [49, 46, 50, 46, 51] [32]
    rfl rfl rfl (by decide) (by decide) (by decide) (by decide)

/-- Witness of C7. On the line `12 + x` with `12` as the current token,
`ParsePrimary` returns `Number 12` and leaves `+` as the current token with
the cursor behind it. On the line `ab*3` with `ab` as the current token, it
returns `Variable ab` and leaves `*` as the current token with `3` as the
lookahead. With `)` as the current token it returns `nullptr`, logs the
unknown-token error and changes nothing else. -/
theorem ParsePrimary_dispatch_witness :
    (ParsePrimary (fun t : List Int => t) 1
        { IdentifierStr := [], NumVal := [49, 50], CurTok := tok_number,
          InputBuffer := [49, 50, 32, 43, 32, 120], InputPos := 3, LastChar := 32,
          BinopPrecedence := BinopPrecedence, cerr := [] } =
        some (some (ExprAST.NumberExprAST [49, 50]),
          { IdentifierStr := [], NumVal := [49, 50], CurTok := 43,
            InputBuffer := [49, 50, 32, 43, 32, 120], InputPos := 5, LastChar := 32,
            BinopPrecedence := BinopPrecedence, cerr := [] }) ∧
      OneTokenRead (fun t : List Int => t)
        { IdentifierStr := [], NumVal := [49, 50], CurTok := tok_number,
          InputBuffer := [49, 50, 32, 43, 32, 120], InputPos := 3, LastChar := 32,
          BinopPrecedence := BinopPrecedence, cerr := [] }
        { IdentifierStr := [], NumVal := [49, 50], CurTok := 43,
          InputBuffer := [49, 50, 32, 43, 32, 120], InputPos := 5, LastChar := 32,
          BinopPrecedence := BinopPrecedence, cerr := [] }) ∧
    (ParsePrimary (fun t : List Int => t) 1
        { IdentifierStr := [97, 98], NumVal := [], CurTok := tok_identifier,
          InputBuffer := [97, 98, 42, 51], InputPos := 3, LastChar := 42,
          BinopPrecedence := BinopPrecedence, cerr := [] } =
        some (some (ExprAST.VariableExprAST [97, 98]),
          { IdentifierStr := [97, 98], NumVal := [], CurTok := 42,
            InputBuffer := [97, 98, 42, 51], InputPos := 4, LastChar := 51,
            BinopPrecedence := BinopPrecedence, cerr := [] }) ∧
      OneTokenRead (fun t : List Int => t)
        { IdentifierStr := [97, 98], NumVal := [], CurTok := tok_identifier,
          InputBuffer := [97, 98, 42, 51], InputPos := 3, LastChar := 42,
          BinopPrecedence := BinopPrecedence, cerr := [] }
        { IdentifierStr := [97, 98], NumVal := [], CurTok := 42,
          InputBuffer := [97, 98, 42, 51], InputPos := 4, LastChar := 51,
          BinopPrecedence := BinopPrecedence, cerr := [] }) ∧
    ParsePrimary (fun t : List Int => t) 1 { initial [] with CurTok := 41 } =
      some (none, { initial [] with
        CurTok := 41, cerr := ["Error: Unknown token when expecting an expression"] }) :=
  ⟨(by decide : (getNextToken (fun t : List Int => t)
        { IdentifierStr := [], NumVal := [49, 50], CurTok := tok_number,
          InputBuffer := [49, 50, 32, 43, 32, 120], InputPos := 3, LastChar := 32,
          BinopPrecedence := BinopPrecedence, cerr := [] }).2 =
        { IdentifierStr := [], NumVal := [49, 50], CurTok := 43,
          InputBuffer := [49, 50, 32, 43, 32, 120], InputPos := 5, LastChar := 32,
          BinopPrecedence := BinopPrecedence, cerr := [] }) ▸
      (ParsePrimary_dispatch (fun t : List Int => t) 0
        { IdentifierStr := [], NumVal := [49, 50], CurTok := tok_number,
          InputBuffer := [49, 50, 32, 43, 32, 120], InputPos := 3, LastChar := 32,
          BinopPrecedence := BinopPrecedence, cerr := [] }).1 rfl,
    (by decide : (getNextToken (fun t : List Int => t)
        { IdentifierStr := [97, 98], NumVal := [], CurTok := tok_identifier,
          InputBuffer := [97, 98, 42, 51], InputPos := 3, LastChar := 42,
          BinopPrecedence := BinopPrecedence, cerr := [] }).2 =
        { IdentifierStr := [97, 98], NumVal := [], CurTok := 42,
          InputBuffer := [97, 98, 42, 51], InputPos := 4, LastChar := 51,
          BinopPrecedence := BinopPrecedence, cerr := [] }) ▸
      (ParsePrimary_dispatch (fun t : List Int => t) 0
        { IdentifierStr := [97, 98], NumVal := [], CurTok := tok_identifier,
          InputBuffer := [97, 98, 42, 51], InputPos := 3, LastChar := 42,
          BinopPrecedence := BinopPrecedence, cerr := [] }).2.1 rfl,
    (ParsePrimary_dispatch (fun t : List Int => t) 0 { initial [] with CurTok := 41 }).2.2
      (by decide) (by decide) (by decide)⟩

/-- Witness of C8: `1 + 2` parses up to the end of the input, and `(1 + 2`
fails with the `Expected ')'` error. -/
theorem parseLine_unclosed_paren_witness :
    ∃ u1, parseLine (fun t : List Int => t) (initial []) [40, 49, 32, 43, 32, 50] =
        some (none, u1) ∧ u1.cerr = ["Error: Expected ')'"] :=
  parseLine_unclosed_paren (fun t : List Int => t) [] [49, 32, 43, 32, 50]
    (ExprAST.BinaryExprAST 43 (ExprAST.NumberExprAST [49]) (ExprAST.NumberExprAST [50]))
    { IdentifierStr := [], NumVal := [50], CurTok := -1, InputBuffer := [49, 32, 43, 32, 50],
      InputPos := 5, LastChar := -1, BinopPrecedence := BinopPrecedence, cerr := [] }
    (by decide) (by decide)

/-- Witness of C9: `2 *` fails, and so does `1 + (2 *`. -/
theorem parseLine_failure_propagates_witness :
    ∃ u1, parseLine (fun t : List Int => t) (initial []) [49, 32, 43, 32, 40, 50, 32, 42] =
      some (none, u1) :=
  parseLine_failure_propagates (fun t : List Int => t) [] [50, 32, 42]
    { IdentifierStr := [], NumVal := [50], CurTok := -1, InputBuffer := [50, 32, 42],
      InputPos := 3, LastChar := -1, BinopPrecedence := BinopPrecedence,
      cerr := ["Error: Unknown token when expecting an expression"] }
    (Leaf.num [49]) 43 20 [] [32] [32] [] (by decide) (by decide) (by decide) (by decide)

/-- Witness of C10: `1 + 2` parses to `Binary('+', 1, 2)`, and so does
`1 + 2 ) * 3`. -/
theorem parseLine_stray_close_witness :
    ∃ u1, parseLine (fun t : List Int => t) (initial [])
        [49, 32, 43, 32, 50, 32, 41, 32, 42, 32, 51] =
      some (some (ExprAST.BinaryExprAST 43 (ExprAST.NumberExprAST [49])
        (ExprAST.NumberExprAST [50])), u1) :=
  parseLine_stray_close (fun t : List Int => t) [] [49, 32, 43, 32, 50] [32, 42, 32, 51]
    (ExprAST.BinaryExprAST 43 (ExprAST.NumberExprAST [49]) (ExprAST.NumberExprAST [50]))
    { IdentifierStr := [], NumVal := [50], CurTok := -1, InputBuffer := [49, 32, 43, 32, 50],
      InputPos := 5, LastChar := -1, BinopPrecedence := BinopPrecedence, cerr := [] }
    (by decide) (by decide)

end Witnesses

section MoreWitnesses

/-- Witness of C11: `1 + 2` parses up to the end of the input, and `1 + 2 +`
fails with the unknown-token error. -/
theorem parseLine_trailing_operator_witness :
    ∃ u1, parseLine (fun t : List Int => t) (initial []) ([49, 32, 43, 32, 50] ++ [32] ++ [43]) =
        some (none, u1) ∧ u1.cerr = ["Error: Unknown token when expecting an expression"] :=
  parseLine_trailing_operator (fun t : List Int => t) [] [49, 32, 43, 32, 50] 43 20
    (ExprAST.BinaryExprAST 43 (ExprAST.NumberExprAST [49]) (ExprAST.NumberExprAST [50]))
    { IdentifierStr := [], NumVal := [50], CurTok := -1, InputBuffer := [49, 32, 43, 32, 50],
      InputPos := 5, LastChar := -1, BinopPrecedence := BinopPrecedence, cerr := [] }
    (by decide) (by decide) (by decide) (by decide)

/-- Witness of C13: on the line made of a space and a tab every `gettok`
returns `tok_eof` and the parse fails with the unknown-token error. -/
theorem parseLine_blank_witness :
    (∀ n : Nat, (gettok (fun t : List Int => t) ((fun s => (gettok (fun t : List Int => t) s).2)^[n]
      { initial [] with InputBuffer := [32, 9], InputPos := 0 })).1 = tok_eof) ∧
    ∃ u, parseLine (fun t : List Int => t) (initial []) [32, 9] = some (none, u) ∧
      u.cerr = ["Error: Unknown token when expecting an expression"] :=
  parseLine_blank (fun t : List Int => t) [] [32, 9] (by decide)

/-- Witness of C14: `print(1)` of `Binary('+', x, 2)` writes three lines,
indented by 1, 3 and 3 spaces. -/
theorem print_listing_witness :
    print (fun t : List Int => t)
      (ExprAST.BinaryExprAST 43 (ExprAST.VariableExprAST [120]) (ExprAST.NumberExprAST [50]))
      ((1 : Nat) : Int) =
      some [[32] ++ chars "Binary Op: " ++ [43],
        [32, 32, 32] ++ chars "Variable: " ++ [120],
        [32, 32, 32] ++ chars "Number: " ++ [50]] :=
  (print_listing (fun t : List Int => t)
    (ExprAST.BinaryExprAST 43 (ExprAST.VariableExprAST [120]) (ExprAST.NumberExprAST [50]))
    1 (by decide)).1

/-- Witness of C15: `a * b / c` parses to `Binary('*', a, Binary('/', b, c))`. -/
theorem parseLine_reference_witness :
    ∃ s1, parseLine (fun t : List Int => t) (initial [])
        [97, 32, 42, 32, 98, 32, 47, 32, 99] =
      some (some (ExprAST.BinaryExprAST 42 (ExprAST.VariableExprAST [97])
        (ExprAST.BinaryExprAST 47 (ExprAST.VariableExprAST [98])
          (ExprAST.VariableExprAST [99]))), s1) :=
  (parseLine_reference (fun t : List Int => t) [] [] (Leaf.ident [97])
    [⟨[32], 42, [32], Leaf.ident [98]⟩, ⟨[32], 47, [32], Leaf.ident [99]⟩] []
    (by decide) (by decide)
    (by
      intro k hk
      simp only [List.mem_cons, List.mem_singleton, List.not_mem_nil, or_false] at hk
      rcases hk with rfl | rfl
      · exact ⟨40, by decide⟩
      · exact ⟨50, by decide⟩)
    (by decide)).1

/-- Witness of C16: the text `(a+(2*b))` parses back to
`Binary('+', a, Binary('*', 2, b))` and stops at the end of the input. -/
theorem parseLine_render_witness :
    ∃ s1, parseLine (fun t : List Int => t) (initial [])
        [40, 97, 43, 40, 50, 42, 98, 41, 41] =
      some (some (ExprAST.BinaryExprAST 43 (ExprAST.VariableExprAST [97])
        (ExprAST.BinaryExprAST 42 (ExprAST.NumberExprAST [50])
          (ExprAST.VariableExprAST [98]))), s1) ∧ s1.CurTok = tok_eof :=
  parseLine_render (fun t : List Int => t) [] []
    (Shape.binary 43 (Shape.leaf (Leaf.ident [97]))
      (Shape.binary 42 (Shape.leaf (Leaf.num [50])) (Shape.leaf (Leaf.ident [98]))))
    (by decide)
    ⟨⟨20, by decide⟩, rfl, ⟨40, by decide⟩, rfl, rfl⟩

/-- Witness of C17: the tree of `1 + 2` has the operator `+` of the table. -/
theorem parseLine_operators_witness :
    opsInTable (ExprAST.BinaryExprAST 43 (ExprAST.NumberExprAST [49])
      (ExprAST.NumberExprAST [50]) : ExprAST (List Int)) :=
  parseLine_operators (fun t : List Int => t) (initial []) [49, 32, 43, 32, 50]
    (ExprAST.BinaryExprAST 43 (ExprAST.NumberExprAST [49]) (ExprAST.NumberExprAST [50]))
    { IdentifierStr := [], NumVal := [50], CurTok := -1, InputBuffer := [49, 32, 43, 32, 50],
      InputPos := 5, LastChar := -1, BinopPrecedence := BinopPrecedence, cerr := [] }
    TableOK_initial (by decide)

/-- Witness of C18: the steps for the line `(1 +` return, here with a
failure. -/
theorem parseLine_terminates_witness :
    ∃ r, parseLine (fun t : List Int => t) (initial []) [40, 49, 32, 43] = some r ∧
      ∀ fuel, parseFuel (getNextToken (fun t : List Int => t)
          { initial [] with InputBuffer := [40, 49, 32, 43], InputPos := 0 }).2 ≤ fuel →
        parseExpression (fun t : List Int => t) fuel
          (getNextToken (fun t : List Int => t)
            { initial [] with InputBuffer := [40, 49, 32, 43], InputPos := 0 }).2 = some r :=
  (parseLine_terminates (fun t : List Int => t) (initial []) [40, 49, 32, 43]).1

/-- Witness of C20: after the lines `(1)` and `2 $` the table still holds
the five initial entries and every other entry has the value 0. -/
theorem getTokPrecedence_keeps_entries_witness :
    TableKept (afterLines (fun t : List Int => t) (initial [])
      [[40, 49, 41], [50, 32, 36]]).BinopPrecedence :=
  ((getTokPrecedence_keeps_entries (fun t : List Int => t)).2 []
    [[40, 49, 41], [50, 32, 36]]).1

end MoreWitnesses

end SimpleBinOpParser
